import Mathlib

/-!
# program-options: registry, name resolution and the two parsers

A shallow embedding of `Option.h`, `Section.h`, `ProgramOptions.h`,
`ArgumentParser.h` and `IniFileParser.h`.

* `std::string` is a list of characters (`Str`).
* `std::map<std::string, T>` is a key-ordered association list; `find` returns the
  first entry with the key, `emplace` inserts only when the key is absent.
* `std::unordered_set<std::string>` is a duplicate-free list.
* `std::regex_match` is a backtracking matcher on the fragment of the ECMAScript
  grammar that the three patterns of `IniFileParser` use.
* Writes to `std::cout` / `std::cerr` are not part of the state.
* A member function that mutates the registry returns its result together with the
  new registry.
-/

namespace arangodb
namespace options

/-- The type that stands for `std::string`. -/
abbrev Str := List Char

/-! ## Ordered maps and sets -/

/-- Strict lexicographic order of `std::string::compare`, by character code. -/
def strLt : Str → Str → Bool
  | [], [] => false
  | [], _ :: _ => true
  | _ :: _, [] => false
  | a :: as, b :: bs =>
    if a.toNat < b.toNat then true
    else if b.toNat < a.toNat then false
    else strLt as bs

/-- Member `find` of `std::map`: the value stored under `k`, `none` for `end()`. -/
def mapFind {β : Type} : List (Str × β) → Str → Option β
  | [], _ => none
  | (k', v) :: m, k => if k' = k then some v else mapFind m k

/-- The place of a new entry in a map: in front of the first key that is greater. -/
def mapInsert {β : Type} : List (Str × β) → Str → β → List (Str × β)
  | [], k, v => [(k, v)]
  | (k', v') :: m, k, v =>
    if strLt k k' then (k, v) :: (k', v') :: m else (k', v') :: mapInsert m k v

/-- Member `emplace` of `std::map`: nothing changes when the key is present, and
the entry is put at its place in key order when it is absent; the boolean is
the `.second` of the returned pair. -/
def mapEmplace {β : Type} (m : List (Str × β)) (k : Str) (v : β) : List (Str × β) × Bool :=
  if (mapFind m k).isSome then (m, false) else (mapInsert m k v, true)

/-- In-place update of the value a `find` iterator points at. -/
def mapUpdate {β : Type} : List (Str × β) → Str → (β → β) → List (Str × β)
  | [], _, _ => []
  | (k', v) :: m, k, f => if k' = k then (k', f v) :: m else (k', v) :: mapUpdate m k f

/-- Member `emplace` of `std::unordered_set`. -/
def setEmplace (s : List Str) (x : Str) : List Str :=
  if x ∈ s then s else s ++ [x]

/-! ## Strings -/

/-- The call `s.find(c)` for a single character: index of the first occurrence. -/
def findChar (c : Char) : Str → Option Nat
  | [] => none
  | x :: xs => if x = c then some 0 else (findChar c xs).map (· + 1)

/-! ## Parameter -/

/-- Modelled from the spec: the Parameter capability contract of `Parameters.h`,
which is not among the sources. A parameter is a deterministic object whose
state is the sequence of values its setter has received: `check` is the error
string `set` returns for a value after the calls already made (empty = accepted),
`requiresValue` is its declared requirement. -/
structure Parameter where
  check : List Str → Str → Str
  requiresValue : Bool
  calls : List Str

/-- The call `parameter->set(value)`: the returned string and the parameter afterwards. -/
def Parameter.set (P : Parameter) (value : Str) : Str × Parameter :=
  (P.check P.calls value, { P with calls := P.calls ++ [value] })

/-- Modelled from the spec: `ObsoleteParameter` of `Parameters.h`, the parameter
bound to obsolete options; it accepts and discards every value. -/
def ObsoleteParameter : Parameter :=
  { check := fun _ _ => [], requiresValue := false, calls := [] }

/-! ## Option -/

/-- The struct `Option` of `Option.h`. -/
structure ProgOption where
  section_ : Str
  name : Str
  description : Str
  shorthand : Str
  parameter : Parameter
  hidden : Bool
  obsolete : Bool

/-- The function `Option::stripPrefix`. -/
def stripPrefix (name : Str) : Str :=
  match name with
  | '-' :: '-' :: rest => rest
  | _ => name

/-- The function `Option::stripShorthand`. -/
def stripShorthand (name : Str) : Str :=
  match name with
  | '-' :: rest => rest
  | _ => name

/-- The function `Option::splitName`. -/
def splitName (name : Str) : Str × Str :=
  let name := stripPrefix name
  match findChar '.' name with
  | none => ([], name)
  | some pos => (name.take pos, name.drop (pos + 1))

/-- The constructor `Option::Option`. -/
def ProgOption.new (value description : Str) (parameter : Parameter)
    (hidden obsolete : Bool) : ProgOption :=
  let parts := splitName value
  match findChar ',' parts.2 with
  | some pos =>
    { section_ := parts.1, name := parts.2.take pos, description := description,
      shorthand := stripShorthand (parts.2.drop (pos + 1)), parameter := parameter,
      hidden := hidden, obsolete := obsolete }
  | none =>
    { section_ := parts.1, name := parts.2, description := description,
      shorthand := [], parameter := parameter, hidden := hidden, obsolete := obsolete }

/-- The function `Option::fullName`. -/
def ProgOption.fullName (o : ProgOption) : Str :=
  if o.section_ = [] then o.name else o.section_ ++ '.' :: o.name

/-- The function `Option::displayName`. -/
def ProgOption.displayName (o : ProgOption) : Str :=
  '-' :: '-' :: o.fullName

/-! ## Section -/

/-- The struct `Section` of `Section.h`. -/
structure Section where
  name : Str
  description : Str
  alias_ : Str
  hidden : Bool
  obsolete : Bool
  options : List (Str × ProgOption)

/-- The constructor `Section::Section`: a section without options. -/
def Section.new (name description alias_ : Str) (hidden obsolete : Bool) : Section :=
  { name := name, description := description, alias_ := alias_, hidden := hidden,
    obsolete := obsolete, options := [] }

/-- The function `Section::addOption`. -/
def Section.addOption (s : Section) (option : ProgOption) : Section :=
  { s with options := (mapEmplace s.options option.name option).1 }

/-! ## ProgramOptions -/

/-- The class `ProgramOptions::ProcessingResult`. -/
structure ProcessingResult where
  _positionals : List Str
  _touched : List Str
  _failed : Bool

/-- The function `ProcessingResult::touch`. -/
def ProcessingResult.touch (r : ProcessingResult) (name : Str) : ProcessingResult :=
  { r with _touched := setEmplace r._touched name }

/-- The function `ProcessingResult::touched`. -/
def ProcessingResult.touched (r : ProcessingResult) (name : Str) : Bool :=
  decide (stripPrefix name ∈ r._touched)

/-- The setter `ProcessingResult::failed(bool)`. -/
def ProcessingResult.setFailed (r : ProcessingResult) (value : Bool) : ProcessingResult :=
  { r with _failed := value }

/-- The getter `ProcessingResult::failed()`. -/
def ProcessingResult.failed (r : ProcessingResult) : Bool := r._failed

/-- The class `ProgramOptions`: the members that option processing reads or writes
(`_progname`, `_usage`, `_more` and `_terminalWidth` only feed the help output).
`_similarity` is `none` for a null `std::function`. -/
structure ProgramOptions where
  _context : Str
  _sections : List (Str × Section)
  _shorthands : List (Str × Str)
  _similarity : Option (Str → Str → Int)
  _processingResult : ProcessingResult
  _sealed : Bool

/-- The constructor `ProgramOptions::ProgramOptions`. -/
def ProgramOptions.new (similarity : Option (Str → Str → Int)) : ProgramOptions :=
  { _context := [], _sections := [], _shorthands := [], _similarity := similarity,
    _processingResult := { _positionals := [], _touched := [], _failed := false },
    _sealed := false }

namespace ProgramOptions

/-- The function `ProgramOptions::processingResult`. -/
def processingResult (p : ProgramOptions) : ProcessingResult := p._processingResult

/-- The function `ProgramOptions::seal` (`seal` is reserved in Lean). -/
def seal_ (p : ProgramOptions) : ProgramOptions := { p with _sealed := true }

/-- The function `ProgramOptions::setContext`. -/
def setContext (p : ProgramOptions) (value : Str) : ProgramOptions :=
  { p with _context := value }

/-- The function `ProgramOptions::checkIfSealed`; `Except.error` is the thrown
`std::logic_error`. -/
def checkIfSealed (p : ProgramOptions) : Except String Unit :=
  if p._sealed then .error "program options are already sealed" else .ok ()

/-- The function `ProgramOptions::addSection(Section const&)`. -/
def addSection (p : ProgramOptions) (s : Section) : Except String ProgramOptions :=
  match p.checkIfSealed with
  | .error e => .error e
  | .ok _ => .ok { p with _sections := (mapEmplace p._sections s.name s).1 }

/-- The function `ProgramOptions::addSection(name, description)`. -/
def addSectionNamed (p : ProgramOptions) (name description : Str) :
    Except String ProgramOptions :=
  p.addSection (Section.new name description [] false false)

/-- The function `ProgramOptions::addHiddenSection`. -/
def addHiddenSection (p : ProgramOptions) (name description : Str) :
    Except String ProgramOptions :=
  p.addSection (Section.new name description [] true false)

/-- The function `ProgramOptions::addObsoleteSection`. -/
def addObsoleteSection (p : ProgramOptions) (name : Str) : Except String ProgramOptions :=
  p.addSection (Section.new name [] [] true true)

/-- The private function `ProgramOptions::addOption(Option const&)`. The shorthand
is entered before the option is stored, and both use `emplace`. -/
def addOptionPriv (p : ProgramOptions) (option : ProgOption) : Except String ProgramOptions :=
  match p.checkIfSealed with
  | .error e => .error e
  | .ok _ =>
    match mapFind p._sections option.section_ with
    | none => .error "no section defined for program option"
    | some _ =>
      if option.shorthand ≠ [] ∧
          (mapEmplace p._shorthands option.shorthand option.fullName).2 = false then
        .error "shorthand option already defined for option"
      else
        let shorthands :=
          if option.shorthand ≠ [] then
            (mapEmplace p._shorthands option.shorthand option.fullName).1
          else p._shorthands
        .ok { p with
          _shorthands := shorthands,
          _sections := mapUpdate p._sections option.section_ (fun s => s.addOption option) }

/-- The function `ProgramOptions::addOption(name, description, parameter)`. -/
def addOption (p : ProgramOptions) (name description : Str) (parameter : Parameter) :
    Except String ProgramOptions :=
  p.addOptionPriv (ProgOption.new name description parameter false false)

/-- The function `ProgramOptions::addHiddenOption`. -/
def addHiddenOption (p : ProgramOptions) (name description : Str) (parameter : Parameter) :
    Except String ProgramOptions :=
  p.addOptionPriv (ProgOption.new name description parameter true false)

/-- The function `ProgramOptions::addObsoleteOption`. -/
def addObsoleteOption (p : ProgramOptions) (name description : Str) :
    Except String ProgramOptions :=
  p.addOptionPriv (ProgOption.new name description ObsoleteParameter true true)

/-- The function `ProgramOptions::translateShorthand`. -/
def translateShorthand (p : ProgramOptions) (name : Str) : Str :=
  match mapFind p._shorthands name with
  | none => name
  | some full => full

/-- The function `ProgramOptions::fail`; the message goes to `std::cerr` only. -/
def fail (p : ProgramOptions) (_message : Str) : Bool × ProgramOptions :=
  (false, { p with _processingResult := p._processingResult.setFailed true })

/-- The function `ProgramOptions::unknownOption`; the suggestions of `similar`
are only printed. -/
def unknownOption (p : ProgramOptions) (name : Str) : Bool × ProgramOptions :=
  (false, (p.fail ("unknown option '".data ++ name ++ "'".data)).2)

/-- The function `ProgramOptions::addPositional`. -/
def addPositional (p : ProgramOptions) (value : Str) : ProgramOptions :=
  { p with _processingResult :=
      { p._processingResult with _positionals := p._processingResult._positionals ++ [value] } }

/-- The function `ProgramOptions::require`. -/
def require (p : ProgramOptions) (name : Str) : Bool × ProgramOptions :=
  let parts := splitName name
  match mapFind p._sections parts.1 with
  | none => p.unknownOption name
  | some s =>
    match mapFind s.options parts.2 with
    | none => p.unknownOption name
    | some _ => (true, p)

/-- The function `ProgramOptions::setValue`. -/
def setValue (p : ProgramOptions) (name value : Str) : Bool × ProgramOptions :=
  let parts := splitName name
  match mapFind p._sections parts.1 with
  | none => p.unknownOption name
  | some s =>
    if s.obsolete then (true, p)
    else
      match mapFind s.options parts.2 with
      | none => p.unknownOption name
      | some option =>
        if option.obsolete then
          (true, { p with _processingResult := p._processingResult.touch name })
        else
          let r := option.parameter.set value
          let p1 : ProgramOptions :=
            { p with _sections := mapUpdate p._sections parts.1 (fun s =>
                { s with options := mapUpdate s.options parts.2 (fun o =>
                    { o with parameter := r.2 }) }) }
          if r.1 ≠ [] then
            p1.fail ("error setting value for option '".data ++ name ++ "': ".data ++ r.1)
          else
            (true, { p1 with _processingResult := p1._processingResult.touch name })

/-- The function `ProgramOptions::requiresValue`. -/
def requiresValue (p : ProgramOptions) (name : Str) : Bool :=
  let parts := splitName name
  match mapFind p._sections parts.1 with
  | none => false
  | some s =>
    match mapFind s.options parts.2 with
    | none => false
    | some option => option.parameter.requiresValue

end ProgramOptions

/-! ## ArgumentParser -/

namespace ArgumentParser

/-- The result of an iteration that ends with the `setValue` call of line 97:
`return false` (`none`) when it fails, `lastOption = ""` otherwise. -/
def setAndClear (r : Bool × ProgramOptions) : Option Str × ProgramOptions :=
  if r.1 = false then (none, r.2) else (some [], r.2)

/-- The branch `pos == npos` of the loop body (lines 68 to 86): an option without
'=', after `dashes` dashes were removed. -/
def onlyOption (p : ProgramOptions) (lastOption : Str) (dashes : Nat) (option : Str) :
    Option Str × ProgramOptions :=
  let option := if dashes = 1 then p.translateShorthand option else option
  let r := p.require option
  if r.1 = false then (none, r.2)
  else if r.2.requiresValue option = false then
    let r2 := r.2.setValue option []
    if r2.1 = false then (none, r2.2) else (some lastOption, r2.2)
  else (some option, r.2)

/-- The branch `option = value` of the loop body (lines 87 to 99), `pos` being the
index of the first '='. -/
def optionValue (p : ProgramOptions) (dashes : Nat) (option : Str) (pos : Nat) :
    Option Str × ProgramOptions :=
  let value := option.drop (pos + 1)
  let option := option.take pos
  let option := if dashes = 1 then p.translateShorthand option else option
  setAndClear (p.setValue option value)

/-- One pass through the body of the `for` loop of `ArgumentParser::parse` on the
token `current`: `none` when the body executes `return false`, otherwise the
value `lastOption` has when the next iteration starts. -/
def parseStep (p : ProgramOptions) (lastOption current : Str) : Option Str × ProgramOptions :=
  if lastOption ≠ [] then setAndClear (p.setValue lastOption current)
  else
    let dashes : Nat :=
      if current.take 2 = ['-', '-'] then 2 else if current.take 1 = ['-'] then 1 else 0
    if dashes = 0 then (some lastOption, p.addPositional current)
    else
      let option := current.drop dashes
      match findChar '=' option with
      | none => onlyOption p lastOption dashes option
      | some pos => optionValue p dashes option pos

/-- The `for` loop of `ArgumentParser::parse` over the tokens `argv[1..]`. -/
def parseLoop (p : ProgramOptions) (lastOption : Str) : List Str → Option Str × ProgramOptions
  | [] => (some lastOption, p)
  | current :: rest =>
    match parseStep p lastOption current with
    | (none, p1) => (none, p1)
    | (some lastOption1, p1) => parseLoop p1 lastOption1 rest

/-- The context `ArgumentParser::parse` sets for error messages. -/
def context : Str := "command-line options".data

/-- The function `ArgumentParser::parse`; `argv` has `argc` elements. -/
def parse (p : ProgramOptions) (argv : List Str) : Bool × ProgramOptions :=
  match parseLoop (p.setContext context) [] (argv.drop 1) with
  | (none, p1) => (false, p1)
  | (some lastOption, p1) =>
    if lastOption ≠ [] then
      p1.fail ("no value specified for option '".data ++ lastOption ++ "'".data)
    else (true, p1)

end ArgumentParser

/-! ## Name resolution and sample registries -/

/-- The two lookups that open `require`, `setValue` and `requiresValue`: the
section and the option that `name` resolves to. -/
def ProgramOptions.resolve (p : ProgramOptions) (name : Str) : Option (Section × ProgOption) :=
  match mapFind p._sections (splitName name).1 with
  | none => none
  | some s =>
    match mapFind s.options (splitName name).2 with
    | none => none
    | some o => some (s, o)

/-- A parameter that accepts every value. -/
def anyValue (requiresValue : Bool) : Parameter :=
  { check := fun _ _ => [], requiresValue := requiresValue, calls := [] }

/-- A parameter that accepts no value. -/
def noValue (requiresValue : Bool) : Parameter :=
  { check := fun _ _ => "invalid value".data, requiresValue := requiresValue, calls := [] }

/-- A parameter that requires a value and accepts the non-empty strings of digits. -/
def digitsOnly : Parameter :=
  { check := fun _ v =>
      if v ≠ [] ∧ v.all Char.isDigit = true then [] else "invalid numeric value".data,
    requiresValue := true, calls := [] }

/-- The registry a declaration sequence ends with, the empty registry when a
declaration raises. -/
def declared (r : Except String ProgramOptions) : ProgramOptions :=
  match r with
  | .ok p => p
  | .error _ => ProgramOptions.new none

/-- A registry declared the way `main` of `example.cpp` declares its own: a global
section with the switch `quiet` (shorthand `q`) and the option `configuration`
(shorthand `c`), a section `database` with the numeric option `journal-size`, a
hidden section `debugging` with an obsolete option, and the obsolete section
`y2kbug`. -/
def sampleDeclarations : Except String ProgramOptions :=
  ((ProgramOptions.new none).addSection
    (Section.new [] "Global options".data "global options".data false false)).bind fun p =>
  (p.addOption "--quiet,-q".data "be quiet".data (anyValue false)).bind fun p =>
  (p.addOption "--configuration,-c".data "configuration file".data (anyValue true)).bind fun p =>
  (p.addSectionNamed "database".data "Database options".data).bind fun p =>
  (p.addOption "--database.journal-size".data "journal size".data digitsOnly).bind fun p =>
  (p.addHiddenSection "debugging".data "Debugging options".data).bind fun p =>
  (p.addObsoleteOption "--debugging.not-used-anymore".data "obsolete".data).bind fun p =>
  p.addObsoleteSection "y2kbug".data

/-- The registry of `sampleDeclarations`. -/
def sample : ProgramOptions := declared sampleDeclarations

/-- A registry whose only option, `file`, is declared as "--file,--f": the
constructor removes one '-' of the suffix and the shorthand is "-f". -/
def dashed : ProgramOptions :=
  declared (((ProgramOptions.new none).addSectionNamed [] []).bind fun p =>
    p.addOption "--file,--f".data [] (anyValue true))

/-- A registry with three switches, none of which requires a value: `century` in
the obsolete section `y2kbug`, `strict`, whose Parameter accepts no value, and
`level=max`, whose name contains '='. -/
def switches : ProgramOptions :=
  declared (((ProgramOptions.new none).addSectionNamed [] []).bind fun p =>
    (p.addObsoleteSection "y2kbug".data).bind fun p =>
    (p.addOption "--y2kbug.century".data [] (anyValue false)).bind fun p =>
    (p.addOption "--strict".data [] (noValue false)).bind fun p =>
    p.addOption "--level=max".data [] (anyValue false))

/-- A registry with three obsolete sections whose names cannot be spelled in a
dotted option name: `y2k.bug`, `y2k=bug` and `--y2kbug`. -/
def oddSections : ProgramOptions :=
  declared (((ProgramOptions.new none).addObsoleteSection "y2k.bug".data).bind fun p =>
    (p.addObsoleteSection "y2k=bug".data).bind fun p =>
    p.addObsoleteSection "--y2kbug".data)

/-- The function `ProgramOptions::addSection(Section const&)` with the registry it
leaves behind made explicit, also when it throws: the first component is the
message of the `std::logic_error`, `none` when the call returns. -/
def ProgramOptions.addSectionEffect (p : ProgramOptions) (s : Section) :
    Option String × ProgramOptions :=
  if p._sealed then (some "program options are already sealed", p)
  else (none, { p with _sections := (mapEmplace p._sections s.name s).1 })

/-- The private `ProgramOptions::addOption(Option const&)`, statement by statement,
with the registry it leaves behind made explicit, also when it throws: the
first component is the message of the `std::logic_error`, `none` when the call
returns. The shorthand map has gone through its `emplace` when the third
`throw` is reached. -/
def ProgramOptions.addOptionEffect (p : ProgramOptions) (option : ProgOption) :
    Option String × ProgramOptions :=
  if p._sealed then (some "program options are already sealed", p)
  else
    match mapFind p._sections option.section_ with
    | none => (some "no section defined for program option", p)
    | some _ =>
      let r :=
        if option.shorthand ≠ [] then
          mapEmplace p._shorthands option.shorthand option.fullName
        else (p._shorthands, true)
      let p1 : ProgramOptions := { p with _shorthands := r.1 }
      if r.2 = false then (some "shorthand option already defined for option", p1)
      else
        (none, { p1 with
          _sections := mapUpdate p1._sections option.section_ (fun s => s.addOption option) })

/-- The condition under which the specification lets `addOption` raise: the
registry is sealed, or the section of the option is not registered, or the
shorthand of the option is not empty and already registered. -/
def ProgramOptions.mustRaise (p : ProgramOptions) (option : ProgOption) : Bool :=
  p._sealed || (mapFind p._sections option.section_).isNone ||
    (decide (option.shorthand ≠ []) && (mapFind p._shorthands option.shorthand).isSome)

/-- The message of the `std::logic_error` that `checkIfSealed` throws. -/
def sealedError : String := "program options are already sealed"

/-- The split the specification of `require` describes: `name` cut at its first
'.', with nothing removed in front; a name without '.' has the empty section. -/
def splitAtFirstDot (name : Str) : Str × Str :=
  match findChar '.' name with
  | none => ([], name)
  | some pos => (name.take pos, name.drop (pos + 1))

/-- Whether the section `parts.1` is registered and contains an option with the
local name `parts.2`. -/
def ProgramOptions.holds (p : ProgramOptions) (parts : Str × Str) : Bool :=
  match mapFind p._sections parts.1 with
  | none => false
  | some s => (mapFind s.options parts.2).isSome

/-- The requirement of the Parameter `name` resolves to, `none` when it does not
resolve: what `require` and `requiresValue` read from the registry. -/
def ProgramOptions.lookupReq (p : ProgramOptions) (name : Str) : Option Bool :=
  (p.resolve name).map fun so => so.2.parameter.requiresValue

/-! ## IniFileParser -/

namespace IniFileParser

/-- The fragment of the ECMAScript grammar the three patterns of the constructor
are written in. `star` is a greedy `*` on one character class, `opt` a greedy
`(...)?`, `group i` the capture group number `i`. -/
inductive Regex where
  | cls (p : Char → Bool)
  | star (p : Char → Bool)
  | seq (a b : Regex)
  | opt (a : Regex)
  | group (i : Nat) (a : Regex)

/-- The sub-matches of a match: `m i` is `match[i].str()`, empty for a group
that did not take part. -/
abbrev Captures := Nat → Str

/-- The function `Captures` updated at group `i`. -/
def setGroup (g : Captures) (i : Nat) (text : Str) : Captures :=
  fun j => if j = i then text else g j

/-- A greedy `*` in front of the continuation `k`: the longest run of characters
of the class is tried first, then the shorter ones. -/
def starMatch (p : Char → Bool) (k : Str → Captures → Option Captures) :
    Str → Captures → Option Captures
  | [], g => k [] g
  | c :: s, g =>
    if p c = true then
      match starMatch p k s g with
      | some r => some r
      | none => k (c :: s) g
    else k (c :: s) g

/-- The backtracking matcher: `matchWith re k s g` is the first way, in the
order of preference of the grammar, to match `re` at the head of `s` such that
the continuation `k` accepts what follows. -/
def matchWith :
    Regex → (Str → Captures → Option Captures) → Str → Captures → Option Captures
  | .cls _, _, [], _ => none
  | .cls p, k, c :: s, g => if p c = true then k s g else none
  | .star p, k, s, g => starMatch p k s g
  | .seq a b, k, s, g => matchWith a (matchWith b k) s g
  | .opt a, k, s, g =>
    match matchWith a k s g with
    | some r => some r
    | none => k s g
  | .group i a, k, s, g =>
    matchWith a (fun r g1 => k r (setGroup g1 i (s.take (s.length - r.length)))) s g

/-- The call `std::regex_match(line, match, re)`: the whole line has to match, so
that `^` and `$` at the two ends of a pattern hold by themselves. -/
def regexMatch (re : Regex) (line : Str) : Option Captures :=
  matchWith re (fun r g => if r = [] then some g else none) line (fun _ => [])

/-- The class `[ \t]`. -/
def isBlank (c : Char) : Bool := c = ' ' || c = '\t'

/-- The class `[-_A-Za-z0-9]`. -/
def isNameChar (c : Char) : Bool := c = '-' || c = '_' || c.isAlphanum

/-- The class `[#;]`. -/
def isCommentStart (c : Char) : Bool := c = '#' || c = ';'

/-- The atom `.` of the ECMAScript grammar: every character but a line terminator. -/
def isAny (c : Char) : Bool := c != '\n' && c != '\r'

/-- The pattern `^[ \t]*([#;].*)?$` of `_matchers.comment` (compiled with `nosubs`). -/
def commentRegex : Regex :=
  .seq (.star isBlank) (.opt (.seq (.cls isCommentStart) (.star isAny)))

/-- The pattern `^[ \t]*\[([-_A-Za-z0-9]*)\][ \t]*$` of `_matchers.section`. -/
def sectionRegex : Regex :=
  .seq (.star isBlank) (.seq (.cls (· = '[')) (.seq (.group 1 (.star isNameChar))
    (.seq (.cls (· = ']')) (.star isBlank))))

/-- The pattern
`^[ \t]*(([-_A-Za-z0-9]*\.)?[-_A-Za-z0-9]*)[ \t]*=[ \t]*(.*)?[ \t]*$` of
`_matchers.assignment`. -/
def assignmentRegex : Regex :=
  .seq (.star isBlank)
    (.seq (.group 1 (.seq (.opt (.group 2 (.seq (.star isNameChar) (.cls (· = '.')))))
        (.star isNameChar)))
      (.seq (.star isBlank) (.seq (.cls (· = '=')) (.seq (.star isBlank)
        (.seq (.opt (.group 3 (.star isAny))) (.star isBlank))))))

/-- The context `IniFileParser::parse` sets for a line that is not a comment. -/
def context (filename : Str) (lineNumber : Nat) : Str :=
  "config file '".data ++ filename ++ "', line #".data ++ (Nat.repr lineNumber).data

/-- The option name of an assignment (lines 65 to 71): `key` is `match[1]`,
`qualifier` is `match[2]`. -/
def optionName (currentSection key qualifier : Str) : Str :=
  if currentSection = [] ∨ qualifier ≠ [] then key else currentSection ++ '.' :: key

/-- The body of the `while` loop of `IniFileParser::parse` on one line, whose
number is `lineNumber`: `none` when the body executes `return false`, otherwise
the value of `currentSection` afterwards. -/
def parseLine (p : ProgramOptions) (filename currentSection : Str) (lineNumber : Nat)
    (line : Str) : Option Str × ProgramOptions :=
  if (regexMatch commentRegex line).isSome then (some currentSection, p)
  else
    let p := p.setContext (context filename lineNumber)
    match regexMatch sectionRegex line with
    | some m => (some (m 1), p)
    | none =>
      match regexMatch assignmentRegex line with
      | some m =>
        let r := p.setValue (optionName currentSection (m 1) (m 2)) (m 3)
        if r.1 = false then (none, r.2) else (some currentSection, r.2)
      | none => (none, (p.fail "unknown line type".data).2)

/-- The `while` loop of `IniFileParser::parse` over the lines `std::getline`
delivers; `lineNumber` is the counter before its increment. -/
def parseLoop (p : ProgramOptions) (filename currentSection : Str) (lineNumber : Nat) :
    List Str → Option Str × ProgramOptions
  | [] => (some currentSection, p)
  | line :: rest =>
    match parseLine p filename currentSection (lineNumber + 1) line with
    | (none, p1) => (none, p1)
    | (some currentSection1, p1) => parseLoop p1 filename currentSection1 (lineNumber + 1) rest

/-- The lines `std::getline` delivers while the stream is good: the content cut
at every line feed, the piece after the last line feed included (it is empty
when the file ends with a line feed, or is empty). -/
def getlines : Str → List Str
  | [] => [[]]
  | c :: s =>
    if c = '\n' then [] :: getlines s
    else
      match getlines s with
      | [] => [[c]]
      | line :: rest => (c :: line) :: rest

/-- The loop of `IniFileParser::parse` and its `return true`, on given lines. -/
def parseLines (p : ProgramOptions) (filename : Str) (lines : List Str) :
    Bool × ProgramOptions :=
  match parseLoop p filename [] 0 lines with
  | (none, p1) => (false, p1)
  | (some _, p1) => (true, p1)

/-- The function `IniFileParser::parse`; `file` is the content of the file
`filename`, `none` when it cannot be opened. -/
def parse (p : ProgramOptions) (filename : Str) (file : Option Str) : Bool × ProgramOptions :=
  match file with
  | none => p.fail "unable to open file".data
  | some content => parseLines p filename (getlines content)

end IniFileParser

/-- The first character of a line that is neither a space nor a tab. -/
def firstNonBlank (line : Str) : Option Char :=
  (line.dropWhile IniFileParser.isBlank).head?

/-- The option name the specification gives to an assignment `key = value`: the
key itself when it contains a '.', the key prefixed with the current section
when that is not empty, and the bare key otherwise. -/
def specOptionName (currentSection key : Str) : Str :=
  if '.' ∈ key then key
  else if currentSection ≠ [] then currentSection ++ '.' :: key
  else key

/-- The keys the assignment pattern admits: name characters with at most one '.'. -/
def IsKey (key : Str) : Prop :=
  (∀ c ∈ key, IniFileParser.isNameChar c = true) ∨
    ∃ a b, key = a ++ '.' :: b ∧ (∀ c ∈ a, IniFileParser.isNameChar c = true) ∧
      ∀ c ∈ b, IniFileParser.isNameChar c = true

/-! ## Word wrap, help pre-scan and suggestions -/

/-- The separators `"., "` that `Option::wordwrap` hands to `find_last_of`. -/
def isBreak (c : Char) : Bool := c = '.' || c = ',' || c = ' '

/-- The call `s.find_last_of(chars, pos)`: the greatest index not above `pos`
whose character is one of `chars` (here: satisfies `p`), `none` for `npos`. -/
def findLastOf (p : Char → Bool) (s : Str) : Nat → Option Nat
  | 0 =>
    match s[0]? with
    | some c => if p c then some 0 else none
    | none => none
  | pos + 1 =>
    match s[pos + 1]? with
    | some c => if p c then some (pos + 1) else findLastOf p s pos
    | none => findLastOf p s pos

/-- The index `m` at which one iteration of the loop of `Option::wordwrap` cuts. -/
def wordwrapCut (size : Nat) (next : Str) : Nat :=
  match findLastOf isBreak next (size - 1) with
  | none => size
  | some m => if m < size / 2 then size else m + 1

/-- The `while` loop of `Option::wordwrap`, one iteration per unit of fuel;
`none` when the fuel is used up before the loop ends. -/
def wordwrapLoop (size : Nat) : Nat → Str → List Str → Option (List Str)
  | 0, _, _ => none
  | fuel + 1, next, result =>
    if next.length > size then
      wordwrapLoop size fuel (next.drop (wordwrapCut size next))
        (result ++ [next.take (wordwrapCut size next)])
    else some (result ++ [next])

/-- The function `Option::wordwrap`, its loop run with the given fuel. -/
def wordwrap (fuel : Nat) (value : Str) (size : Nat) : Option (List Str) :=
  if size > 0 then wordwrapLoop size fuel value [] else some ([] ++ [value])

/-- The `for` loop of `ArgumentParser::helpSection` over the tokens from index 1 on. -/
def ArgumentParser.helpSectionLoop : List Str → Str
  | [] => []
  | current :: rest =>
    if current.length ≥ 6 ∧ current.take 6 = "--help".data then
      if current.length ≤ 7 then "*".data else current.drop 7
    else ArgumentParser.helpSectionLoop rest

/-- The function `ArgumentParser::helpSection`; `argc` is the length of `argv`. -/
def ArgumentParser.helpSection (argv : List Str) : Str :=
  ArgumentParser.helpSectionLoop (argv.drop 1)

/-- The function `ProgramOptions::walk`: the pairs handed to the callback, in the
order of the calls. -/
def ProgramOptions.walk (p : ProgramOptions) (onlyTouched : Bool) :
    List (Section × ProgOption) :=
  p._sections.flatMap fun it =>
    if it.2.obsolete then []
    else
      it.2.options.filterMap fun it2 =>
        if it2.2.obsolete then none
        else if onlyTouched && !p._processingResult.touched it2.2.fullName then none
        else some (it.2, it2.2)

/-- Member `emplace` of `std::multimap<int, std::string>`: entries are kept in
ascending key order, a new entry going behind the entries of the same key. -/
def multimapEmplace (m : List (Int × Str)) (k : Int) (v : Str) : List (Int × Str) :=
  match m with
  | [] => [(k, v)]
  | e :: rest => if k < e.1 then (k, v) :: e :: rest else e :: multimapEmplace rest k v

/-- The multimap `distances` that `ProgramOptions::similar` builds in its walk. -/
def ProgramOptions.distances (p : ProgramOptions) (similarity : Str → Str → Int)
    (value : Str) : List (Int × Str) :=
  (p.walk false).foldl
    (fun distances so =>
      if so.2.fullName ≠ value then
        multimapEmplace distances (similarity value so.2.fullName) so.2.displayName
      else distances)
    []

/-- The `for` loop of `ProgramOptions::similar` over the sorted distances. -/
def ProgramOptions.similarLoop (cutOff : Int) (max : Nat) :
    Int → List Str → List (Int × Str) → List Str
  | _, result, [] => result
  | last, result, it :: rest =>
    if last > 1 ∧ it.1 > 2 * last then result
    else if it.1 > cutOff then ProgramOptions.similarLoop cutOff max last result rest
    else if (result ++ [it.2]).length ≥ max then result ++ [it.2]
    else ProgramOptions.similarLoop cutOff max it.1 (result ++ [it.2]) rest

/-- The function `ProgramOptions::similar`. -/
def ProgramOptions.similar (p : ProgramOptions) (value : Str) (cutOff : Int) (max : Nat) :
    List Str :=
  match p._similarity with
  | none => []
  | some similarity =>
    ProgramOptions.similarLoop cutOff max 0 [] (p.distances similarity value)

/-! ## The similarity callback of `example.cpp` -/

/-- The inner `for` loop of `similarityFunc` for one character `r` of `rhs`:
`lhs` holds the characters from `lhs[y - 1]` on, `left` is the cell `col[y - 1]`
as already rewritten, `last` the saved old content of `col[y - 1]`, and the
list argument holds the cells from `col[y]` on; the result is their new content. -/
def similarityInner (r : Char) : Str → Int → Int → List Int → List Int
  | c :: lhs, left, last, save :: col =>
    let v := min (min (save + 1) (left + 1)) (last + (if c = r then 0 else 1))
    v :: similarityInner r lhs v save col
  | _, _, _, col => col

/-- The outer `for` loop of `similarityFunc`, from `x` on; the first argument
holds the characters of `rhs` from `rhs[x - 1]` on. -/
def similarityOuter (lhs : Str) : Str → Int → List Int → List Int
  | [], _, col => col
  | r :: rhs, x, col =>
    similarityOuter lhs rhs (x + 1) (x :: similarityInner r lhs x (x - 1) col.tail)

/-- The `std::iota` call of `similarityFunc`: `n` cells holding `start`, `start + 1`, ... -/
def iota : Nat → Int → List Int
  | 0, _ => []
  | n + 1, start => start :: iota n (start + 1)

/-- The function `similarityFunc` of `example.cpp`. The array from `new int[...]`
is not initialised and `std::iota` fills it from `col + 1` on, so `uninit` stands
for whatever `col[0]` holds at first. -/
def similarityFunc (uninit : Int) (lhs rhs : Str) : Int :=
  let col := uninit :: iota lhs.length 1
  (similarityOuter lhs rhs 1 col).getD lhs.length 0

/-- A registry with three options that are not obsolete, require a value and
accept every value: `century` in the obsolete section `y2kbug`, `level=max`, whose
name contains '=', and the option whose name is empty. -/
def valued : ProgramOptions :=
  declared (((ProgramOptions.new none).addSectionNamed [] []).bind fun p =>
    (p.addObsoleteSection "y2kbug".data).bind fun p =>
    (p.addOption "--y2kbug.century".data [] (anyValue true)).bind fun p =>
    (p.addOption "--level=max".data [] (anyValue true)).bind fun p =>
    p.addOption [] [] (anyValue true))

/-- A registry with the similarity callback of `example.cpp`: a global section with
the options `port` and `protocol`, a hidden section `server` with the option
`ports`, and an obsolete option `proto`. -/
def suggest : ProgramOptions :=
  declared (((ProgramOptions.new (some (similarityFunc 0))).addSectionNamed [] []).bind fun p =>
    (p.addOption "--port".data [] (anyValue true)).bind fun p =>
    (p.addOption "--protocol".data [] (anyValue true)).bind fun p =>
    (p.addObsoleteOption "--proto".data []).bind fun p =>
    (p.addHiddenSection "server".data []).bind fun p =>
    p.addOption "--server.ports".data [] (anyValue true))

/-- The cut that the description of `wordwrap` asks for in the text `next`: just
after the last separator among the first `size` characters when that separator
is at index `size / 2` or later, and at `size` when no separator is there. -/
def IsCut (size : Nat) (next : Str) (m : Nat) : Prop :=
  (∃ i c, i < size ∧ size / 2 ≤ i ∧ next[i]? = some c ∧ isBreak c = true ∧
      (∀ j d, i < j → j < size → next[j]? = some d → isBreak d = false) ∧ m = i + 1) ∨
    ((∀ j d, size / 2 ≤ j → j < size → next[j]? = some d → isBreak d = false) ∧ m = size)

/-- Every piece but the last is cut off the text that it and the later pieces
make up at the place that `IsCut` describes. -/
def CutsAt (size : Nat) : List Str → Prop
  | [] => True
  | [_] => True
  | piece :: rest => IsCut size (piece ++ rest.flatten) piece.length ∧ CutsAt size rest

theorem mapFind_mapUpdate {β : Type} (m : List (Str × β)) (k k' : Str) (f : β → β) :
    mapFind (mapUpdate m k f) k' = if k' = k then (mapFind m k).map f else mapFind m k' := by
  induction m with
  | nil => simp [mapUpdate, mapFind]
  | cons kv m ih =>
    obtain ⟨a, b⟩ := kv
    by_cases hak : a = k
    · subst hak
      by_cases hk : k' = a
      · subst hk; simp [mapUpdate, mapFind]
      · have hk2 : ¬ a = k' := fun h => hk h.symm
        simp [mapUpdate, mapFind, hk, hk2]
    · by_cases hk : k' = k
      · subst hk; simp [mapUpdate, mapFind, hak, ih]
      · by_cases hak2 : a = k'
        · simp [mapUpdate, mapFind, hak, hak2, hk]
        · simp [mapUpdate, mapFind, hak, hak2, hk, ih]

theorem resolve_eq_some (p : ProgramOptions) (name : Str) (s : Section) (o : ProgOption) :
    p.resolve name = some (s, o) ↔
      mapFind p._sections (splitName name).1 = some s ∧
      mapFind s.options (splitName name).2 = some o := by
  cases h1 : mapFind p._sections (splitName name).1 with
  | none => simp [ProgramOptions.resolve, h1]
  | some s1 =>
    cases h2 : mapFind s1.options (splitName name).2 with
    | none =>
      simp only [ProgramOptions.resolve, h1, h2, Option.some.injEq]
      constructor
      · intro h; cases h
      · rintro ⟨rfl, h⟩; rw [h2] at h; cases h
    | some o1 =>
      simp only [ProgramOptions.resolve, h1, h2, Option.some.injEq, Prod.mk.injEq]
      constructor
      · rintro ⟨rfl, rfl⟩; exact ⟨rfl, h2⟩
      · rintro ⟨rfl, h⟩; rw [h2] at h; exact ⟨rfl, Option.some.inj h⟩

theorem mapFind_mapInsert {β : Type} (m : List (Str × β)) (k : Str) (v : β)
    (h : mapFind m k = none) : mapFind (mapInsert m k v) k = some v := by
  induction m with
  | nil => simp [mapInsert, mapFind]
  | cons kv m ih =>
    obtain ⟨a, b⟩ := kv
    by_cases hak : a = k
    · simp [mapFind, hak] at h
    · simp only [mapFind, hak, if_false] at h
      by_cases hlt : strLt k a = true
      · simp [mapInsert, mapFind, hlt]
      · simp [mapInsert, mapFind, hak, hlt, ih h]

theorem mapFind_mapEmplace_new {β : Type} (m : List (Str × β)) (k : Str) (v : β)
    (h : mapFind m k = none) : mapFind (mapEmplace m k v).1 k = some v := by
  simp [mapEmplace, h, mapFind_mapInsert m k v h]

theorem findChar_none (c : Char) (a : Str) (h : c ∉ a) : findChar c a = none := by
  induction a with
  | nil => rfl
  | cons x xs ih =>
    have hx : ¬ x = c := fun e => h (by simp [e])
    have hxs : c ∉ xs := fun e => h (by simp [e])
    simp [findChar, hx, ih hxs]

theorem findChar_append (c : Char) (a b : Str) (h : c ∉ a) :
    findChar c (a ++ c :: b) = some a.length := by
  induction a with
  | nil => simp [findChar]
  | cons x xs ih =>
    have hx : ¬ x = c := fun e => h (by simp [e])
    have hxs : c ∉ xs := fun e => h (by simp [e])
    simp [findChar, hx, ih hxs]

/-! ## Lemmas on the registry: what a pass over the input leaves alone -/

theorem require_eq_lookupReq (p : ProgramOptions) (name : Str) :
    (p.require name).1 = (p.lookupReq name).isSome := by
  cases h1 : mapFind p._sections (splitName name).1 with
  | none =>
    simp [ProgramOptions.require, ProgramOptions.lookupReq, ProgramOptions.resolve, h1,
      ProgramOptions.unknownOption]
  | some s1 =>
    cases h2 : mapFind s1.options (splitName name).2 <;>
      simp [ProgramOptions.require, ProgramOptions.lookupReq, ProgramOptions.resolve, h1, h2,
        ProgramOptions.unknownOption]

theorem requiresValue_eq_lookupReq (p : ProgramOptions) (name : Str) :
    p.requiresValue name = (p.lookupReq name).getD false := by
  cases h1 : mapFind p._sections (splitName name).1 with
  | none =>
    simp [ProgramOptions.requiresValue, ProgramOptions.lookupReq, ProgramOptions.resolve, h1]
  | some s1 =>
    cases h2 : mapFind s1.options (splitName name).2 <;>
      simp [ProgramOptions.requiresValue, ProgramOptions.lookupReq, ProgramOptions.resolve,
        h1, h2]

theorem require_state (p : ProgramOptions) (name : Str) :
    (p.require name).2 =
      if (p.require name).1 = true then p
      else { p with _processingResult := { p._processingResult with _failed := true } } := by
  cases h1 : mapFind p._sections (splitName name).1 with
  | none =>
    simp [ProgramOptions.require, h1, ProgramOptions.unknownOption,
      ProgramOptions.fail, ProcessingResult.setFailed]
  | some s1 =>
    cases h2 : mapFind s1.options (splitName name).2 <;>
      simp [ProgramOptions.require, h1, h2, ProgramOptions.unknownOption,
        ProgramOptions.fail, ProcessingResult.setFailed]

theorem setValue_lookupReq (p : ProgramOptions) (n v m : Str) :
    (p.setValue n v).2.lookupReq m = p.lookupReq m := by
  cases h1 : mapFind p._sections (splitName n).1 with
  | none =>
    simp [ProgramOptions.setValue, h1, ProgramOptions.unknownOption, ProgramOptions.fail,
      ProgramOptions.lookupReq, ProgramOptions.resolve]
  | some s1 =>
    by_cases hs : s1.obsolete = true
    · simp [ProgramOptions.setValue, h1, hs]
    · cases h2 : mapFind s1.options (splitName n).2 with
      | none =>
        simp [ProgramOptions.setValue, h1, hs, h2, ProgramOptions.unknownOption,
          ProgramOptions.fail, ProgramOptions.lookupReq, ProgramOptions.resolve]
      | some o1 =>
        by_cases ho : o1.obsolete = true
        · simp [ProgramOptions.setValue, h1, hs, h2, ho, ProgramOptions.lookupReq,
            ProgramOptions.resolve]
        · have key : ∀ q : ProgramOptions,
              q._sections = mapUpdate p._sections (splitName n).1 (fun s =>
                { s with options := mapUpdate s.options (splitName n).2 (fun o =>
                    { o with parameter := (o1.parameter.set v).2 }) }) →
              q.lookupReq m = p.lookupReq m := by
            intro q hq
            simp only [ProgramOptions.lookupReq, ProgramOptions.resolve, hq, mapFind_mapUpdate]
            by_cases e1 : (splitName m).1 = (splitName n).1
            · rw [e1] at *
              simp only [if_true, h1, Option.map_some']
              by_cases e2 : (splitName m).2 = (splitName n).2
              · simp [mapFind_mapUpdate, e2, h2, Parameter.set]
              · simp only [mapFind_mapUpdate, e2, if_false]
                cases mapFind s1.options (splitName m).2 <;> simp
            · simp [e1]
          by_cases hr : (o1.parameter.set v).1 = []
          · apply key
            simp [ProgramOptions.setValue, h1, hs, h2, ho, hr]
          · apply key
            simp [ProgramOptions.setValue, h1, hs, h2, ho, hr, ProgramOptions.fail]

theorem require_lookupReq (p : ProgramOptions) (n m : Str) :
    (p.require n).2.lookupReq m = p.lookupReq m := by
  rw [require_state]
  split <;> rfl

theorem setAndClear_snd (r : Bool × ProgramOptions) :
    (ArgumentParser.setAndClear r).2 = r.2 := by
  unfold ArgumentParser.setAndClear
  split <;> rfl

theorem onlyOption_lookupReq (p : ProgramOptions) (lastOption option m : Str) (dashes : Nat) :
    (ArgumentParser.onlyOption p lastOption dashes option).2.lookupReq m = p.lookupReq m := by
  unfold ArgumentParser.onlyOption
  simp only []
  split_ifs <;> simp [setValue_lookupReq, require_lookupReq]

theorem parseStep_lookupReq (p : ProgramOptions) (lastOption current m : Str) :
    (ArgumentParser.parseStep p lastOption current).2.lookupReq m = p.lookupReq m := by
  unfold ArgumentParser.parseStep
  by_cases hlo : lastOption ≠ []
  · rw [if_pos hlo, setAndClear_snd, setValue_lookupReq]
  · rw [if_neg hlo]
    simp only []
    generalize (if current.take 2 = ['-', '-'] then 2
      else if current.take 1 = ['-'] then 1 else 0) = dashes
    by_cases hd : dashes = 0
    · rw [if_pos hd]; rfl
    · rw [if_neg hd]
      cases findChar '=' (List.drop dashes current) with
      | none => exact onlyOption_lookupReq _ _ _ _ _
      | some pos =>
        simp only [ArgumentParser.optionValue, setAndClear_snd, setValue_lookupReq]

theorem parseLoop_lookupReq (tokens : List Str) (p : ProgramOptions) (lastOption m : Str) :
    (ArgumentParser.parseLoop p lastOption tokens).2.lookupReq m = p.lookupReq m := by
  induction tokens generalizing p lastOption with
  | nil => rfl
  | cons t ts ih =>
    unfold ArgumentParser.parseLoop
    have h := parseStep_lookupReq p lastOption t m
    split
    · next p1 heq => rw [heq] at h; exact h
    · next lo1 p1 heq => rw [heq] at h; rw [ih]; exact h

theorem parseLoop_append (xs ys : List Str) (p : ProgramOptions) (lastOption : Str) :
    ArgumentParser.parseLoop p lastOption (xs ++ ys) =
      match ArgumentParser.parseLoop p lastOption xs with
      | (none, p1) => (none, p1)
      | (some lastOption1, p1) => ArgumentParser.parseLoop p1 lastOption1 ys := by
  induction xs generalizing p lastOption with
  | nil => rfl
  | cons t ts ih =>
    simp only [List.cons_append, ArgumentParser.parseLoop]
    cases hstep : ArgumentParser.parseStep p lastOption t with
    | mk a p1 =>
      cases a with
      | none => rfl
      | some lo1 => exact ih p1 lo1

theorem take_length_append (a b : Str) (c : Char) : (a ++ c :: b).take a.length = a := by
  induction a with
  | nil => rfl
  | cons x xs ih => simp

theorem drop_length_append (a b : Str) (c : Char) : (a ++ c :: b).drop (a.length + 1) = b := by
  induction a with
  | nil => rfl
  | cons x xs ih => simp

theorem setValue_setContext (p : ProgramOptions) (c n v : Str) :
    (p.setContext c).setValue n v = ((p.setValue n v).1, (p.setValue n v).2.setContext c) := by
  cases h1 : mapFind p._sections (splitName n).1 with
  | none =>
    simp [ProgramOptions.setValue, ProgramOptions.setContext, h1, ProgramOptions.unknownOption,
      ProgramOptions.fail]
  | some s1 =>
    by_cases hs : s1.obsolete = true
    · simp [ProgramOptions.setValue, ProgramOptions.setContext, h1, hs]
    · cases h2 : mapFind s1.options (splitName n).2 with
      | none =>
        simp [ProgramOptions.setValue, ProgramOptions.setContext, h1, hs, h2,
          ProgramOptions.unknownOption, ProgramOptions.fail]
      | some o1 =>
        by_cases ho : o1.obsolete = true
        · simp [ProgramOptions.setValue, ProgramOptions.setContext, h1, hs, h2, ho]
        · by_cases hr : (o1.parameter.set v).1 = []
          · simp [ProgramOptions.setValue, ProgramOptions.setContext, h1, hs, h2, ho, hr]
          · simp [ProgramOptions.setValue, ProgramOptions.setContext, h1, hs, h2, ho, hr,
              ProgramOptions.fail]

theorem parse_of_setAndClear (p : ProgramOptions) (argv : List Str) (r : Bool × ProgramOptions)
    (h : ArgumentParser.parseLoop (p.setContext ArgumentParser.context) [] (argv.drop 1) =
      ArgumentParser.setAndClear r) :
    ArgumentParser.parse p argv = r := by
  unfold ArgumentParser.parse
  rw [h]
  obtain ⟨b, q⟩ := r
  cases b <;> simp [ArgumentParser.setAndClear]

theorem lookupReq_some (p : ProgramOptions) (F : Str) (b : Bool)
    (h : p.lookupReq F = some b) :
    (p.require F).1 = true ∧ (p.require F).2 = p ∧ p.requiresValue F = b := by
  have h1 : (p.require F).1 = true := by rw [require_eq_lookupReq, h]; rfl
  refine ⟨h1, ?_, ?_⟩
  · rw [require_state, if_pos h1]
  · rw [requiresValue_eq_lookupReq, h]; rfl

/-! ## Lemmas on the loop body of `ArgumentParser::parse` -/

theorem parseStep_pending (p : ProgramOptions) (lastOption current : Str)
    (h : lastOption ≠ []) :
    ArgumentParser.parseStep p lastOption current =
      ArgumentParser.setAndClear (p.setValue lastOption current) := by
  unfold ArgumentParser.parseStep
  rw [if_pos h]

theorem parseStep_positional (p : ProgramOptions) (t : Str) (h : t.head? ≠ some '-') :
    ArgumentParser.parseStep p [] t = (some [], p.addPositional t) := by
  unfold ArgumentParser.parseStep
  cases t with
  | nil => simp
  | cons x xs =>
    have hx : x ≠ '-' := fun e => h (by simp [e])
    simp [hx]

theorem parseStep_long (p : ProgramOptions) (n : Str) (h : '=' ∉ n) :
    ArgumentParser.parseStep p [] ('-' :: '-' :: n) = ArgumentParser.onlyOption p [] 2 n := by
  unfold ArgumentParser.parseStep
  simp [findChar_none _ _ h]

theorem parseStep_long_eq (p : ProgramOptions) (n v : Str) (h : '=' ∉ n) :
    ArgumentParser.parseStep p [] ('-' :: '-' :: (n ++ '=' :: v)) =
      ArgumentParser.setAndClear (p.setValue n v) := by
  unfold ArgumentParser.parseStep
  simp [findChar_append _ _ _ h, ArgumentParser.optionValue, take_length_append,
    drop_length_append]

theorem take_two_short (h : Str) (hd : h.head? ≠ some '-') :
    ¬ List.take 2 ('-' :: h) = ['-', '-'] := by
  cases h with
  | nil => simp
  | cons x xs =>
    have hx : x ≠ '-' := fun e => hd (by simp [e])
    simp [hx]

theorem parseStep_short (p : ProgramOptions) (h : Str) (he : '=' ∉ h)
    (hd : h.head? ≠ some '-') :
    ArgumentParser.parseStep p [] ('-' :: h) = ArgumentParser.onlyOption p [] 1 h := by
  unfold ArgumentParser.parseStep
  simp only [take_two_short h hd]
  simp [findChar_none _ _ he]

theorem parseStep_short_eq (p : ProgramOptions) (h v : Str) (he : '=' ∉ h)
    (hd : h.head? ≠ some '-') :
    ArgumentParser.parseStep p [] ('-' :: (h ++ '=' :: v)) =
      ArgumentParser.setAndClear (p.setValue (p.translateShorthand h) v) := by
  have h2 : ¬ List.take 2 ('-' :: (h ++ '=' :: v)) = ['-', '-'] := by
    cases h with
    | nil => simp
    | cons x xs =>
      have hx : x ≠ '-' := fun e => hd (by simp [e])
      simp [hx]
  unfold ArgumentParser.parseStep
  simp only [h2]
  simp [findChar_append _ _ _ he, ArgumentParser.optionValue, take_length_append,
    drop_length_append]

theorem onlyOption_pending (p : ProgramOptions) (lastOption n : Str)
    (h : p.lookupReq n = some true) :
    ArgumentParser.onlyOption p lastOption 2 n = (some n, p) := by
  obtain ⟨h1, h2, h3⟩ := lookupReq_some p n true h
  simp [ArgumentParser.onlyOption, h1, h2, h3]

theorem onlyOption_short_pending (p : ProgramOptions) (lastOption n : Str)
    (h : p.lookupReq (p.translateShorthand n) = some true) :
    ArgumentParser.onlyOption p lastOption 1 n = (some (p.translateShorthand n), p) := by
  obtain ⟨h1, h2, h3⟩ := lookupReq_some p _ true h
  simp [ArgumentParser.onlyOption, h1, h2, h3]

theorem onlyOption_switch (p : ProgramOptions) (lastOption n : Str)
    (h : p.lookupReq n = some false) :
    ArgumentParser.onlyOption p lastOption 2 n =
      if (p.setValue n []).1 = false then (none, (p.setValue n []).2)
      else (some lastOption, (p.setValue n []).2) := by
  obtain ⟨h1, h2, h3⟩ := lookupReq_some p n false h
  simp [ArgumentParser.onlyOption, h1, h2, h3]

theorem onlyOption_unknown (p : ProgramOptions) (lastOption n : Str)
    (h : p.lookupReq n = none) :
    ArgumentParser.onlyOption p lastOption 2 n =
      (none, { p with _processingResult := { p._processingResult with _failed := true } }) := by
  have h1 : (p.require n).1 = false := by rw [require_eq_lookupReq, h]; rfl
  have h2 := require_state p n
  rw [h1] at h2
  simp [ArgumentParser.onlyOption, h1, h2]

theorem parse_true (p : ProgramOptions) (argv : List Str)
    (h : (ArgumentParser.parse p argv).1 = true) :
    ArgumentParser.parseLoop (p.setContext ArgumentParser.context) [] (argv.drop 1) =
      (some [], (ArgumentParser.parse p argv).2) := by
  unfold ArgumentParser.parse at h ⊢
  cases hl : ArgumentParser.parseLoop (p.setContext ArgumentParser.context) []
      (argv.drop 1) with
  | mk a p1 =>
    rw [hl] at h
    cases a with
    | none => simp at h
    | some lo =>
      by_cases hlo : lo = []
      · subst hlo; simp
      · simp [hlo, ProgramOptions.fail] at h

theorem parse_prefix_state (p : ProgramOptions) (argv : List Str) (m : Str)
    (h : (ArgumentParser.parse p argv).1 = true) :
    (ArgumentParser.parse p argv).2.lookupReq m = p.lookupReq m := by
  have h1 := parseLoop_lookupReq (argv.drop 1) (p.setContext ArgumentParser.context) [] m
  rw [parse_true p argv h] at h1
  exact h1

/-! ## Claims on `setValue`, `require` and `requiresValue` -/

/-- C1: `setValue` records the name as the caller spelled it, and `touched`
removes a leading "--" from the name it is asked about. In `sample` the name
"--quiet" resolves to the switch `quiet` of the global section, neither of them
obsolete; the setter accepts the empty value, `setValue` returns true and the
setter has been called once, with that value; but the touched set then holds
"--quiet", and `touched` answers false for the full name "quiet" of the option
and for "--quiet" as well. The command line `prog ----quiet` ends in the same
call and the same answer. -/
theorem setValue_touch_keeps_prefix :
    (sample.resolve "--quiet".data).map
        (fun so => (so.1.obsolete, so.2.obsolete, so.2.fullName, so.2.parameter.calls)) =
      some (false, false, "quiet".data, []) ∧
    (sample.setValue "--quiet".data []).1 = true ∧
    ((sample.setValue "--quiet".data []).2.resolve "--quiet".data).map
        (fun so => so.2.parameter.calls) = some [[]] ∧
    (sample.setValue "--quiet".data []).2.processingResult._touched = ["--quiet".data] ∧
    (sample.setValue "--quiet".data []).2.processingResult.touched "quiet".data = false ∧
    (sample.setValue "--quiet".data []).2.processingResult.touched "--quiet".data = false ∧
    (ArgumentParser.parse sample ["prog".data, "----quiet".data]).1 = true ∧
    (ArgumentParser.parse sample
      ["prog".data, "----quiet".data]).2.processingResult.touched "quiet".data = false := by
  decide

/-- C2: when `name` resolves to a non-obsolete option of a non-obsolete section and
the option's setter returns a non-empty error string for `value`, `setValue`
returns false, the failure flag is set afterwards, and the touched set and the
positional list are what they were before the call. -/
theorem setValue_rejected (p : ProgramOptions) (name value : Str) (s : Section)
    (o : ProgOption) (hres : p.resolve name = some (s, o)) (hs : s.obsolete = false)
    (ho : o.obsolete = false) (hrej : (o.parameter.set value).1 ≠ []) :
    (p.setValue name value).1 = false ∧
    (p.setValue name value).2.processingResult.failed = true ∧
    (p.setValue name value).2.processingResult._touched = p.processingResult._touched ∧
    (p.setValue name value).2.processingResult._positionals =
      p.processingResult._positionals := by
  obtain ⟨h1, h2⟩ := (resolve_eq_some p name s o).1 hres
  simp [ProgramOptions.setValue, h1, h2, hs, ho, hrej, ProgramOptions.fail,
    ProgramOptions.processingResult, ProcessingResult.failed, ProcessingResult.setFailed]

/-- Witness of C2: in `sample`, `database.journal-size` rejects the value "12k". -/
theorem setValue_rejected_witness :
    (sample.setValue "database.journal-size".data "12k".data).1 = false ∧
    (sample.setValue "database.journal-size".data "12k".data).2.processingResult.failed = true ∧
    (sample.setValue "database.journal-size".data "12k".data).2.processingResult._touched =
      sample.processingResult._touched ∧
    (sample.setValue "database.journal-size".data "12k".data).2.processingResult._positionals =
      sample.processingResult._positionals :=
  setValue_rejected sample "database.journal-size".data "12k".data _ _ rfl
    (by decide) (by decide) (by decide)

/-- C3: when the section part of `name` (the text before the first '.', after a
leading "--" is removed) is a registered obsolete section, `setValue` returns
true and leaves the whole registry as it was: touched set, failure flag,
positional list and every Parameter, whether or not the section holds an option
of that local name. -/
theorem setValue_obsolete_section (p : ProgramOptions) (name value : Str) (s : Section)
    (hsec : mapFind p._sections (splitName name).1 = some s) (hs : s.obsolete = true) :
    (p.setValue name value).1 = true ∧ (p.setValue name value).2 = p := by
  simp [ProgramOptions.setValue, hsec, hs]

/-- Witness of C3: `y2kbug` is an obsolete section of `sample` and holds no option. -/
theorem setValue_obsolete_section_witness :
    (sample.setValue "--y2kbug.century".data "19".data).1 = true ∧
    (sample.setValue "--y2kbug.century".data "19".data).2 = sample :=
  setValue_obsolete_section sample "--y2kbug.century".data "19".data _ rfl (by decide)

/-- C4: in `sample` the name "--debugging.not-used-anymore" resolves to an obsolete
option of the non-obsolete section `debugging`. `setValue` returns true, does
not call the setter of the option and leaves the failure flag unset; it records
the name as spelled, so that `touched` answers false for the full name
"debugging.not-used-anymore" of the option. -/
theorem setValue_obsolete_option_keeps_prefix :
    (sample.resolve "--debugging.not-used-anymore".data).map
        (fun so => (so.1.obsolete, so.2.obsolete, so.2.fullName, so.2.parameter.calls)) =
      some (false, true, "debugging.not-used-anymore".data, []) ∧
    (sample.setValue "--debugging.not-used-anymore".data "1".data).1 = true ∧
    ((sample.setValue "--debugging.not-used-anymore".data "1".data).2.resolve
        "--debugging.not-used-anymore".data).map (fun so => so.2.parameter.calls) = some [] ∧
    (sample.setValue "--debugging.not-used-anymore".data "1".data).2.processingResult.failed =
      false ∧
    (sample.setValue "--debugging.not-used-anymore".data "1".data).2.processingResult._touched =
      ["--debugging.not-used-anymore".data] ∧
    (sample.setValue "--debugging.not-used-anymore".data "1".data).2.processingResult.touched
      "debugging.not-used-anymore".data = false := by
  decide

/-- C5, as stated, fails: `require` removes a leading "--" before it splits. In
`sample`, `require` accepts "--quiet", although the name has no '.', and the
global section holds no option with the local name "--quiet". -/
theorem require_strips_prefix :
    (sample.require "--quiet".data).1 = true ∧
    splitAtFirstDot "--quiet".data = ([], "--quiet".data) ∧
    sample.holds (splitAtFirstDot "--quiet".data) = false := by
  decide

/-- C5, amended: `require(name)` returns true exactly when, after one leading "--"
of `name` is removed and the rest is split at its first '.', the section is
registered and contains an option with the local name. When it returns true
the registry is unchanged; when it returns false the registry differs from the
one before in the failure flag only, which is set. -/
theorem require_spec (p : ProgramOptions) (name : Str) :
    (p.require name).1 = p.holds (splitAtFirstDot (stripPrefix name)) ∧
    (p.require name).2 =
      if (p.require name).1 = true then p
      else { p with _processingResult := { p._processingResult with _failed := true } } := by
  have hsplit : splitAtFirstDot (stripPrefix name) = splitName name := rfl
  rw [hsplit]
  cases h1 : mapFind p._sections (splitName name).1 with
  | none =>
    simp [ProgramOptions.require, ProgramOptions.holds, h1, ProgramOptions.unknownOption,
      ProgramOptions.fail, ProcessingResult.setFailed]
  | some s1 =>
    cases h2 : mapFind s1.options (splitName name).2 <;>
      simp [ProgramOptions.require, ProgramOptions.holds, h1, h2, ProgramOptions.unknownOption,
        ProgramOptions.fail, ProcessingResult.setFailed]

/-- C6, as stated, fails in two ways. `addOption` stores with `emplace`, which
keeps an option that is already there: after a second `quiet`, whose parameter
requires a value, has been added to `sample` without an error, `requiresValue`
still gives the answer of the first one. And an option declared as
"--.log.level" is stored in the global section under the name "log.level",
which `requiresValue` splits into section "log" and name "level". -/
theorem requiresValue_addOption_mismatch :
    ((sample.addOption "quiet".data [] (anyValue true)).toOption.map
        fun q => q.requiresValue
          (ProgOption.new "quiet".data [] (anyValue true) false false).fullName) =
      some false ∧
    ((sample.addOption "--.log.level".data [] (anyValue true)).toOption.map
        fun q => ((q.holds ([], "log.level".data)),
          q.requiresValue
            (ProgOption.new "--.log.level".data [] (anyValue true) false false).fullName)) =
      some (true, false) ∧
    (anyValue true).requiresValue = true := by
  decide

/-- C6, amended: when `addOption` does not raise for an option `o`, no option of
the name of `o` was in its section before, and the full name of `o` splits back
into its section and name, then `requiresValue(o.fullName())` is the answer of
the Parameter of `o`. For every registry and every name that does not resolve,
`requiresValue` is false; it is a `const` member and changes nothing. -/
theorem requiresValue_addOption (p q : ProgramOptions) (o : ProgOption)
    (hadd : p.addOptionPriv o = .ok q)
    (hnew : p.holds (o.section_, o.name) = false)
    (hname : splitName o.fullName = (o.section_, o.name)) :
    q.requiresValue o.fullName = o.parameter.requiresValue ∧
    ∀ (r : ProgramOptions) (name : Str), r.resolve name = none →
      r.requiresValue name = false := by
  constructor
  · unfold ProgramOptions.addOptionPriv at hadd
    cases hseal : p.checkIfSealed with
    | error e => simp [hseal] at hadd
    | ok u =>
      cases hsec : mapFind p._sections o.section_ with
      | none => simp [hseal, hsec] at hadd
      | some s =>
        have hopt : mapFind s.options o.name = none := by
          simpa [ProgramOptions.holds, hsec] using hnew
        simp only [hseal, hsec] at hadd
        split at hadd
        · cases hadd
        · cases hadd
          simp [ProgramOptions.requiresValue, hname, mapFind_mapUpdate, hsec,
            Section.addOption, mapFind_mapEmplace_new _ _ _ hopt]
  · intro r name hr
    cases h1 : mapFind r._sections (splitName name).1 with
    | none => simp [ProgramOptions.requiresValue, h1]
    | some s1 =>
      cases h2 : mapFind s1.options (splitName name).2 with
      | none => simp [ProgramOptions.requiresValue, h1, h2]
      | some o1 => simp [ProgramOptions.resolve, h1, h2] at hr

/-- Witness of C6: the switch `database.wait-for-sync` added to `sample`, and the
name `database.size`, which does not resolve. -/
theorem requiresValue_addOption_witness :
    (declared (sample.addOption "--database.wait-for-sync".data [] (anyValue false))).requiresValue
        "database.wait-for-sync".data = false ∧
    sample.requiresValue "database.size".data = false :=
  ⟨(requiresValue_addOption sample _
      (ProgOption.new "--database.wait-for-sync".data [] (anyValue false) false false)
      rfl (by decide) (by decide)).1,
    (requiresValue_addOption sample _
      (ProgOption.new "--database.wait-for-sync".data [] (anyValue false) false false)
      rfl (by decide) (by decide)).2 sample "database.size".data rfl⟩

/-! ## Claims on `ArgumentParser::parse` -/

/-- C7, amended: let the name `F` (non-empty, without '=') resolve to an option
whose Parameter requires a value, and let `h` be a shorthand registered for `F`
that contains no '=' and does not begin with '-'. For every value token `v`,
`parse` on `[prog, "--F=v"]`, `[prog, "--F", v]`, `[prog, "-h", v]` and
`[prog, "-h=v"]` returns what one `setValue(F, v)` returns and leaves the
registry that `setValue(F, v)` leaves, with the command-line context set. -/
theorem parse_spellings (p : ProgramOptions) (prog F h v : Str) (s : Section) (o : ProgOption)
    (hres : p.resolve F = some (s, o)) (hreq : o.parameter.requiresValue = true)
    (hF : F ≠ []) (hFeq : '=' ∉ F)
    (hh : mapFind p._shorthands h = some F) (hheq : '=' ∉ h)
    (hdash : h.head? ≠ some '-') :
    ArgumentParser.parse p [prog, '-' :: '-' :: (F ++ '=' :: v)] =
      ((p.setValue F v).1, (p.setValue F v).2.setContext ArgumentParser.context) ∧
    ArgumentParser.parse p [prog, '-' :: '-' :: F, v] =
      ((p.setValue F v).1, (p.setValue F v).2.setContext ArgumentParser.context) ∧
    ArgumentParser.parse p [prog, '-' :: h, v] =
      ((p.setValue F v).1, (p.setValue F v).2.setContext ArgumentParser.context) ∧
    ArgumentParser.parse p [prog, '-' :: (h ++ '=' :: v)] =
      ((p.setValue F v).1, (p.setValue F v).2.setContext ArgumentParser.context) := by
  have hl : (p.setContext ArgumentParser.context).lookupReq F = some true := by
    show p.lookupReq F = some true
    simp [ProgramOptions.lookupReq, hres, hreq]
  have htr : (p.setContext ArgumentParser.context).translateShorthand h = F := by
    simp [ProgramOptions.translateShorthand, ProgramOptions.setContext, hh]
  rw [← setValue_setContext]
  refine ⟨?_, ?_, ?_, ?_⟩ <;> apply parse_of_setAndClear
  · simp only [List.drop_one, List.tail_cons, ArgumentParser.parseLoop,
      parseStep_long_eq _ _ _ hFeq]
    split <;> simp_all
  · simp only [List.drop_one, List.tail_cons, ArgumentParser.parseLoop,
      parseStep_long _ _ hFeq, onlyOption_pending _ _ _ hl, parseStep_pending _ _ _ hF]
    split <;> simp_all
  · have hl2 : (p.setContext ArgumentParser.context).lookupReq
        ((p.setContext ArgumentParser.context).translateShorthand h) = some true := by
      rw [htr]; exact hl
    simp only [List.drop_one, List.tail_cons, ArgumentParser.parseLoop,
      parseStep_short _ _ hheq hdash, onlyOption_short_pending _ _ _ hl2, htr,
      parseStep_pending _ _ _ hF]
    split <;> simp_all
  · simp only [List.drop_one, List.tail_cons, ArgumentParser.parseLoop,
      parseStep_short_eq _ _ _ hheq hdash, htr]
    split <;> simp_all

/-- Witness of C7: the option `configuration` of `sample`, its shorthand `c`, and
the value "--x=1", which begins with dashes and contains '='. -/
theorem parse_spellings_witness :
    ArgumentParser.parse sample ["prog".data, "--configuration=--x=1".data] =
      ((sample.setValue "configuration".data "--x=1".data).1,
        (sample.setValue "configuration".data "--x=1".data).2.setContext
          ArgumentParser.context) ∧
    ArgumentParser.parse sample ["prog".data, "--configuration".data, "--x=1".data] =
      ((sample.setValue "configuration".data "--x=1".data).1,
        (sample.setValue "configuration".data "--x=1".data).2.setContext
          ArgumentParser.context) ∧
    ArgumentParser.parse sample ["prog".data, "-c".data, "--x=1".data] =
      ((sample.setValue "configuration".data "--x=1".data).1,
        (sample.setValue "configuration".data "--x=1".data).2.setContext
          ArgumentParser.context) ∧
    ArgumentParser.parse sample ["prog".data, "-c=--x=1".data] =
      ((sample.setValue "configuration".data "--x=1".data).1,
        (sample.setValue "configuration".data "--x=1".data).2.setContext
          ArgumentParser.context) :=
  parse_spellings sample "prog".data "configuration".data "c".data "--x=1".data _ _ rfl
    (by decide) (by decide) (by decide) (by decide) (by decide) (by decide)

/-- C7, as stated, fails for a shorthand that begins with '-'. In `dashed` the
shorthand "-f" is registered for `file`, which resolves and requires a value;
neither contains '='. `parse` on `[prog, "--file=v"]` succeeds and touches
`file`, while on `[prog, "-" ++ "-f", "v"]` the token is read as the long option
`f`, which does not exist: `parse` returns false with the failure flag set. -/
theorem parse_dashed_shorthand :
    mapFind dashed._shorthands "-f".data = some "file".data ∧
    dashed.lookupReq "file".data = some true ∧
    (ArgumentParser.parse dashed ["prog".data, "--file=v".data]).1 = true ∧
    (ArgumentParser.parse dashed ["prog".data, "--file=v".data]).2.processingResult._touched =
      ["file".data] ∧
    (ArgumentParser.parse dashed ["prog".data, '-' :: "-f".data, "v".data]).1 = false ∧
    (ArgumentParser.parse dashed
      ["prog".data, '-' :: "-f".data, "v".data]).2.processingResult.failed = true ∧
    (ArgumentParser.parse dashed
      ["prog".data, '-' :: "-f".data, "v".data]).2.processingResult._touched = [] := by
  decide

/-- C8, as stated, fails in three ways, shown on `switches`, whose three options
are not obsolete and require no value. The option `century` lies in the
obsolete section `y2kbug`: `parse` on `[prog, "--y2kbug.century", "x"]` records
"x" but never calls the setter. The Parameter of `strict` rejects the empty
string: `parse` on `[prog, "--strict", "x"]` calls the setter once and returns
false without recording "x". The name `level=max` contains '=': on
`[prog, "--level=max", "x"]` the token is split at '=', the option `level` is
unknown, and neither the setter is called nor "x" recorded. -/
theorem parse_switch_failures :
    (switches.resolve "y2kbug.century".data).map
      (fun so => (so.2.obsolete, so.2.parameter.requiresValue)) = some (false, false) ∧
    ((ArgumentParser.parse switches ["prog".data, "--y2kbug.century".data, "x".data]).2.resolve
      "y2kbug.century".data).map (fun so => so.2.parameter.calls) = some [] ∧
    (switches.resolve "strict".data).map
      (fun so => (so.1.obsolete, so.2.obsolete, so.2.parameter.requiresValue)) =
        some (false, false, false) ∧
    ((ArgumentParser.parse switches ["prog".data, "--strict".data, "x".data]).2.resolve
      "strict".data).map (fun so => so.2.parameter.calls) = some [[]] ∧
    (ArgumentParser.parse switches
      ["prog".data, "--strict".data, "x".data]).2.processingResult._positionals = [] ∧
    (switches.resolve "level=max".data).map
      (fun so => (so.1.obsolete, so.2.obsolete, so.2.parameter.requiresValue)) =
        some (false, false, false) ∧
    ((ArgumentParser.parse switches ["prog".data, "--level=max".data, "x".data]).2.resolve
      "level=max".data).map (fun so => so.2.parameter.calls) = some [] ∧
    (ArgumentParser.parse switches
      ["prog".data, "--level=max".data, "x".data]).2.processingResult._positionals = [] := by
  decide

/-- C8, amended: let the name `F`, without '=', resolve to a non-obsolete option of
a non-obsolete section whose Parameter does not require a value, and let the
token `t` have no leading dash. `parse` on `[prog, "--F", t]` calls the setter
of `F` exactly once, with the empty string, and passes `t` to no setter: the
sections are those one `setValue(F, "")` leaves. When the setter accepts the
empty string `parse` returns true and `t` is appended to the positional list;
when it rejects it `parse` returns false and the positional list is unchanged. -/
theorem parse_switch (p : ProgramOptions) (prog F t : Str) (s : Section) (o : ProgOption)
    (hres : p.resolve F = some (s, o)) (hs : s.obsolete = false) (ho : o.obsolete = false)
    (hreq : o.parameter.requiresValue = false) (hFeq : '=' ∉ F)
    (ht : t.head? ≠ some '-') :
    ((ArgumentParser.parse p [prog, '-' :: '-' :: F, t]).2.resolve F).map
        (fun so => so.2.parameter.calls) = some (o.parameter.calls ++ [[]]) ∧
    (ArgumentParser.parse p [prog, '-' :: '-' :: F, t]).2._sections =
      (p.setValue F []).2._sections ∧
    (ArgumentParser.parse p [prog, '-' :: '-' :: F, t]).1 =
      decide ((o.parameter.set []).1 = []) ∧
    (ArgumentParser.parse p [prog, '-' :: '-' :: F, t]).2.processingResult._positionals =
      p.processingResult._positionals ++ if (o.parameter.set []).1 = [] then [t] else [] := by
  obtain ⟨h1, h2⟩ := (resolve_eq_some p F s o).1 hres
  have hl : (p.setContext ArgumentParser.context).lookupReq F = some false := by
    show p.lookupReq F = some false
    simp [ProgramOptions.lookupReq, hres, hreq]
  have hloop : ArgumentParser.parseLoop (p.setContext ArgumentParser.context) []
      [ '-' :: '-' :: F, t] =
      if (p.setValue F []).1 = false then
        (none, (p.setValue F []).2.setContext ArgumentParser.context)
      else (some [], ((p.setValue F []).2.setContext ArgumentParser.context).addPositional t) := by
    simp only [ArgumentParser.parseLoop, parseStep_long _ _ hFeq, onlyOption_switch _ _ _ hl,
      setValue_setContext]
    by_cases hb : (p.setValue F []).1 = false
    · simp [hb]
    · simp [hb, parseStep_positional _ _ ht]
  have hparse : ArgumentParser.parse p [prog, '-' :: '-' :: F, t] =
      if (p.setValue F []).1 = false then
        (false, (p.setValue F []).2.setContext ArgumentParser.context)
      else (true, ((p.setValue F []).2.setContext ArgumentParser.context).addPositional t) := by
    unfold ArgumentParser.parse
    simp only [List.drop_one, List.tail_cons, hloop]
    by_cases hb : (p.setValue F []).1 = false <;> simp [hb]
  rw [hparse]
  have hfind : ∀ q : ProgramOptions,
      q._sections = mapUpdate p._sections (splitName F).1 (fun s =>
        { s with options := mapUpdate s.options (splitName F).2 (fun o1 =>
            { o1 with parameter := (o.parameter.set []).2 }) }) →
      (q.resolve F).map (fun so => so.2.parameter.calls) = some (o.parameter.calls ++ [[]]) := by
    intro q hq
    simp [ProgramOptions.resolve, hq, mapFind_mapUpdate, h1, h2, Parameter.set]
  by_cases hacc : (o.parameter.set []).1 = []
  · have hv : p.setValue F [] = (true, (p.setValue F []).2) := by
      simp [ProgramOptions.setValue, h1, h2, hs, ho, hacc]
    have hb : ¬ (p.setValue F []).1 = false := by rw [hv]; simp
    rw [if_neg hb]
    refine ⟨?_, rfl, ?_, ?_⟩
    · apply hfind
      simp [ProgramOptions.setValue, h1, h2, hs, ho, hacc, ProgramOptions.addPositional,
        ProgramOptions.setContext]
    · simp [hacc]
    · simp [ProgramOptions.setValue, h1, h2, hs, ho, hacc, ProgramOptions.addPositional,
        ProgramOptions.setContext, ProgramOptions.processingResult, ProcessingResult.touch]
  · have hv : p.setValue F [] = (false, (p.setValue F []).2) := by
      simp [ProgramOptions.setValue, h1, h2, hs, ho, hacc, ProgramOptions.fail]
    have hb : (p.setValue F []).1 = false := by rw [hv]
    rw [if_pos hb]
    refine ⟨?_, rfl, ?_, ?_⟩
    · apply hfind
      simp [ProgramOptions.setValue, h1, h2, hs, ho, hacc, ProgramOptions.fail,
        ProgramOptions.setContext]
    · simp [hacc]
    · simp [ProgramOptions.setValue, h1, h2, hs, ho, hacc, ProgramOptions.fail,
        ProgramOptions.setContext, ProgramOptions.processingResult, ProcessingResult.setFailed]

/-- Witness of C8: the switch `quiet` of `sample` followed by the token "dir". -/
theorem parse_switch_witness :
    ((ArgumentParser.parse sample ["prog".data, "--quiet".data, "dir".data]).2.resolve
        "quiet".data).map (fun so => so.2.parameter.calls) = some ([] ++ [[]]) ∧
    (ArgumentParser.parse sample ["prog".data, "--quiet".data, "dir".data]).2._sections =
      (sample.setValue "quiet".data []).2._sections ∧
    (ArgumentParser.parse sample ["prog".data, "--quiet".data, "dir".data]).1 = true ∧
    (ArgumentParser.parse sample
      ["prog".data, "--quiet".data, "dir".data]).2.processingResult._positionals =
        [] ++ ["dir".data] :=
  parse_switch sample "prog".data "quiet".data "dir".data _ _ rfl
    (by decide) (by decide) (by decide) (by decide) (by decide)

/-- C9: let parsing the argument vector `prog :: args` succeed (so that no option
is left pending), and let `F`, non-empty and without '=', resolve to an option
whose Parameter requires a value. `parse` on the vector followed by "--F"
returns false with the failure flag set, and the touched set, the positional
list and the sections with all their Parameters are those parsing
`prog :: args` alone leaves. -/
theorem parse_missing_value (p : ProgramOptions) (prog : Str) (args : List Str) (F : Str)
    (s : Section) (o : ProgOption)
    (hargs : (ArgumentParser.parse p (prog :: args)).1 = true)
    (hres : p.resolve F = some (s, o)) (hreq : o.parameter.requiresValue = true)
    (hF : F ≠ []) (hFeq : '=' ∉ F) :
    (ArgumentParser.parse p ((prog :: args) ++ [ '-' :: '-' :: F])).1 = false ∧
    (ArgumentParser.parse p ((prog :: args) ++ [ '-' :: '-' :: F])).2.processingResult.failed =
      true ∧
    (ArgumentParser.parse p ((prog :: args) ++ [ '-' :: '-' :: F])).2.processingResult._touched =
      (ArgumentParser.parse p (prog :: args)).2.processingResult._touched ∧
    (ArgumentParser.parse p
      ((prog :: args) ++ [ '-' :: '-' :: F])).2.processingResult._positionals =
      (ArgumentParser.parse p (prog :: args)).2.processingResult._positionals ∧
    (ArgumentParser.parse p ((prog :: args) ++ [ '-' :: '-' :: F])).2._sections =
      (ArgumentParser.parse p (prog :: args)).2._sections := by
  have hl : (ArgumentParser.parse p (prog :: args)).2.lookupReq F = some true := by
    rw [parse_prefix_state p _ F hargs]
    simp [ProgramOptions.lookupReq, hres, hreq]
  have hloop := parse_true p (prog :: args) hargs
  simp only [List.drop_one, List.tail_cons] at hloop
  generalize (ArgumentParser.parse p (prog :: args)).2 = q at hl hloop ⊢
  have hparse : ArgumentParser.parse p ((prog :: args) ++ [ '-' :: '-' :: F]) =
      q.fail ("no value specified for option '".data ++ F ++ "'".data) := by
    unfold ArgumentParser.parse
    simp only [List.cons_append, List.drop_one, List.tail_cons, parseLoop_append, hloop,
      ArgumentParser.parseLoop, parseStep_long _ _ hFeq, onlyOption_pending _ _ _ hl]
    simp [hF]
  rw [hparse]
  simp [ProgramOptions.fail, ProgramOptions.processingResult, ProcessingResult.failed,
    ProcessingResult.setFailed]

/-- Witness of C9: `sample`, the vector `[prog, "-q", "dir"]` and a trailing
"--database.journal-size". -/
theorem parse_missing_value_witness :
    (ArgumentParser.parse sample
      (["prog".data, "-q".data, "dir".data] ++ ["--database.journal-size".data])).1 = false ∧
    (ArgumentParser.parse sample
      (["prog".data, "-q".data, "dir".data] ++
        ["--database.journal-size".data])).2.processingResult.failed = true ∧
    (ArgumentParser.parse sample
      (["prog".data, "-q".data, "dir".data] ++
        ["--database.journal-size".data])).2.processingResult._touched =
      (ArgumentParser.parse sample
        ["prog".data, "-q".data, "dir".data]).2.processingResult._touched ∧
    (ArgumentParser.parse sample
      (["prog".data, "-q".data, "dir".data] ++
        ["--database.journal-size".data])).2.processingResult._positionals =
      (ArgumentParser.parse sample
        ["prog".data, "-q".data, "dir".data]).2.processingResult._positionals ∧
    (ArgumentParser.parse sample
      (["prog".data, "-q".data, "dir".data] ++ ["--database.journal-size".data])).2._sections =
      (ArgumentParser.parse sample ["prog".data, "-q".data, "dir".data]).2._sections :=
  parse_missing_value sample "prog".data ["-q".data, "dir".data] "database.journal-size".data
    _ _ (by decide) rfl (by decide) (by decide) (by decide)

/-- C10: let parsing the argument vector `prog :: pre` succeed (so that no option
is left pending), and let `x`, without '=', not resolve to a registered option.
`parse` on the vector followed by "--x" and by any tokens `rest` returns false
with the failure flag set, and the touched set, the positional list and the
sections with all their Parameters are those parsing `prog :: pre` alone
leaves: no token of `rest` is processed. -/
theorem parse_unknown_option (p : ProgramOptions) (prog : Str) (pre : List Str) (x : Str)
    (rest : List Str)
    (hpre : (ArgumentParser.parse p (prog :: pre)).1 = true)
    (hx : p.resolve x = none) (hxeq : '=' ∉ x) :
    (ArgumentParser.parse p ((prog :: pre) ++ [ '-' :: '-' :: x] ++ rest)).1 = false ∧
    (ArgumentParser.parse p
      ((prog :: pre) ++ [ '-' :: '-' :: x] ++ rest)).2.processingResult.failed = true ∧
    (ArgumentParser.parse p
      ((prog :: pre) ++ [ '-' :: '-' :: x] ++ rest)).2.processingResult._touched =
      (ArgumentParser.parse p (prog :: pre)).2.processingResult._touched ∧
    (ArgumentParser.parse p
      ((prog :: pre) ++ [ '-' :: '-' :: x] ++ rest)).2.processingResult._positionals =
      (ArgumentParser.parse p (prog :: pre)).2.processingResult._positionals ∧
    (ArgumentParser.parse p ((prog :: pre) ++ [ '-' :: '-' :: x] ++ rest)).2._sections =
      (ArgumentParser.parse p (prog :: pre)).2._sections := by
  have hl : (ArgumentParser.parse p (prog :: pre)).2.lookupReq x = none := by
    rw [parse_prefix_state p _ x hpre]
    simp [ProgramOptions.lookupReq, hx]
  have hloop := parse_true p (prog :: pre) hpre
  simp only [List.drop_one, List.tail_cons] at hloop
  generalize (ArgumentParser.parse p (prog :: pre)).2 = q at hl hloop ⊢
  have hparse : ArgumentParser.parse p ((prog :: pre) ++ [ '-' :: '-' :: x] ++ rest) =
      (false, { q with _processingResult := { q._processingResult with _failed := true } }) := by
    unfold ArgumentParser.parse
    simp only [List.cons_append, List.append_assoc, List.nil_append, List.drop_one,
      List.tail_cons, parseLoop_append, hloop, ArgumentParser.parseLoop,
      parseStep_long _ _ hxeq, onlyOption_unknown _ _ _ hl]
  rw [hparse]
  simp [ProgramOptions.processingResult, ProcessingResult.failed]

/-- Witness of C10: `sample`, the vector `[prog, "-q"]`, the unknown option
`database.size` and two more tokens. -/
theorem parse_unknown_option_witness :
    (ArgumentParser.parse sample
      (["prog".data, "-q".data] ++ ["--database.size".data] ++ ["9".data, "dir".data])).1 =
      false ∧
    (ArgumentParser.parse sample
      (["prog".data, "-q".data] ++ ["--database.size".data] ++
        ["9".data, "dir".data])).2.processingResult.failed = true ∧
    (ArgumentParser.parse sample
      (["prog".data, "-q".data] ++ ["--database.size".data] ++
        ["9".data, "dir".data])).2.processingResult._touched =
      (ArgumentParser.parse sample ["prog".data, "-q".data]).2.processingResult._touched ∧
    (ArgumentParser.parse sample
      (["prog".data, "-q".data] ++ ["--database.size".data] ++
        ["9".data, "dir".data])).2.processingResult._positionals =
      (ArgumentParser.parse sample ["prog".data, "-q".data]).2.processingResult._positionals ∧
    (ArgumentParser.parse sample
      (["prog".data, "-q".data] ++ ["--database.size".data] ++
        ["9".data, "dir".data])).2._sections =
      (ArgumentParser.parse sample ["prog".data, "-q".data]).2._sections :=
  parse_unknown_option sample "prog".data ["-q".data] "database.size".data
    ["9".data, "dir".data] (by decide) rfl (by decide)

/-! ## Claims C11 to C20 -/

theorem parseLoop_positionals (tokens : List Str) (p : ProgramOptions)
    (h : ∀ t ∈ tokens, t.head? ≠ some '-') :
    ArgumentParser.parseLoop p [] tokens =
      (some [], { p with _processingResult :=
        { p._processingResult with
          _positionals := p._processingResult._positionals ++ tokens } }) := by
  induction tokens generalizing p with
  | nil => simp [ArgumentParser.parseLoop]
  | cons t ts ih =>
    have ht : t.head? ≠ some '-' := h t (by simp)
    have hts : ∀ u ∈ ts, u.head? ≠ some '-' := fun u hu => h u (by simp [hu])
    simp only [ArgumentParser.parseLoop, parseStep_positional _ _ ht]
    rw [ih _ hts]
    simp [ProgramOptions.addPositional]

/-- C11: when no token of index 1 and above begins with '-', `parse` returns true,
the positional list afterwards is the previous one followed by exactly the
tokens `argv[1..]`, in order and with duplicates kept (element 0 is not
recorded), and the touched set, the failure flag and the sections with all
their Parameters are unchanged. -/
theorem parse_positionals (p : ProgramOptions) (argv : List Str)
    (h : ∀ t ∈ argv.drop 1, t.head? ≠ some '-') :
    (ArgumentParser.parse p argv).1 = true ∧
    (ArgumentParser.parse p argv).2.processingResult._positionals =
      p.processingResult._positionals ++ argv.drop 1 ∧
    (ArgumentParser.parse p argv).2.processingResult._touched = p.processingResult._touched ∧
    (ArgumentParser.parse p argv).2.processingResult.failed = p.processingResult.failed ∧
    (ArgumentParser.parse p argv).2._sections = p._sections := by
  unfold ArgumentParser.parse
  rw [parseLoop_positionals _ _ h]
  simp [ProgramOptions.setContext, ProgramOptions.processingResult, ProcessingResult.failed]

/-- Witness of C11: `sample` and the vector `[prog, "dir", "", "dir"]`. -/
theorem parse_positionals_witness :
    (ArgumentParser.parse sample ["prog".data, "dir".data, [], "dir".data]).1 = true ∧
    (ArgumentParser.parse sample
      ["prog".data, "dir".data, [], "dir".data]).2.processingResult._positionals =
      sample.processingResult._positionals ++ ["prog".data, "dir".data, [], "dir".data].drop 1 ∧
    (ArgumentParser.parse sample
      ["prog".data, "dir".data, [], "dir".data]).2.processingResult._touched =
      sample.processingResult._touched ∧
    (ArgumentParser.parse sample
      ["prog".data, "dir".data, [], "dir".data]).2.processingResult.failed =
      sample.processingResult.failed ∧
    (ArgumentParser.parse sample ["prog".data, "dir".data, [], "dir".data]).2._sections =
      sample._sections :=
  parse_positionals sample ["prog".data, "dir".data, [], "dir".data] (by decide)

/-! ## Lemmas on the matcher of `IniFileParser` -/

theorem starMatch_greedy (p : Char → Bool)
    (k : Str → IniFileParser.Captures → Option IniFileParser.Captures)
    (run rest : Str) (g r : IniFileParser.Captures)
    (hrun : ∀ c ∈ run, p c = true) (hstop : ∀ c ∈ rest.head?, p c = false)
    (hk : k rest g = some r) :
    IniFileParser.starMatch p k (run ++ rest) g = some r := by
  induction run with
  | nil =>
    cases rest with
    | nil => simpa [IniFileParser.starMatch] using hk
    | cons c s =>
      have hc : p c = false := hstop c (by simp)
      simp [IniFileParser.starMatch, hc, hk]
  | cons c run ih =>
    have hc : p c = true := hrun c (by simp)
    have ih1 := ih (fun x hx => hrun x (by simp [hx]))
    simp [IniFileParser.starMatch, hc, ih1]

theorem starMatch_none (p : Char → Bool)
    (k : Str → IniFileParser.Captures → Option IniFileParser.Captures)
    (s : Str) (g : IniFileParser.Captures)
    (h : ∀ u r, s = u ++ r → (∀ c ∈ u, p c = true) → k r g = none) :
    IniFileParser.starMatch p k s g = none := by
  induction s with
  | nil => simpa [IniFileParser.starMatch] using h [] [] rfl (by simp)
  | cons c s ih =>
    have h0 : k (c :: s) g = none := h [] (c :: s) rfl (by simp)
    by_cases hc : p c = true
    · have ih1 : IniFileParser.starMatch p k s g = none := by
        apply ih
        intro u r hs hu
        apply h (c :: u) r (by simp [hs])
        intro x hx
        rcases List.mem_cons.1 hx with rfl | hx
        · exact hc
        · exact hu x hx
      simp [IniFileParser.starMatch, hc, ih1, h0]
    · simp [IniFileParser.starMatch, hc, h0]

theorem take_consumed (u r : Str) : (u ++ r).take ((u ++ r).length - r.length) = u := by
  simp

theorem firstNonBlank_append (ws s : Str) (h : ∀ c ∈ ws, IniFileParser.isBlank c = true) :
    firstNonBlank (ws ++ s) = firstNonBlank s := by
  induction ws with
  | nil => rfl
  | cons c ws ih =>
    have hc : IniFileParser.isBlank c = true := h c (by simp)
    have ih1 := ih (fun x hx => h x (by simp [hx]))
    simpa [firstNonBlank, List.dropWhile, hc] using ih1

theorem firstNonBlank_cons (x : Char) (s : Str) (h : IniFileParser.isBlank x = false) :
    firstNonBlank (x :: s) = some x := by
  simp [firstNonBlank, List.dropWhile, h]

theorem head_of_firstNonBlank (line u r : Str) (x : Char) (hx : firstNonBlank line = some x)
    (hs : line = u ++ r) (hu : ∀ c ∈ u, IniFileParser.isBlank c = true) :
    ∃ c t, r = c :: t ∧ (c = x ∨ IniFileParser.isBlank c = true) := by
  subst hs
  rw [firstNonBlank_append u r hu] at hx
  cases r with
  | nil => simp [firstNonBlank] at hx
  | cons c t =>
    refine ⟨c, t, rfl, ?_⟩
    by_cases hc : IniFileParser.isBlank c = true
    · exact Or.inr hc
    · have hc2 : IniFileParser.isBlank c = false := by simpa using hc
      rw [firstNonBlank_cons c t hc2] at hx
      exact Or.inl (Option.some.inj hx)

theorem comment_none (line : Str) (x : Char) (hx : firstNonBlank line = some x)
    (hc : IniFileParser.isCommentStart x = false) :
    IniFileParser.regexMatch IniFileParser.commentRegex line = none := by
  unfold IniFileParser.regexMatch IniFileParser.commentRegex
  simp only [IniFileParser.matchWith]
  apply starMatch_none
  intro u r hs hu
  obtain ⟨c, t, rfl, hct⟩ := head_of_firstNonBlank line u _ x hx hs hu
  have hcc : IniFileParser.isCommentStart c = false := by
    rcases hct with rfl | hb
    · exact hc
    · revert hb
      simp only [IniFileParser.isBlank, IniFileParser.isCommentStart]
      intro hb
      rcases (by simpa using hb : c = ' ' ∨ c = '\t') with rfl | rfl <;> decide
  simp [IniFileParser.matchWith, hcc]

theorem section_none (line : Str) (x : Char) (hx : firstNonBlank line = some x)
    (hc : x ≠ '[') :
    IniFileParser.regexMatch IniFileParser.sectionRegex line = none := by
  unfold IniFileParser.regexMatch IniFileParser.sectionRegex
  simp only [IniFileParser.matchWith]
  apply starMatch_none
  intro u r hs hu
  obtain ⟨c, t, rfl, hct⟩ := head_of_firstNonBlank line u _ x hx hs hu
  have hcc : c ≠ '[' := by
    rcases hct with rfl | hb
    · exact hc
    · revert hb
      simp only [IniFileParser.isBlank]
      intro hb
      rcases (by simpa using hb : c = ' ' ∨ c = '\t') with rfl | rfl <;> decide
  simp [IniFileParser.matchWith, hcc]

theorem blank_not_commentStart (c : Char) (h : IniFileParser.isCommentStart c = true) :
    IniFileParser.isBlank c = false := by
  simp only [IniFileParser.isCommentStart] at h
  rcases (by simpa using h : c = '#' ∨ c = ';') with rfl | rfl <;> decide

theorem comment_some (ws body : Str) (hws : ∀ c ∈ ws, IniFileParser.isBlank c = true)
    (hbody : body = [] ∨ ∃ c t, body = c :: t ∧ IniFileParser.isCommentStart c = true ∧
      ∀ x ∈ t, IniFileParser.isAny x = true) :
    (IniFileParser.regexMatch IniFileParser.commentRegex (ws ++ body)).isSome = true := by
  have key : IniFileParser.regexMatch IniFileParser.commentRegex (ws ++ body) =
      some (fun _ => []) := by
    unfold IniFileParser.regexMatch IniFileParser.commentRegex
    simp only [IniFileParser.matchWith]
    rcases hbody with rfl | ⟨c, t, rfl, hc, ht⟩
    · apply starMatch_greedy _ _ _ _ _ _ hws (by simp)
      simp [IniFileParser.matchWith]
    · apply starMatch_greedy _ _ _ _ _ _ hws
      · intro x hx
        have : x = c := by simpa using hx.symm
        subst this
        exact blank_not_commentStart x hc
      · have ht2 := starMatch_greedy IniFileParser.isAny
          (fun r g => if r = [] then some g else none) t [] (fun _ => []) (fun _ => []) ht
          (by simp) (by simp)
        simp only [List.append_nil] at ht2
        simp [IniFileParser.matchWith, hc, ht2]
  rw [key]; rfl

theorem assignment_tail (ws1 ws2 value : Str) (g : IniFileParser.Captures)
    (h1 : ∀ c ∈ ws1, IniFileParser.isBlank c = true)
    (h2 : ∀ c ∈ ws2, IniFileParser.isBlank c = true)
    (hv : ∀ c ∈ value, IniFileParser.isAny c = true)
    (hv0 : ∀ c ∈ value.head?, IniFileParser.isBlank c = false) :
    IniFileParser.matchWith
      (.seq (.star IniFileParser.isBlank) (.seq (.cls (· = '='))
        (.seq (.star IniFileParser.isBlank)
          (.seq (.opt (.group 3 (.star IniFileParser.isAny))) (.star IniFileParser.isBlank)))))
      (fun r g => if r = [] then some g else none) (ws1 ++ '=' :: (ws2 ++ value)) g =
      some (IniFileParser.setGroup g 3 value) := by
  simp only [IniFileParser.matchWith]
  apply starMatch_greedy _ _ _ _ _ _ h1 (by simp [IniFileParser.isBlank])
  simp only [IniFileParser.matchWith, decide_True, if_true]
  apply starMatch_greedy _ _ _ _ _ _ h2 hv0
  have hA := starMatch_greedy IniFileParser.isAny
    (fun r g1 => IniFileParser.starMatch IniFileParser.isBlank
      (fun r g => if r = [] then some g else none) r
      (IniFileParser.setGroup g1 3 (value.take (value.length - r.length))))
    value [] g (IniFileParser.setGroup g 3 value) hv (by simp)
    (by simp [IniFileParser.starMatch])
  simp only [List.append_nil] at hA
  simp [hA]

theorem take_consumed_of_eq (s u r : Str) (h : s = u ++ r) :
    s.take (s.length - r.length) = u := by
  subst h; simp

theorem prefix_split (p : Char → Bool) (u a t r : Str) (hu : ∀ c ∈ u, p c = true)
    (ht : ∃ c t1, t = c :: t1 ∧ p c = false) (h : a ++ t = u ++ r) :
    ∃ a1, a = u ++ a1 ∧ r = a1 ++ t := by
  induction u generalizing a with
  | nil => exact ⟨a, rfl, by simpa using h.symm⟩
  | cons c u ih =>
    have hc : p c = true := hu c (by simp)
    cases a with
    | nil =>
      obtain ⟨c1, t1, rfl, hc1⟩ := ht
      simp only [List.nil_append, List.cons_append, List.cons.injEq] at h
      rw [h.1] at hc1
      rw [hc] at hc1
      cases hc1
    | cons c2 a2 =>
      simp only [List.cons_append, List.cons.injEq] at h
      obtain ⟨a1, ha1, hr⟩ := ih a2 (fun x hx => hu x (by simp [hx])) h.2
      exact ⟨a1, by rw [h.1, ha1]; rfl, hr⟩

theorem nameChar_facts (c : Char) (h : IniFileParser.isNameChar c = true) :
    IniFileParser.isBlank c = false ∧ IniFileParser.isCommentStart c = false ∧
      c ≠ '[' ∧ c ≠ '.' ∧ c ≠ '=' := by
  refine ⟨?_, ?_, ?_, ?_, ?_⟩
  · cases hb : IniFileParser.isBlank c with
    | false => rfl
    | true =>
      simp only [IniFileParser.isBlank] at hb
      rcases (by simpa using hb : c = ' ' ∨ c = '\t') with rfl | rfl <;>
        exact absurd h (by decide)
  · cases hb : IniFileParser.isCommentStart c with
    | false => rfl
    | true =>
      simp only [IniFileParser.isCommentStart] at hb
      rcases (by simpa using hb : c = '#' ∨ c = ';') with rfl | rfl <;>
        exact absurd h (by decide)
  · rintro rfl; exact absurd h (by decide)
  · rintro rfl; exact absurd h (by decide)
  · rintro rfl; exact absurd h (by decide)

theorem assignment_plain (ws0 a ws1 ws2 value : Str)
    (h0 : ∀ c ∈ ws0, IniFileParser.isBlank c = true)
    (ha : ∀ c ∈ a, IniFileParser.isNameChar c = true)
    (h1 : ∀ c ∈ ws1, IniFileParser.isBlank c = true)
    (h2 : ∀ c ∈ ws2, IniFileParser.isBlank c = true)
    (hv : ∀ c ∈ value, IniFileParser.isAny c = true)
    (hv0 : ∀ c ∈ value.head?, IniFileParser.isBlank c = false)
    (hempty : a = [] → ws1 = []) :
    IniFileParser.regexMatch IniFileParser.assignmentRegex
        (ws0 ++ (a ++ (ws1 ++ '=' :: (ws2 ++ value)))) =
      some (IniFileParser.setGroup (IniFileParser.setGroup (fun _ => []) 1 a) 3 value) := by
  have hstop1 : ∀ c ∈ (ws1 ++ '=' :: (ws2 ++ value)).head?,
      IniFileParser.isNameChar c = false := by
    intro c hc
    cases ws1 with
    | nil =>
      have : c = '=' := by simpa using hc.symm
      subst this; decide
    | cons b ws =>
      have hcb : c = b := by simpa using hc.symm
      subst hcb
      have hb := h1 c (by simp)
      cases hn : IniFileParser.isNameChar c with
      | false => rfl
      | true => rw [(nameChar_facts c hn).1] at hb; cases hb
  unfold IniFileParser.regexMatch IniFileParser.assignmentRegex
  simp only [IniFileParser.matchWith]
  apply starMatch_greedy _ _ _ _ _ _ h0
  · intro c hc
    cases a with
    | nil =>
      rw [hempty rfl] at hc
      have : c = '=' := by simpa using hc.symm
      subst this; decide
    | cons b a1 =>
      have hcb : c = b := by simpa using hc.symm
      subst hcb
      exact (nameChar_facts c (ha c (by simp))).1
  · have hnone : IniFileParser.starMatch IniFileParser.isNameChar
        (fun r g => IniFileParser.matchWith (.cls (· = '.'))
          (fun r g1 => IniFileParser.starMatch IniFileParser.isNameChar
            (fun r g1 => IniFileParser.matchWith
              (.seq (.star IniFileParser.isBlank) (.seq (.cls (· = '='))
                (.seq (.star IniFileParser.isBlank)
                  (.seq (.opt (.group 3 (.star IniFileParser.isAny)))
                    (.star IniFileParser.isBlank)))))
              (fun r g => if r = [] then some g else none) r
              (IniFileParser.setGroup g1 1
                ((a ++ (ws1 ++ '=' :: (ws2 ++ value))).take
                  ((a ++ (ws1 ++ '=' :: (ws2 ++ value))).length - r.length))))
            r (IniFileParser.setGroup g1 2
              ((a ++ (ws1 ++ '=' :: (ws2 ++ value))).take
                ((a ++ (ws1 ++ '=' :: (ws2 ++ value))).length - r.length))))
          r g)
        (a ++ (ws1 ++ '=' :: (ws2 ++ value))) (fun _ => []) = none := by
      apply starMatch_none
      intro u r hs hu
      have ht : ∃ c t1, ws1 ++ '=' :: (ws2 ++ value) = c :: t1 ∧
          IniFileParser.isNameChar c = false := by
        cases hw : ws1 ++ '=' :: (ws2 ++ value) with
        | nil => simp at hw
        | cons c t1 => exact ⟨c, t1, rfl, hstop1 c (by simp [hw])⟩
      obtain ⟨a1, ha1, hr⟩ := prefix_split _ u a _ r hu ht hs
      subst hr
      cases a1 with
      | nil =>
        obtain ⟨c, t1, hct, hcn⟩ := ht
        have hdot : c ≠ '.' := by
          cases ws1 with
          | nil =>
            simp only [List.nil_append, List.cons.injEq] at hct
            rw [← hct.1]; decide
          | cons b ws =>
            simp only [List.cons_append, List.cons.injEq] at hct
            have hb := h1 b (by simp)
            rw [hct.1] at hb
            rintro rfl
            exact absurd hb (by decide)
        simp [hct, IniFileParser.matchWith, hdot]
      | cons c a2 =>
        have hc : IniFileParser.isNameChar c = true :=
          ha c (by rw [ha1]; simp)
        have hdot := (nameChar_facts c hc).2.2.2.1
        simp [IniFileParser.matchWith, hdot]
    have hmain := starMatch_greedy IniFileParser.isNameChar
      (fun r g1 => IniFileParser.matchWith
        (.seq (.star IniFileParser.isBlank) (.seq (.cls (· = '='))
          (.seq (.star IniFileParser.isBlank)
            (.seq (.opt (.group 3 (.star IniFileParser.isAny)))
              (.star IniFileParser.isBlank)))))
        (fun r g => if r = [] then some g else none) r
        (IniFileParser.setGroup g1 1
          ((a ++ (ws1 ++ '=' :: (ws2 ++ value))).take
            ((a ++ (ws1 ++ '=' :: (ws2 ++ value))).length - r.length))))
      a (ws1 ++ '=' :: (ws2 ++ value)) (fun _ => [])
      (IniFileParser.setGroup (IniFileParser.setGroup (fun _ => []) 1 a) 3 value)
      ha hstop1
      (by
        show IniFileParser.matchWith _ _ _ (IniFileParser.setGroup _ 1 _) = _
        rw [take_consumed_of_eq _ a _ rfl]
        exact assignment_tail ws1 ws2 value _ h1 h2 hv hv0)
    simp only [IniFileParser.matchWith] at hnone hmain ⊢
    rw [hnone]
    exact hmain

theorem assignment_dotted (ws0 a b ws1 ws2 value : Str)
    (h0 : ∀ c ∈ ws0, IniFileParser.isBlank c = true)
    (ha : ∀ c ∈ a, IniFileParser.isNameChar c = true)
    (hb : ∀ c ∈ b, IniFileParser.isNameChar c = true)
    (h1 : ∀ c ∈ ws1, IniFileParser.isBlank c = true)
    (h2 : ∀ c ∈ ws2, IniFileParser.isBlank c = true)
    (hv : ∀ c ∈ value, IniFileParser.isAny c = true)
    (hv0 : ∀ c ∈ value.head?, IniFileParser.isBlank c = false) :
    IniFileParser.regexMatch IniFileParser.assignmentRegex
        (ws0 ++ ((a ++ '.' :: b) ++ (ws1 ++ '=' :: (ws2 ++ value)))) =
      some (IniFileParser.setGroup (IniFileParser.setGroup
        (IniFileParser.setGroup (fun _ => []) 2 (a ++ ['.'])) 1 (a ++ '.' :: b)) 3 value) := by
  have hstop1 : ∀ c ∈ (ws1 ++ '=' :: (ws2 ++ value)).head?,
      IniFileParser.isNameChar c = false := by
    intro c hc
    cases ws1 with
    | nil =>
      have : c = '=' := by simpa using hc.symm
      subst this; decide
    | cons x ws =>
      have hcx : c = x := by simpa using hc.symm
      subst hcx
      have hx := h1 c (by simp)
      cases hn : IniFileParser.isNameChar c with
      | false => rfl
      | true => rw [(nameChar_facts c hn).1] at hx; cases hx
  unfold IniFileParser.regexMatch IniFileParser.assignmentRegex
  simp only [IniFileParser.matchWith]
  apply starMatch_greedy _ _ _ _ _ _ h0
  · intro c hc
    cases a with
    | nil =>
      have : c = '.' := by simpa using hc.symm
      subst this; decide
    | cons x a1 =>
      have hcx : c = x := by simpa using hc.symm
      subst hcx
      exact (nameChar_facts c (ha c (by simp))).1
  · have hinner := starMatch_greedy IniFileParser.isNameChar
      (fun r g1 => IniFileParser.matchWith
        (.seq (.star IniFileParser.isBlank) (.seq (.cls (· = '='))
          (.seq (.star IniFileParser.isBlank)
            (.seq (.opt (.group 3 (.star IniFileParser.isAny)))
              (.star IniFileParser.isBlank)))))
        (fun r g => if r = [] then some g else none) r
        (IniFileParser.setGroup g1 1
          (((a ++ '.' :: b) ++ (ws1 ++ '=' :: (ws2 ++ value))).take
            (((a ++ '.' :: b) ++ (ws1 ++ '=' :: (ws2 ++ value))).length - r.length))))
      b (ws1 ++ '=' :: (ws2 ++ value))
      (IniFileParser.setGroup (fun _ => []) 2 (a ++ ['.']))
      (IniFileParser.setGroup (IniFileParser.setGroup
        (IniFileParser.setGroup (fun _ => []) 2 (a ++ ['.'])) 1 (a ++ '.' :: b)) 3 value)
      hb hstop1
      (by
        show IniFileParser.matchWith _ _ _ (IniFileParser.setGroup _ 1 _) = _
        rw [take_consumed_of_eq _ (a ++ '.' :: b) _ rfl]
        exact assignment_tail ws1 ws2 value _ h1 h2 hv hv0)
    have houter := starMatch_greedy IniFileParser.isNameChar
      (fun r g => IniFileParser.matchWith (.cls (· = '.'))
        (fun r g1 => IniFileParser.starMatch IniFileParser.isNameChar
          (fun r g1 => IniFileParser.matchWith
            (.seq (.star IniFileParser.isBlank) (.seq (.cls (· = '='))
              (.seq (.star IniFileParser.isBlank)
                (.seq (.opt (.group 3 (.star IniFileParser.isAny)))
                  (.star IniFileParser.isBlank)))))
            (fun r g => if r = [] then some g else none) r
            (IniFileParser.setGroup g1 1
              (((a ++ '.' :: b) ++ (ws1 ++ '=' :: (ws2 ++ value))).take
                (((a ++ '.' :: b) ++ (ws1 ++ '=' :: (ws2 ++ value))).length - r.length))))
          r (IniFileParser.setGroup g1 2
            (((a ++ '.' :: b) ++ (ws1 ++ '=' :: (ws2 ++ value))).take
              (((a ++ '.' :: b) ++ (ws1 ++ '=' :: (ws2 ++ value))).length - r.length))))
        r g)
      a ('.' :: (b ++ (ws1 ++ '=' :: (ws2 ++ value)))) (fun _ => [])
      (IniFileParser.setGroup (IniFileParser.setGroup
        (IniFileParser.setGroup (fun _ => []) 2 (a ++ ['.'])) 1 (a ++ '.' :: b)) 3 value)
      ha (by simp; decide)
      (by
        simp only [IniFileParser.matchWith, decide_True, if_true]
        rw [take_consumed_of_eq _ (a ++ ['.']) (b ++ (ws1 ++ '=' :: (ws2 ++ value)))
          (by simp)]
        exact hinner)
    have hassoc : (a ++ '.' :: b) ++ (ws1 ++ '=' :: (ws2 ++ value)) =
        a ++ '.' :: (b ++ (ws1 ++ '=' :: (ws2 ++ value))) := by simp
    simp only [IniFileParser.matchWith] at houter ⊢
    rw [hassoc] at houter ⊢
    rw [houter]

theorem assignment_first (ws0 key ws1 rest : Str)
    (h0 : ∀ c ∈ ws0, IniFileParser.isBlank c = true) (hkey : IsKey key)
    (h1 : ∀ c ∈ ws1, IniFileParser.isBlank c = true) :
    ∃ x, firstNonBlank (ws0 ++ (key ++ (ws1 ++ '=' :: rest))) = some x ∧
      IniFileParser.isCommentStart x = false ∧ x ≠ '[' := by
  rw [firstNonBlank_append _ _ h0]
  have hname : ∀ c t, IniFileParser.isNameChar c = true →
      ∃ x, firstNonBlank (c :: t) = some x ∧
        IniFileParser.isCommentStart x = false ∧ x ≠ '[' := by
    intro c t hc
    obtain ⟨f1, f2, f3, _, _⟩ := nameChar_facts c hc
    exact ⟨c, firstNonBlank_cons c t f1, f2, f3⟩
  have hdot : ∀ t, ∃ x, firstNonBlank ('.' :: t) = some x ∧
      IniFileParser.isCommentStart x = false ∧ x ≠ '[' := by
    intro t
    exact ⟨'.', firstNonBlank_cons '.' t (by decide), by decide, by decide⟩
  rcases hkey with hk | ⟨a, b, rfl, ha, _⟩
  · cases key with
    | nil =>
      simp only [List.nil_append]
      rw [firstNonBlank_append _ _ h1]
      exact ⟨'=', firstNonBlank_cons '=' rest (by decide), by decide, by decide⟩
    | cons c t => exact hname c _ (hk c (by simp))
  · cases a with
    | nil => exact hdot _
    | cons c t => exact hname c _ (ha c (by simp))

theorem classify_assignment (ws0 key ws1 ws2 value : Str)
    (h0 : ∀ c ∈ ws0, IniFileParser.isBlank c = true) (hkey : IsKey key)
    (h1 : ∀ c ∈ ws1, IniFileParser.isBlank c = true)
    (h2 : ∀ c ∈ ws2, IniFileParser.isBlank c = true)
    (hv : ∀ c ∈ value, IniFileParser.isAny c = true)
    (hv0 : ∀ c ∈ value.head?, IniFileParser.isBlank c = false) :
    IniFileParser.regexMatch IniFileParser.commentRegex
        (ws0 ++ (key ++ (ws1 ++ '=' :: (ws2 ++ value)))) = none ∧
    IniFileParser.regexMatch IniFileParser.sectionRegex
        (ws0 ++ (key ++ (ws1 ++ '=' :: (ws2 ++ value)))) = none ∧
    ∃ m, IniFileParser.regexMatch IniFileParser.assignmentRegex
        (ws0 ++ (key ++ (ws1 ++ '=' :: (ws2 ++ value)))) = some m ∧
      m 1 = key ∧ m 3 = value ∧
      IniFileParser.optionName [] key (m 2) = key ∧
      ∀ cs, IniFileParser.optionName cs key (m 2) = specOptionName cs key := by
  obtain ⟨x, hx, hxc, hxs⟩ := assignment_first ws0 key ws1 (ws2 ++ value) h0 hkey h1
  refine ⟨comment_none _ x hx hxc, section_none _ x hx hxs, ?_⟩
  rcases hkey with hk | ⟨a, b, rfl, ha, hb⟩
  · have hnodot : '.' ∉ key := fun hmem => (nameChar_facts _ (hk _ hmem)).2.2.2.1 rfl
    have hres : ∀ m : IniFileParser.Captures, m 2 = [] →
        IniFileParser.optionName [] key (m 2) = key ∧
        ∀ cs, IniFileParser.optionName cs key (m 2) = specOptionName cs key := by
      intro m hm
      refine ⟨by simp [IniFileParser.optionName], ?_⟩
      intro cs
      by_cases hcs : cs = [] <;>
        simp [IniFileParser.optionName, specOptionName, hm, hnodot, hcs]
    by_cases hempty : key = [] → ws1 = []
    · refine ⟨_, assignment_plain ws0 key ws1 ws2 value h0 hk h1 h2 hv hv0 hempty, ?_, ?_, ?_⟩
      · simp [IniFileParser.setGroup]
      · simp [IniFileParser.setGroup]
      · exact hres _ (by simp [IniFileParser.setGroup])
    · have hk0 : key = [] := by
        by_contra hne
        exact hempty (fun h => absurd h hne)
      subst hk0
      have h01 : ∀ c ∈ ws0 ++ ws1, IniFileParser.isBlank c = true := by
        intro c hc
        rcases List.mem_append.1 hc with hc | hc
        · exact h0 c hc
        · exact h1 c hc
      have hm := assignment_plain (ws0 ++ ws1) [] [] ws2 value h01 (by simp) (by simp)
        h2 hv hv0 (fun _ => rfl)
      simp only [List.nil_append, List.append_assoc] at hm ⊢
      refine ⟨_, hm, ?_, ?_, ?_⟩
      · simp [IniFileParser.setGroup]
      · simp [IniFileParser.setGroup]
      · exact hres _ (by simp [IniFileParser.setGroup])
  · refine ⟨_, assignment_dotted ws0 a b ws1 ws2 value h0 ha hb h1 h2 hv hv0, ?_, ?_, ?_, ?_⟩
    · simp [IniFileParser.setGroup]
    · simp [IniFileParser.setGroup]
    · simp [IniFileParser.optionName]
    · intro cs
      simp [IniFileParser.optionName, specOptionName, IniFileParser.setGroup]

theorem section_some (ws0 name ws1 : Str)
    (h0 : ∀ c ∈ ws0, IniFileParser.isBlank c = true)
    (hn : ∀ c ∈ name, IniFileParser.isNameChar c = true)
    (h1 : ∀ c ∈ ws1, IniFileParser.isBlank c = true) :
    IniFileParser.regexMatch IniFileParser.commentRegex (ws0 ++ '[' :: (name ++ ']' :: ws1)) =
      none ∧
    IniFileParser.regexMatch IniFileParser.sectionRegex (ws0 ++ '[' :: (name ++ ']' :: ws1)) =
      some (IniFileParser.setGroup (fun _ => []) 1 name) := by
  constructor
  · apply comment_none _ '['
    · rw [firstNonBlank_append _ _ h0]
      exact firstNonBlank_cons '[' _ (by decide)
    · decide
  · unfold IniFileParser.regexMatch IniFileParser.sectionRegex
    simp only [IniFileParser.matchWith]
    apply starMatch_greedy _ _ _ _ _ _ h0 (by simp [IniFileParser.isBlank])
    simp only [IniFileParser.matchWith, decide_True, if_true]
    apply starMatch_greedy _ _ _ _ _ _ hn (by simp [IniFileParser.isNameChar])
    simp only [IniFileParser.matchWith, decide_True, if_true]
    rw [take_consumed_of_eq _ name (']' :: ws1) rfl]
    have hend := starMatch_greedy IniFileParser.isBlank
      (fun r g => if r = [] then some g else none) ws1 []
      (IniFileParser.setGroup (fun _ => []) 1 name)
      (IniFileParser.setGroup (fun _ => []) 1 name) h1 (by simp) (by simp)
    simpa using hend

/-- C12: for every assignment line, made of optional blanks, a key (name
characters with at most one '.'), optional blanks, '=', optional blanks and a
value without line terminator, the loop body of `IniFileParser::parse` calls
`setValue` with the value and with this name: the key verbatim when it
contains a '.', whatever the current section; the current section, a '.' and
the key when the key has no '.' and the current section is not empty; the bare
key when the current section is empty. It returns false when `setValue` does,
and goes on with the current section unchanged otherwise. A section header,
made of optional blanks, '[', name characters `S`, ']' and optional blanks,
makes `S` the current section; the loop starts with the empty section. -/
theorem parseLine_assignment (p : ProgramOptions) (filename currentSection : Str)
    (lineNumber : Nat) (ws0 key ws1 ws2 value : Str)
    (h0 : ∀ c ∈ ws0, IniFileParser.isBlank c = true) (hkey : IsKey key)
    (h1 : ∀ c ∈ ws1, IniFileParser.isBlank c = true)
    (h2 : ∀ c ∈ ws2, IniFileParser.isBlank c = true)
    (hv : ∀ c ∈ value, IniFileParser.isAny c = true)
    (hv0 : ∀ c ∈ value.head?, IniFileParser.isBlank c = false) :
    IniFileParser.parseLine p filename currentSection lineNumber
        (ws0 ++ (key ++ (ws1 ++ '=' :: (ws2 ++ value)))) =
      (if ((p.setContext (IniFileParser.context filename lineNumber)).setValue
            (specOptionName currentSection key) value).1 = false then none
        else some currentSection,
       ((p.setContext (IniFileParser.context filename lineNumber)).setValue
          (specOptionName currentSection key) value).2) ∧
    ∀ (wsa S wsb : Str), (∀ c ∈ wsa, IniFileParser.isBlank c = true) →
      (∀ c ∈ S, IniFileParser.isNameChar c = true) →
      (∀ c ∈ wsb, IniFileParser.isBlank c = true) →
      IniFileParser.parseLine p filename currentSection lineNumber
          (wsa ++ '[' :: (S ++ ']' :: wsb)) =
        (some S, p.setContext (IniFileParser.context filename lineNumber)) := by
  refine ⟨?_, ?_⟩
  · obtain ⟨hc, hs, m, hm, hm1, hm3, _, hname⟩ :=
      classify_assignment ws0 key ws1 ws2 value h0 hkey h1 h2 hv hv0
    unfold IniFileParser.parseLine
    simp only [hc, hs, hm, Option.isSome_none, Bool.false_eq_true, if_false]
    rw [hm1, hm3, hname]
    split <;> rfl
  · intro wsa S wsb ha hS hb
    obtain ⟨hc, hs⟩ := section_some wsa S wsb ha hS hb
    unfold IniFileParser.parseLine
    simp [hc, hs, IniFileParser.setGroup]

/-- Witness of C12: in `sample`, `journal-size = 999` under the current section
`database`, and `server.int32-value=5` under the same section. -/
theorem parseLine_assignment_witness :
    IniFileParser.parseLine sample "f".data "database".data 2
        ([] ++ ("journal-size".data ++ (" ".data ++ '=' :: (" ".data ++ "999".data)))) =
      (if ((sample.setContext (IniFileParser.context "f".data 2)).setValue
            "database.journal-size".data "999".data).1 = false then none
        else some "database".data,
       ((sample.setContext (IniFileParser.context "f".data 2)).setValue
          "database.journal-size".data "999".data).2) ∧
    IniFileParser.parseLine sample "f".data "database".data 3
        ([] ++ ("server.int32-value".data ++ ([] ++ '=' :: ([] ++ "5".data)))) =
      (if ((sample.setContext (IniFileParser.context "f".data 3)).setValue
            "server.int32-value".data "5".data).1 = false then none
        else some "database".data,
       ((sample.setContext (IniFileParser.context "f".data 3)).setValue
          "server.int32-value".data "5".data).2) :=
  ⟨(parseLine_assignment sample "f".data "database".data 2 [] "journal-size".data " ".data
      " ".data "999".data (by decide) (Or.inl (by decide)) (by decide) (by decide)
      (by decide) (by decide)).1,
    (parseLine_assignment sample "f".data "database".data 3 [] "server.int32-value".data []
      [] "5".data (by decide)
      (Or.inr ⟨"server".data, "int32-value".data, by decide, by decide, by decide⟩)
      (by decide) (by decide) (by decide) (by decide)).1⟩

/-! ## Lemmas on the loop of `IniFileParser::parse` -/

theorem iniLoop_append (xs ys : List Str) (p : ProgramOptions) (filename cs : Str) (n : Nat) :
    IniFileParser.parseLoop p filename cs n (xs ++ ys) =
      match IniFileParser.parseLoop p filename cs n xs with
      | (none, p1) => (none, p1)
      | (some cs1, p1) => IniFileParser.parseLoop p1 filename cs1 (n + xs.length) ys := by
  induction xs generalizing p cs n with
  | nil => rfl
  | cons x xs ih =>
    simp only [List.cons_append, IniFileParser.parseLoop, List.length_cons]
    cases hstep : IniFileParser.parseLine p filename cs (n + 1) x with
    | mk a p1 =>
      cases a with
      | none => rfl
      | some cs1 =>
        have hn : n + 1 + xs.length = n + (xs.length + 1) := by omega
        have ih1 := ih p1 cs1 (n + 1)
        rw [hn] at ih1
        exact ih1

theorem iniLines_true (p : ProgramOptions) (filename : Str) (lines : List Str)
    (h : (IniFileParser.parseLines p filename lines).1 = true) :
    ∃ cs, IniFileParser.parseLoop p filename [] 0 lines =
      (some cs, (IniFileParser.parseLines p filename lines).2) := by
  unfold IniFileParser.parseLines at h ⊢
  cases hl : IniFileParser.parseLoop p filename [] 0 lines with
  | mk a p1 =>
    rw [hl] at h
    cases a with
    | none => simp at h
    | some cs => exact ⟨cs, rfl⟩

theorem parseLine_unknown (p : ProgramOptions) (filename cs : Str) (n : Nat) (bad : Str)
    (hc : IniFileParser.regexMatch IniFileParser.commentRegex bad = none)
    (hs : IniFileParser.regexMatch IniFileParser.sectionRegex bad = none)
    (ha : IniFileParser.regexMatch IniFileParser.assignmentRegex bad = none) :
    IniFileParser.parseLine p filename cs n bad =
      (none, { p with _context := IniFileParser.context filename n,
                      _processingResult := { p._processingResult with _failed := true } }) := by
  simp [IniFileParser.parseLine, hc, hs, ha, ProgramOptions.fail, ProgramOptions.setContext,
    ProcessingResult.setFailed]

/-- C13: let the lines of a config file be `pre ++ [bad] ++ rest`, let the loop pass
the lines of `pre` (each is a comment or blank line, a section header or an
assignment `setValue` accepts), and let `bad` match none of the three
patterns. `parse` returns false with the failure flag set and the context
"config file '<filename>', line #<n>", where n is `|pre| + 1` in decimal
digits; the sections with their Parameters, the touched set
and the positional list are those the lines of `pre` leave, so that no line of
`rest` is applied. -/
theorem parse_unknown_line (p : ProgramOptions) (filename content : Str)
    (pre : List Str) (bad : Str) (rest : List Str)
    (hlines : IniFileParser.getlines content = pre ++ [bad] ++ rest)
    (hpre : (IniFileParser.parseLines p filename pre).1 = true)
    (hc : IniFileParser.regexMatch IniFileParser.commentRegex bad = none)
    (hs : IniFileParser.regexMatch IniFileParser.sectionRegex bad = none)
    (ha : IniFileParser.regexMatch IniFileParser.assignmentRegex bad = none) :
    (IniFileParser.parse p filename (some content)).1 = false ∧
    (IniFileParser.parse p filename (some content)).2.processingResult.failed = true ∧
    (IniFileParser.parse p filename (some content)).2._context =
      "config file '".data ++ filename ++ "', line #".data ++
        (Nat.repr (pre.length + 1)).data ∧
    (IniFileParser.parse p filename (some content)).2._sections =
      (IniFileParser.parseLines p filename pre).2._sections ∧
    (IniFileParser.parse p filename (some content)).2.processingResult._touched =
      (IniFileParser.parseLines p filename pre).2.processingResult._touched ∧
    (IniFileParser.parse p filename (some content)).2.processingResult._positionals =
      (IniFileParser.parseLines p filename pre).2.processingResult._positionals := by
  obtain ⟨cs, hloop⟩ := iniLines_true p filename pre hpre
  generalize (IniFileParser.parseLines p filename pre).2 = q at hloop ⊢
  have hparse : IniFileParser.parse p filename (some content) =
      (false, { q with _context := IniFileParser.context filename (pre.length + 1),
                       _processingResult := { q._processingResult with _failed := true } }) := by
    simp only [IniFileParser.parse, IniFileParser.parseLines, hlines, List.append_assoc,
      List.singleton_append, iniLoop_append, hloop, IniFileParser.parseLoop,
      parseLine_unknown _ _ _ _ _ hc hs ha, Nat.zero_add]
  rw [hparse]
  simp [ProgramOptions.processingResult, ProcessingResult.failed, IniFileParser.context]

/-- Witness of C13: two good lines, the line "journal size 999" and one more line;
the context is "config file 'f', line #3". -/
theorem parse_unknown_line_witness :
    (IniFileParser.parse sample "f".data
      (some "[database]\njournal-size = 999\njournal size 999\nquiet=".data)).1 = false ∧
    (IniFileParser.parse sample "f".data
      (some "[database]\njournal-size = 999\njournal size 999\nquiet=".data)
      ).2.processingResult.failed = true ∧
    (IniFileParser.parse sample "f".data
      (some "[database]\njournal-size = 999\njournal size 999\nquiet=".data)).2._context =
      "config file 'f', line #3".data ∧
    (IniFileParser.parse sample "f".data
      (some "[database]\njournal-size = 999\njournal size 999\nquiet=".data)).2._sections =
      (IniFileParser.parseLines sample "f".data
        ["[database]".data, "journal-size = 999".data]).2._sections ∧
    (IniFileParser.parse sample "f".data
      (some "[database]\njournal-size = 999\njournal size 999\nquiet=".data)
      ).2.processingResult._touched =
      (IniFileParser.parseLines sample "f".data
        ["[database]".data, "journal-size = 999".data]).2.processingResult._touched ∧
    (IniFileParser.parse sample "f".data
      (some "[database]\njournal-size = 999\njournal size 999\nquiet=".data)
      ).2.processingResult._positionals =
      (IniFileParser.parseLines sample "f".data
        ["[database]".data, "journal-size = 999".data]).2.processingResult._positionals :=
  parse_unknown_line sample "f".data
    "[database]\njournal-size = 999\njournal size 999\nquiet=".data
    ["[database]".data, "journal-size = 999".data] "journal size 999".data ["quiet=".data]
    (by decide) (by decide) rfl rfl rfl

theorem eq_setContext (p q : ProgramOptions) (h : q.setContext [] = p.setContext []) :
    q = p.setContext q._context := by
  cases p; cases q
  simp only [ProgramOptions.setContext, ProgramOptions.mk.injEq] at h ⊢
  simp [h]

theorem parseLine_setContext (p : ProgramOptions) (filename cs c : Str) (n n1 : Nat)
    (line : Str) :
    (IniFileParser.parseLine (p.setContext c) filename cs n1 line).1 =
      (IniFileParser.parseLine p filename cs n line).1 ∧
    (IniFileParser.parseLine (p.setContext c) filename cs n1 line).2.setContext [] =
      (IniFileParser.parseLine p filename cs n line).2.setContext [] := by
  unfold IniFileParser.parseLine
  by_cases hc : (IniFileParser.regexMatch IniFileParser.commentRegex line).isSome = true
  · rw [if_pos hc, if_pos hc]
    exact ⟨rfl, rfl⟩
  · rw [if_neg hc, if_neg hc]
    cases IniFileParser.regexMatch IniFileParser.sectionRegex line with
    | some m => exact ⟨rfl, rfl⟩
    | none =>
      cases IniFileParser.regexMatch IniFileParser.assignmentRegex line with
      | none => exact ⟨rfl, rfl⟩
      | some m =>
        have e1 : (p.setContext c).setContext (IniFileParser.context filename n1) =
            p.setContext (IniFileParser.context filename n1) := rfl
        simp only [e1, setValue_setContext]
        by_cases hv : (p.setValue (IniFileParser.optionName cs (m 1) (m 2)) (m 3)).1 = false
        · rw [if_pos hv, if_pos hv]
          exact ⟨rfl, rfl⟩
        · rw [if_neg hv, if_neg hv]
          exact ⟨rfl, rfl⟩

theorem iniLoop_context (lines : List Str) (p q : ProgramOptions) (filename cs : Str)
    (n n1 : Nat) (h : q.setContext [] = p.setContext []) :
    (IniFileParser.parseLoop q filename cs n1 lines).1 =
      (IniFileParser.parseLoop p filename cs n lines).1 ∧
    (IniFileParser.parseLoop q filename cs n1 lines).2.setContext [] =
      (IniFileParser.parseLoop p filename cs n lines).2.setContext [] := by
  induction lines generalizing p q cs n n1 with
  | nil => exact ⟨rfl, h⟩
  | cons x xs ih =>
    have hq := eq_setContext p q h
    obtain ⟨h1, h2⟩ := parseLine_setContext p filename cs q._context (n + 1) (n1 + 1) x
    rw [← hq] at h1 h2
    simp only [IniFileParser.parseLoop]
    cases hp : IniFileParser.parseLine p filename cs (n + 1) x with
    | mk a p1 =>
      cases hq1 : IniFileParser.parseLine q filename cs (n1 + 1) x with
      | mk b q1 =>
        rw [hp, hq1] at h1 h2
        simp only at h1 h2
        subst h1
        cases b with
        | none => exact ⟨rfl, h2⟩
        | some cs1 => exact ih p1 q1 cs1 (n + 1) (n1 + 1) h2

theorem parseLine_comment (p : ProgramOptions) (filename cs : Str) (n : Nat) (c : Str)
    (h : (IniFileParser.regexMatch IniFileParser.commentRegex c).isSome = true) :
    IniFileParser.parseLine p filename cs n c = (some cs, p) := by
  simp [IniFileParser.parseLine, h]

/-- C14, as stated, fails for a comment line that contains a carriage return: the
`.` of the pattern matches no line terminator. The empty file parses, and so
does the comment "# note"; with the line "# note" followed by a carriage
return in front (a file with CR-LF line ends) `parse` returns false with the
failure flag set, the context naming line 1. -/
theorem parse_comment_carriage_return :
    (IniFileParser.parse sample "f".data (some [])).1 = true ∧
    (IniFileParser.parse sample "f".data (some "# note\n".data)).1 = true ∧
    IniFileParser.getlines "# note\r\n".data = ["# note\r".data] ++ IniFileParser.getlines [] ∧
    (IniFileParser.parse sample "f".data (some "# note\r\n".data)).1 = false ∧
    (IniFileParser.parse sample "f".data (some "# note\r\n".data)).2.processingResult.failed =
      true ∧
    (IniFileParser.parse sample "f".data (some "# note\r\n".data)).2._context =
      IniFileParser.context "f".data 1 := by
  decide

/-- C14, amended: let `c` be a comment or blank line: optional spaces and tabs,
then nothing, or '#' or ';' followed by any characters other than line
terminators (carriage return, line feed). For a config file with `c` inserted
between the lines `xs` and `ys`, `parse` returns the same boolean and leaves
the same sections with their Parameters and the same processing result
(touched set, positional list, failure flag) as for the lines `xs ++ ys`. The
line `c` itself is passed over without a failure, whatever the registry and
the current section, and it is counted: the lines after it are processed
under a line number one higher. -/
theorem parse_comment_inserted (p : ProgramOptions) (filename content1 content2 : Str)
    (xs ys : List Str) (ws body : Str)
    (hws : ∀ c ∈ ws, IniFileParser.isBlank c = true)
    (hbody : body = [] ∨ ∃ c t, body = c :: t ∧ IniFileParser.isCommentStart c = true ∧
      ∀ x ∈ t, IniFileParser.isAny x = true)
    (h1 : IniFileParser.getlines content1 = xs ++ ys)
    (h2 : IniFileParser.getlines content2 = xs ++ [ws ++ body] ++ ys) :
    (IniFileParser.parse p filename (some content2)).1 =
      (IniFileParser.parse p filename (some content1)).1 ∧
    (IniFileParser.parse p filename (some content2)).2._sections =
      (IniFileParser.parse p filename (some content1)).2._sections ∧
    (IniFileParser.parse p filename (some content2)).2._processingResult =
      (IniFileParser.parse p filename (some content1)).2._processingResult ∧
    ∀ (q : ProgramOptions) (cs : Str) (n : Nat),
      IniFileParser.parseLine q filename cs (n + 1) (ws ++ body) = (some cs, q) ∧
      IniFileParser.parseLoop q filename cs n ((ws ++ body) :: ys) =
        IniFileParser.parseLoop q filename cs (n + 1) ys := by
  have hcom := comment_some ws body hws hbody
  have hstep : ∀ (q : ProgramOptions) (cs : Str) (n : Nat),
      IniFileParser.parseLoop q filename cs n ((ws ++ body) :: ys) =
        IniFileParser.parseLoop q filename cs (n + 1) ys := by
    intro q cs n
    simp only [IniFileParser.parseLoop, parseLine_comment _ _ _ _ _ hcom]
  have key : (IniFileParser.parseLoop p filename [] 0 (xs ++ [ws ++ body] ++ ys)).1 =
      (IniFileParser.parseLoop p filename [] 0 (xs ++ ys)).1 ∧
      (IniFileParser.parseLoop p filename [] 0 (xs ++ [ws ++ body] ++ ys)).2.setContext [] =
      (IniFileParser.parseLoop p filename [] 0 (xs ++ ys)).2.setContext [] := by
    simp only [List.append_assoc, List.singleton_append, iniLoop_append]
    cases hx : IniFileParser.parseLoop p filename [] 0 xs with
    | mk a p1 =>
      cases a with
      | none => exact ⟨rfl, rfl⟩
      | some cs1 =>
        simp only [hstep]
        exact iniLoop_context ys p1 p1 filename cs1 (0 + xs.length) (0 + xs.length + 1) rfl
  have hres : (IniFileParser.parse p filename (some content2)).1 =
      (IniFileParser.parse p filename (some content1)).1 ∧
      (IniFileParser.parse p filename (some content2)).2.setContext [] =
      (IniFileParser.parse p filename (some content1)).2.setContext [] := by
    simp only [IniFileParser.parse, IniFileParser.parseLines, h1, h2]
    obtain ⟨k1, k2⟩ := key
    cases ha : IniFileParser.parseLoop p filename [] 0 (xs ++ [ws ++ body] ++ ys) with
    | mk a pa =>
      cases hb : IniFileParser.parseLoop p filename [] 0 (xs ++ ys) with
      | mk b pb =>
        rw [ha, hb] at k1 k2
        simp only at k1 k2
        subst k1
        cases a <;> exact ⟨rfl, k2⟩
  refine ⟨hres.1, ?_, ?_, ?_⟩
  · have hsec := congrArg ProgramOptions._sections hres.2
    exact hsec
  · have hpr := congrArg ProgramOptions._processingResult hres.2
    exact hpr
  · intro q cs n
    exact ⟨parseLine_comment _ _ _ _ _ hcom, hstep q cs n⟩

/-- Witness of C14: the comment "  ; note" between a section header and an
assignment, on `sample`. -/
theorem parse_comment_inserted_witness :
    (IniFileParser.parse sample "f".data
        (some "[database]\n  ; note\njournal-size = 9".data)).1 =
      (IniFileParser.parse sample "f".data (some "[database]\njournal-size = 9".data)).1 ∧
    (IniFileParser.parse sample "f".data
        (some "[database]\n  ; note\njournal-size = 9".data)).2._sections =
      (IniFileParser.parse sample "f".data
        (some "[database]\njournal-size = 9".data)).2._sections ∧
    (IniFileParser.parse sample "f".data
        (some "[database]\n  ; note\njournal-size = 9".data)).2._processingResult =
      (IniFileParser.parse sample "f".data
        (some "[database]\njournal-size = 9".data)).2._processingResult ∧
    IniFileParser.parseLine sample "f".data "database".data (1 + 1)
        ("  ".data ++ "; note".data) = (some "database".data, sample) ∧
    IniFileParser.parseLoop sample "f".data "database".data 1
        (("  ".data ++ "; note".data) :: ["journal-size = 9".data]) =
      IniFileParser.parseLoop sample "f".data "database".data (1 + 1)
        ["journal-size = 9".data] :=
  have h := parse_comment_inserted sample "f".data "[database]\njournal-size = 9".data
    "[database]\n  ; note\njournal-size = 9".data ["[database]".data]
    ["journal-size = 9".data] "  ".data "; note".data (by decide)
    (Or.inr ⟨';', " note".data, by decide, by decide, by decide⟩) (by decide) (by decide)
  ⟨h.1, h.2.1, h.2.2.1, (h.2.2.2 sample "database".data 1).1,
    (h.2.2.2 sample "database".data 1).2⟩

theorem getlines_single (s : Str) (h : ∀ c ∈ s, c ≠ '\n') :
    IniFileParser.getlines s = [s] := by
  induction s with
  | nil => rfl
  | cons c s ih =>
    have hc : c ≠ '\n' := h c (by simp)
    have ih1 := ih (fun x hx => h x (by simp [hx]))
    simp [IniFileParser.getlines, hc, ih1]

theorem getlines_newline (s : Str) (h : ∀ c ∈ s, c ≠ '\n') :
    IniFileParser.getlines (s ++ ['\n']) = [s, []] := by
  induction s with
  | nil => rfl
  | cons c s ih =>
    have hc : c ≠ '\n' := h c (by simp)
    have ih1 := ih (fun x hx => h x (by simp [hx]))
    simp [IniFileParser.getlines, hc, ih1]

theorem blank_line (p : ProgramOptions) (filename cs : Str) (n : Nat) :
    IniFileParser.parseLine p filename cs n [] = (some cs, p) :=
  parseLine_comment p filename cs n [] (by decide)

/-- C15: for every key `a.b` made of name characters around one '.', and every
value `v` that has no line terminator and does not begin with a space or a
tab, `IniFileParser::parse` on a file that consists of the line `a.b=v`, with
or without a line feed at its end, and `ArgumentParser::parse` on
`[prog, "--a.b=v"]` return the same boolean, the one `setValue("a.b", v)`
returns, and leave the same sections with their Parameters and the same
processing result (touched set, positional list, failure flag), those
`setValue("a.b", v)` leaves. -/
theorem parse_front_ends (p : ProgramOptions) (filename prog a b v content : Str)
    (ha : ∀ c ∈ a, IniFileParser.isNameChar c = true)
    (hb : ∀ c ∈ b, IniFileParser.isNameChar c = true)
    (hv : ∀ c ∈ v, IniFileParser.isAny c = true)
    (hv0 : ∀ c ∈ v.head?, IniFileParser.isBlank c = false)
    (hcontent : content = (a ++ '.' :: b) ++ '=' :: v ∨
      content = ((a ++ '.' :: b) ++ '=' :: v) ++ ['\n']) :
    (IniFileParser.parse p filename (some content)).1 =
      (ArgumentParser.parse p [prog, '-' :: '-' :: ((a ++ '.' :: b) ++ '=' :: v)]).1 ∧
    (IniFileParser.parse p filename (some content)).2._sections =
      (ArgumentParser.parse p [prog, '-' :: '-' :: ((a ++ '.' :: b) ++ '=' :: v)]).2._sections ∧
    (IniFileParser.parse p filename (some content)).2._processingResult =
      (ArgumentParser.parse p
        [prog, '-' :: '-' :: ((a ++ '.' :: b) ++ '=' :: v)]).2._processingResult ∧
    (ArgumentParser.parse p [prog, '-' :: '-' :: ((a ++ '.' :: b) ++ '=' :: v)]).1 =
      (p.setValue (a ++ '.' :: b) v).1 ∧
    (ArgumentParser.parse p [prog, '-' :: '-' :: ((a ++ '.' :: b) ++ '=' :: v)]).2._sections =
      (p.setValue (a ++ '.' :: b) v).2._sections ∧
    (ArgumentParser.parse p
        [prog, '-' :: '-' :: ((a ++ '.' :: b) ++ '=' :: v)]).2._processingResult =
      (p.setValue (a ++ '.' :: b) v).2._processingResult := by
  have hkey : IsKey (a ++ '.' :: b) := Or.inr ⟨a, b, rfl, ha, hb⟩
  have hnoeq : '=' ∉ a ++ '.' :: b := by
    intro hmem
    rcases List.mem_append.1 hmem with h | h
    · exact (nameChar_facts _ (ha _ h)).2.2.2.2 rfl
    · rcases List.mem_cons.1 h with h | h
      · exact absurd h (by decide)
      · exact (nameChar_facts _ (hb _ h)).2.2.2.2 rfl
  have hnl : ∀ c ∈ (a ++ '.' :: b) ++ '=' :: v, c ≠ '\n' := by
    intro c hc
    rcases List.mem_append.1 hc with h | h
    · rcases List.mem_append.1 h with h | h
      · rintro rfl; exact absurd (ha _ h) (by decide)
      · rcases List.mem_cons.1 h with h | h
        · rw [h]; decide
        · rintro rfl; exact absurd (hb _ h) (by decide)
    · rcases List.mem_cons.1 h with h | h
      · rw [h]; decide
      · rintro rfl; exact absurd (hv _ h) (by decide)
  have hline := parseLine_assignment p filename [] 1 [] (a ++ '.' :: b) [] [] v
    (by simp) hkey (by simp) (by simp) hv hv0
  have hspec : specOptionName [] (a ++ '.' :: b) = a ++ '.' :: b := by
    simp [specOptionName]
  simp only [List.nil_append, hspec, setValue_setContext] at hline
  have hini : IniFileParser.parse p filename (some content) =
      ((p.setValue (a ++ '.' :: b) v).1,
        (p.setValue (a ++ '.' :: b) v).2.setContext (IniFileParser.context filename 1)) := by
    rcases hcontent with rfl | rfl
    · simp only [IniFileParser.parse, IniFileParser.parseLines, getlines_single _ hnl,
        IniFileParser.parseLoop, Nat.zero_add, hline]
      cases (p.setValue (a ++ '.' :: b) v).1 <;> rfl
    · simp only [IniFileParser.parse, IniFileParser.parseLines, getlines_newline _ hnl,
        IniFileParser.parseLoop, Nat.zero_add, hline]
      cases (p.setValue (a ++ '.' :: b) v).1
      · rfl
      · simp only [Bool.true_eq_false, if_false, blank_line]
  have harg : ArgumentParser.parse p [prog, '-' :: '-' :: ((a ++ '.' :: b) ++ '=' :: v)] =
      ((p.setValue (a ++ '.' :: b) v).1,
        (p.setValue (a ++ '.' :: b) v).2.setContext ArgumentParser.context) := by
    rw [← setValue_setContext]
    apply parse_of_setAndClear
    simp only [List.drop_one, List.tail_cons, ArgumentParser.parseLoop,
      parseStep_long_eq _ _ _ hnoeq]
    split <;> simp_all
  rw [hini, harg]
  exact ⟨rfl, rfl, rfl, rfl, rfl, rfl⟩

/-- Witness of C15: the file "database.journal-size=12 k" with a line feed at its
end, on `sample`. -/
theorem parse_front_ends_witness :
    (IniFileParser.parse sample "f".data (some "database.journal-size=12 k\n".data)).1 =
      (ArgumentParser.parse sample ["prog".data,
        '-' :: '-' :: (("database".data ++ '.' :: "journal-size".data) ++
          '=' :: "12 k".data)]).1 ∧
    (IniFileParser.parse sample "f".data
        (some "database.journal-size=12 k\n".data)).2._processingResult =
      (ArgumentParser.parse sample ["prog".data,
        '-' :: '-' :: (("database".data ++ '.' :: "journal-size".data) ++
          '=' :: "12 k".data)]).2._processingResult :=
  ⟨(parse_front_ends sample "f".data "prog".data "database".data "journal-size".data
      "12 k".data "database.journal-size=12 k\n".data (by decide) (by decide) (by decide)
      (by decide) (Or.inr (by decide))).1,
    (parse_front_ends sample "f".data "prog".data "database".data "journal-size".data
      "12 k".data "database.journal-size=12 k\n".data (by decide) (by decide) (by decide)
      (by decide) (Or.inr (by decide))).2.2.1⟩

theorem split_first_eq (x v : Str) :
    ∃ x1 v1, x ++ '=' :: v = x1 ++ '=' :: v1 ∧ '=' ∉ x1 := by
  induction x with
  | nil => exact ⟨[], v, rfl, by simp⟩
  | cons c x ih =>
    by_cases hc : c = '='
    · subst hc
      exact ⟨[], x ++ '=' :: v, rfl, by simp⟩
    · obtain ⟨x1, v1, h1, h2⟩ := ih
      refine ⟨c :: x1, v1, by simp [h1], ?_⟩
      intro hmem
      rcases List.mem_cons.1 hmem with h | h
      · exact hc h.symm
      · exact h2 h

theorem splitName_section (S y : Str) (hdot : '.' ∉ S) (hpre : S.take 2 ≠ ['-', '-']) :
    splitName (S ++ '.' :: y) = (S, y) := by
  have hstrip : stripPrefix (S ++ '.' :: y) = S ++ '.' :: y := by
    unfold stripPrefix
    split
    · next rest heq =>
      exfalso
      cases S with
      | nil => simp at heq
      | cons c S1 =>
        cases S1 with
        | nil =>
          simp only [List.cons_append, List.nil_append, List.cons.injEq] at heq
          exact absurd heq.2.1 (by decide)
        | cons c2 S2 =>
          simp only [List.cons_append, List.cons.injEq] at heq
          apply hpre
          simp [heq.1, heq.2.1]
    · rfl
  simp [splitName, hstrip, findChar_append _ _ _ hdot, take_length_append,
    drop_length_append]

theorem setValue_obsolete (p : ProgramOptions) (S y v : Str) (s : Section)
    (hS : mapFind p._sections S = some s) (hobs : s.obsolete = true)
    (hdot : '.' ∉ S) (hpre : S.take 2 ≠ ['-', '-']) :
    p.setValue (S ++ '.' :: y) v = (true, p) := by
  simp [ProgramOptions.setValue, splitName_section S y hdot hpre, hS, hobs]

/-- C16, as stated, fails. Without a value the parser asks `require` first, which
has no exemption for obsolete sections: in `sample`, whose obsolete section
`y2kbug` declares no option, `parse` on `[prog, "--y2kbug.century=19"]`
returns true without a failure or a touch, and on `[prog, "--y2kbug.century"]`
it returns false with the failure flag set. And an obsolete section whose name
contains '.' or '=' or begins with "--" is not found under the name the
parser splits off: each of the three assignments to a section of
`oddSections` returns false. -/
theorem parse_obsolete_section_failures :
    (mapFind sample._sections "y2kbug".data).map (fun s => s.obsolete) = some true ∧
    (ArgumentParser.parse sample ["prog".data, "--y2kbug.century=19".data]).1 = true ∧
    (ArgumentParser.parse sample
      ["prog".data, "--y2kbug.century=19".data]).2.processingResult.failed = false ∧
    (ArgumentParser.parse sample
      ["prog".data, "--y2kbug.century=19".data]).2.processingResult._touched = [] ∧
    (ArgumentParser.parse sample ["prog".data, "--y2kbug.century".data]).1 = false ∧
    (ArgumentParser.parse sample
      ["prog".data, "--y2kbug.century".data]).2.processingResult.failed = true ∧
    (mapFind oddSections._sections "y2k.bug".data).map (fun s => s.obsolete) = some true ∧
    (ArgumentParser.parse oddSections ["prog".data, "--y2k.bug.century=19".data]).1 = false ∧
    (mapFind oddSections._sections "y2k=bug".data).map (fun s => s.obsolete) = some true ∧
    (ArgumentParser.parse oddSections ["prog".data, "--y2k=bug.century=19".data]).1 = false ∧
    (mapFind oddSections._sections "--y2kbug".data).map (fun s => s.obsolete) = some true ∧
    (ArgumentParser.parse oddSections
      ["prog".data, '-' :: '-' :: "--y2kbug.century=19".data]).1 = false := by
  decide

/-- C16, amended: let `S` be a registered obsolete section whose name contains
neither '.' nor '=' and does not begin with "--". For every local name `x` and
every value `v`, `parse` on `[prog, "--S.x=v"]` returns true and leaves the
registry as it was but for the context: no failure, no touch. On
`[prog, "--S.x"]` it does the same when `x` contains no '=' and `S.x` resolves
to an option whose Parameter requires no value. -/
theorem parse_obsolete_section (p : ProgramOptions) (prog S x v : Str) (s : Section)
    (hS : mapFind p._sections S = some s) (hobs : s.obsolete = true)
    (hdot : '.' ∉ S) (heq : '=' ∉ S) (hpre : S.take 2 ≠ ['-', '-']) :
    ArgumentParser.parse p [prog, '-' :: '-' :: (S ++ '.' :: (x ++ '=' :: v))] =
      (true, p.setContext ArgumentParser.context) ∧
    ('=' ∉ x → p.lookupReq (S ++ '.' :: x) = some false →
      ArgumentParser.parse p [prog, '-' :: '-' :: (S ++ '.' :: x)] =
        (true, p.setContext ArgumentParser.context)) := by
  have hS1 : mapFind (p.setContext ArgumentParser.context)._sections S = some s := hS
  constructor
  · obtain ⟨x1, v1, hx, hx1⟩ := split_first_eq x v
    have hn : '=' ∉ S ++ '.' :: x1 := by
      intro hmem
      rcases List.mem_append.1 hmem with h | h
      · exact heq h
      · rcases List.mem_cons.1 h with h | h
        · exact absurd h (by decide)
        · exact hx1 h
    have htok : S ++ '.' :: (x ++ '=' :: v) = (S ++ '.' :: x1) ++ '=' :: v1 := by
      rw [hx]; simp
    rw [htok]
    apply parse_of_setAndClear
    simp only [List.drop_one, List.tail_cons, ArgumentParser.parseLoop,
      parseStep_long_eq _ _ _ hn, setValue_obsolete _ S x1 v1 s hS1 hobs hdot hpre]
    rfl
  · intro hx hl
    have hn : '=' ∉ S ++ '.' :: x := by
      intro hmem
      rcases List.mem_append.1 hmem with h | h
      · exact heq h
      · rcases List.mem_cons.1 h with h | h
        · exact absurd h (by decide)
        · exact hx h
    have hl1 : (p.setContext ArgumentParser.context).lookupReq (S ++ '.' :: x) =
        some false := hl
    unfold ArgumentParser.parse
    simp only [List.drop_one, List.tail_cons, ArgumentParser.parseLoop,
      parseStep_long _ _ hn, onlyOption_switch _ _ _ hl1,
      setValue_obsolete _ S x [] s hS1 hobs hdot hpre]
    simp

/-- Witness of C16: the obsolete section `y2kbug` of `switches` and its declared
switch `century`. -/
theorem parse_obsolete_section_witness :
    ArgumentParser.parse switches
        ["prog".data,
          '-' :: '-' :: ("y2kbug".data ++ '.' :: ("century".data ++ '=' :: "19".data))] =
      (true, switches.setContext ArgumentParser.context) ∧
    ArgumentParser.parse switches
        ["prog".data, '-' :: '-' :: ("y2kbug".data ++ '.' :: "century".data)] =
      (true, switches.setContext ArgumentParser.context) :=
  ⟨(parse_obsolete_section switches "prog".data "y2kbug".data "century".data "19".data _ rfl
      (by decide) (by decide) (by decide) (by decide)).1,
    (parse_obsolete_section switches "prog".data "y2kbug".data "century".data "19".data _ rfl
      (by decide) (by decide) (by decide) (by decide)).2 (by decide) (by decide)⟩

/-! ## The failure flag -/

theorem setValue_failed (p : ProgramOptions) (n v : Str) :
    (p.setValue n v).2._processingResult._failed =
      (p._processingResult._failed || !(p.setValue n v).1) := by
  cases h1 : mapFind p._sections (splitName n).1 with
  | none =>
    simp [ProgramOptions.setValue, h1, ProgramOptions.unknownOption, ProgramOptions.fail,
      ProcessingResult.setFailed]
  | some s1 =>
    by_cases hs : s1.obsolete = true
    · simp [ProgramOptions.setValue, h1, hs]
    · cases h2 : mapFind s1.options (splitName n).2 with
      | none =>
        simp [ProgramOptions.setValue, h1, hs, h2, ProgramOptions.unknownOption,
          ProgramOptions.fail, ProcessingResult.setFailed]
      | some o1 =>
        by_cases ho : o1.obsolete = true
        · simp [ProgramOptions.setValue, h1, hs, h2, ho, ProcessingResult.touch]
        · by_cases hr : (o1.parameter.set v).1 = []
          · simp [ProgramOptions.setValue, h1, hs, h2, ho, hr, ProcessingResult.touch]
          · simp [ProgramOptions.setValue, h1, hs, h2, ho, hr, ProgramOptions.fail,
              ProcessingResult.setFailed]

theorem require_failed (p : ProgramOptions) (n : Str) :
    (p.require n).2._processingResult._failed =
      (p._processingResult._failed || !(p.require n).1) := by
  rw [require_state]
  cases (p.require n).1 <;> simp

theorem setAndClear_failed (p : ProgramOptions) (n v : Str) :
    (ArgumentParser.setAndClear (p.setValue n v)).2._processingResult._failed =
      (p._processingResult._failed ||
        (ArgumentParser.setAndClear (p.setValue n v)).1.isNone) := by
  have h := setValue_failed p n v
  unfold ArgumentParser.setAndClear
  cases hb : (p.setValue n v).1 <;> simp [hb] at h ⊢ <;> exact h

theorem onlyOption_failed (p : ProgramOptions) (lastOption option : Str) (dashes : Nat) :
    (ArgumentParser.onlyOption p lastOption dashes option).2._processingResult._failed =
      (p._processingResult._failed ||
        (ArgumentParser.onlyOption p lastOption dashes option).1.isNone) := by
  unfold ArgumentParser.onlyOption
  simp only []
  generalize (if dashes = 1 then p.translateShorthand option else option) = name
  have hr := require_failed p name
  have hst := require_state p name
  cases hb : (p.require name).1
  · simp [hb] at hr ⊢
    exact hr
  · rw [hb] at hst
    simp only [if_true] at hst
    simp only [Bool.true_eq_false, if_false, hst]
    by_cases hq : p.requiresValue name = false
    · simp only [hq, if_true]
      have hv := setValue_failed p name []
      cases hb2 : (p.setValue name []).1 <;> simp [hb2] at hv ⊢ <;> exact hv
    · simp [hq]

theorem argStep_failed (p : ProgramOptions) (lastOption current : Str) :
    (ArgumentParser.parseStep p lastOption current).2._processingResult._failed =
      (p._processingResult._failed ||
        (ArgumentParser.parseStep p lastOption current).1.isNone) := by
  unfold ArgumentParser.parseStep
  by_cases hlo : lastOption ≠ []
  · rw [if_pos hlo]; exact setAndClear_failed p _ _
  · rw [if_neg hlo]
    simp only []
    generalize (if current.take 2 = ['-', '-'] then 2
      else if current.take 1 = ['-'] then 1 else 0) = dashes
    by_cases hd : dashes = 0
    · rw [if_pos hd]; simp [ProgramOptions.addPositional]
    · rw [if_neg hd]
      cases findChar '=' (List.drop dashes current) with
      | none => exact onlyOption_failed _ _ _ _
      | some pos => exact setAndClear_failed p _ _

theorem argLoop_failed (tokens : List Str) (p : ProgramOptions) (lastOption : Str) :
    (ArgumentParser.parseLoop p lastOption tokens).2._processingResult._failed =
      (p._processingResult._failed ||
        (ArgumentParser.parseLoop p lastOption tokens).1.isNone) := by
  induction tokens generalizing p lastOption with
  | nil => simp [ArgumentParser.parseLoop]
  | cons t ts ih =>
    have h := argStep_failed p lastOption t
    unfold ArgumentParser.parseLoop
    cases hstep : ArgumentParser.parseStep p lastOption t with
    | mk a p1 =>
      rw [hstep] at h
      cases a with
      | none => simpa using h
      | some lo =>
        simp only [Option.isNone_some, Bool.or_false] at h
        rw [ih p1 lo, h]

theorem iniLine_failed (p : ProgramOptions) (filename cs : Str) (n : Nat) (line : Str) :
    (IniFileParser.parseLine p filename cs n line).2._processingResult._failed =
      (p._processingResult._failed ||
        (IniFileParser.parseLine p filename cs n line).1.isNone) := by
  unfold IniFileParser.parseLine
  by_cases hc : (IniFileParser.regexMatch IniFileParser.commentRegex line).isSome = true
  · rw [if_pos hc]; simp
  · rw [if_neg hc]
    cases IniFileParser.regexMatch IniFileParser.sectionRegex line with
    | some m => simp [ProgramOptions.setContext]
    | none =>
      cases IniFileParser.regexMatch IniFileParser.assignmentRegex line with
      | none => simp [ProgramOptions.fail, ProcessingResult.setFailed]
      | some m =>
        simp only []
        have hq : (p.setContext (IniFileParser.context filename n))._processingResult._failed =
            p._processingResult._failed := rfl
        generalize p.setContext (IniFileParser.context filename n) = q at hq ⊢
        have hv := setValue_failed q (IniFileParser.optionName cs (m 1) (m 2)) (m 3)
        rw [hq] at hv
        cases hb : (q.setValue (IniFileParser.optionName cs (m 1) (m 2)) (m 3)).1
        · rw [hb] at hv
          simpa using hv
        · rw [hb] at hv
          simpa using hv

theorem iniLoop_failed (lines : List Str) (p : ProgramOptions) (filename cs : Str) (n : Nat) :
    (IniFileParser.parseLoop p filename cs n lines).2._processingResult._failed =
      (p._processingResult._failed ||
        (IniFileParser.parseLoop p filename cs n lines).1.isNone) := by
  induction lines generalizing p cs n with
  | nil => simp [IniFileParser.parseLoop]
  | cons x xs ih =>
    have h := iniLine_failed p filename cs (n + 1) x
    unfold IniFileParser.parseLoop
    cases hstep : IniFileParser.parseLine p filename cs (n + 1) x with
    | mk a p1 =>
      rw [hstep] at h
      cases a with
      | none => simpa using h
      | some cs1 =>
        simp only [Option.isNone_some, Bool.or_false] at h
        rw [ih p1 cs1 (n + 1), h]

/-- C17: after `ArgumentParser::parse`, and after `IniFileParser::parse`, the
failure flag is the flag before the pass or-ed with the negation of the value
the pass returned, for every registry and every input (argument vector; file
name and file content, or a file that cannot be opened). -/
theorem failed_flag (p : ProgramOptions) (argv : List Str) (filename : Str)
    (file : Option Str) :
    (ArgumentParser.parse p argv).2.processingResult.failed =
      (p.processingResult.failed || !(ArgumentParser.parse p argv).1) ∧
    (IniFileParser.parse p filename file).2.processingResult.failed =
      (p.processingResult.failed || !(IniFileParser.parse p filename file).1) := by
  constructor
  · have h := argLoop_failed (argv.drop 1) (p.setContext ArgumentParser.context) []
    unfold ArgumentParser.parse
    cases hl : ArgumentParser.parseLoop (p.setContext ArgumentParser.context) []
        (argv.drop 1) with
    | mk a p1 =>
      rw [hl] at h
      cases a with
      | none =>
        simpa [ProgramOptions.processingResult, ProcessingResult.failed,
          ProgramOptions.setContext] using h
      | some lo =>
        by_cases hlo : lo = []
        · simpa [hlo, ProgramOptions.processingResult, ProcessingResult.failed,
            ProgramOptions.setContext] using h
        · simp [hlo, ProgramOptions.fail, ProgramOptions.processingResult,
            ProcessingResult.failed, ProcessingResult.setFailed]
  · cases file with
    | none =>
      simp [IniFileParser.parse, ProgramOptions.fail, ProgramOptions.processingResult,
        ProcessingResult.failed, ProcessingResult.setFailed]
    | some content =>
      have h := iniLoop_failed (IniFileParser.getlines content) p filename [] 0
      simp only [IniFileParser.parse, IniFileParser.parseLines]
      generalize IniFileParser.parseLoop p filename [] 0 (IniFileParser.getlines content) = r
        at h ⊢
      obtain ⟨a, p1⟩ := r
      cases a <;>
        simpa [ProgramOptions.processingResult, ProcessingResult.failed] using h

/-! ## Declarations: structural errors, sealing, duplicates -/

theorem mapEmplace_present {β : Type} (m : List (Str × β)) (k : Str) (v : β)
    (h : (mapFind m k).isSome = true) : mapEmplace m k v = (m, false) := by
  simp [mapEmplace, h]

theorem mapEmplace_absent {β : Type} (m : List (Str × β)) (k : Str) (v : β)
    (h : (mapFind m k).isSome = false) : mapEmplace m k v = (mapInsert m k v, true) := by
  simp [mapEmplace, h]

theorem addOption_effect (p : ProgramOptions) (o : ProgOption) :
    p.addOptionPriv o =
      match p.addOptionEffect o with
      | (some e, _) => .error e
      | (none, q) => .ok q := by
  unfold ProgramOptions.addOptionPriv ProgramOptions.addOptionEffect
    ProgramOptions.checkIfSealed
  by_cases hs : p._sealed = true
  · simp [hs]
  · simp only [hs, if_false]
    cases mapFind p._sections o.section_ with
    | none => rfl
    | some s1 =>
      by_cases hsh : o.shorthand = []
      · simp [hsh]
      · by_cases hf : (mapFind p._shorthands o.shorthand).isSome = true
        · simp [hsh, mapEmplace_present _ _ _ hf]
        · have hf2 : (mapFind p._shorthands o.shorthand).isSome = false := by simpa using hf
          simp [hsh, mapEmplace_absent _ _ _ hf2]

/-- C18: `addOption` raises a structural error exactly when the registry is sealed,
or the section of the option is not registered, or the shorthand of the option
is not empty and already registered; and when it raises, the registry
(sections with their options, shorthand map, processing result) is the one
before the call. In every other case it does not raise. -/
theorem addOption_raises (p : ProgramOptions) (o : ProgOption) :
    (p.addOptionEffect o).1.isSome = p.mustRaise o ∧
    ((p.addOptionEffect o).1.isSome = true → (p.addOptionEffect o).2 = p) ∧
    (p.mustRaise o = false → ∃ q, p.addOptionPriv o = .ok q) ∧
    (p.mustRaise o = true → ∃ e, p.addOptionPriv o = .error e) := by
  have hmain : (p.addOptionEffect o).1.isSome = p.mustRaise o ∧
      ((p.addOptionEffect o).1.isSome = true → (p.addOptionEffect o).2 = p) := by
    obtain ⟨ctx, secs, shs, sim, pr, sealed⟩ := p
    unfold ProgramOptions.addOptionEffect ProgramOptions.mustRaise
    cases sealed with
    | true => simp
    | false =>
      cases mapFind secs o.section_ with
      | none => simp
      | some s1 =>
        by_cases hsh : o.shorthand = []
        · simp [hsh]
        · by_cases hf : (mapFind shs o.shorthand).isSome = true
          · simp [hsh, hf, mapEmplace_present _ _ _ hf]
          · have hf2 : (mapFind shs o.shorthand).isSome = false := by
              simpa using hf
            simp [hsh, hf2, mapEmplace_absent _ _ _ hf2]
  refine ⟨hmain.1, hmain.2, ?_, ?_⟩
  · intro hr
    rw [← hmain.1] at hr
    rw [addOption_effect]
    cases he : p.addOptionEffect o with
    | mk a q =>
      rw [he] at hr
      cases a with
      | none => exact ⟨q, rfl⟩
      | some e => simp at hr
  · intro hr
    rw [← hmain.1] at hr
    rw [addOption_effect]
    cases he : p.addOptionEffect o with
    | mk a q =>
      rw [he] at hr
      cases a with
      | none => simp at hr
      | some e => exact ⟨e, rfl⟩

/-- Witness of C18: on `sample`, an option with the shorthand `q`, which `quiet`
holds; and the option `database.wait-for-sync`, which raises nothing. -/
theorem addOption_raises_witness :
    (sample.addOptionEffect
      (ProgOption.new "--database.quick,-q".data [] (anyValue false) false false)).2 = sample ∧
    (∃ q, sample.addOptionPriv
      (ProgOption.new "--database.wait-for-sync".data [] (anyValue false) false false) = .ok q) ∧
    (∃ e, sample.addOptionPriv
      (ProgOption.new "--database.quick,-q".data [] (anyValue false) false false) = .error e) :=
  ⟨(addOption_raises sample
      (ProgOption.new "--database.quick,-q".data [] (anyValue false) false false)).2.1
      (by decide),
    (addOption_raises sample
      (ProgOption.new "--database.wait-for-sync".data [] (anyValue false) false false)).2.2.1
      (by decide),
    (addOption_raises sample
      (ProgOption.new "--database.quick,-q".data [] (anyValue false) false false)).2.2.2
      (by decide)⟩

theorem addSection_effect (p : ProgramOptions) (s : Section) :
    p.addSection s =
      match p.addSectionEffect s with
      | (some e, _) => .error e
      | (none, q) => .ok q := by
  unfold ProgramOptions.addSection ProgramOptions.addSectionEffect
    ProgramOptions.checkIfSealed
  by_cases hs : p._sealed = true <;> simp [hs]

theorem setValue_sealed (p : ProgramOptions) (n v : Str) :
    (p.setValue n v).2._sealed = p._sealed := by
  cases h1 : mapFind p._sections (splitName n).1 with
  | none =>
    simp [ProgramOptions.setValue, h1, ProgramOptions.unknownOption, ProgramOptions.fail]
  | some s1 =>
    by_cases hs : s1.obsolete = true
    · simp [ProgramOptions.setValue, h1, hs]
    · cases h2 : mapFind s1.options (splitName n).2 with
      | none =>
        simp [ProgramOptions.setValue, h1, hs, h2, ProgramOptions.unknownOption,
          ProgramOptions.fail]
      | some o1 =>
        by_cases ho : o1.obsolete = true
        · simp [ProgramOptions.setValue, h1, hs, h2, ho]
        · by_cases hr : (o1.parameter.set v).1 = []
          · simp [ProgramOptions.setValue, h1, hs, h2, ho, hr]
          · simp [ProgramOptions.setValue, h1, hs, h2, ho, hr, ProgramOptions.fail]

theorem require_sealed (p : ProgramOptions) (n : Str) :
    (p.require n).2._sealed = p._sealed := by
  rw [require_state]
  split <;> rfl

theorem onlyOption_sealed (p : ProgramOptions) (lastOption option : Str) (dashes : Nat) :
    (ArgumentParser.onlyOption p lastOption dashes option).2._sealed = p._sealed := by
  unfold ArgumentParser.onlyOption
  simp only []
  split_ifs <;> simp [setValue_sealed, require_sealed]

theorem argStep_sealed (p : ProgramOptions) (lastOption current : Str) :
    (ArgumentParser.parseStep p lastOption current).2._sealed = p._sealed := by
  unfold ArgumentParser.parseStep
  by_cases hlo : lastOption ≠ []
  · rw [if_pos hlo, setAndClear_snd, setValue_sealed]
  · rw [if_neg hlo]
    simp only []
    generalize (if current.take 2 = ['-', '-'] then 2
      else if current.take 1 = ['-'] then 1 else 0) = dashes
    by_cases hd : dashes = 0
    · rw [if_pos hd]; rfl
    · rw [if_neg hd]
      cases findChar '=' (List.drop dashes current) with
      | none => exact onlyOption_sealed _ _ _ _
      | some pos =>
        simp only [ArgumentParser.optionValue, setAndClear_snd, setValue_sealed]

theorem argLoop_sealed (tokens : List Str) (p : ProgramOptions) (lastOption : Str) :
    (ArgumentParser.parseLoop p lastOption tokens).2._sealed = p._sealed := by
  induction tokens generalizing p lastOption with
  | nil => rfl
  | cons t ts ih =>
    unfold ArgumentParser.parseLoop
    have h := argStep_sealed p lastOption t
    split
    · next p1 heq => rw [heq] at h; exact h
    · next lo1 p1 heq => rw [heq] at h; rw [ih]; exact h

theorem argParse_sealed (p : ProgramOptions) (argv : List Str) :
    (ArgumentParser.parse p argv).2._sealed = p._sealed := by
  have h := argLoop_sealed (argv.drop 1) (p.setContext ArgumentParser.context) []
  unfold ArgumentParser.parse
  generalize ArgumentParser.parseLoop (p.setContext ArgumentParser.context) []
    (argv.drop 1) = r at h ⊢
  obtain ⟨a, p1⟩ := r
  cases a with
  | none => exact h
  | some lo =>
    by_cases hlo : lo = []
    · simpa [hlo] using h
    · simpa [hlo, ProgramOptions.fail] using h

theorem iniLine_sealed (p : ProgramOptions) (filename cs : Str) (n : Nat) (line : Str) :
    (IniFileParser.parseLine p filename cs n line).2._sealed = p._sealed := by
  unfold IniFileParser.parseLine
  by_cases hc : (IniFileParser.regexMatch IniFileParser.commentRegex line).isSome = true
  · rw [if_pos hc]
  · rw [if_neg hc]
    cases IniFileParser.regexMatch IniFileParser.sectionRegex line with
    | some m => rfl
    | none =>
      cases IniFileParser.regexMatch IniFileParser.assignmentRegex line with
      | none => rfl
      | some m =>
        simp only []
        split <;> simp [setValue_sealed, ProgramOptions.setContext]

theorem iniLoop_sealed (lines : List Str) (p : ProgramOptions) (filename cs : Str) (n : Nat) :
    (IniFileParser.parseLoop p filename cs n lines).2._sealed = p._sealed := by
  induction lines generalizing p cs n with
  | nil => rfl
  | cons x xs ih =>
    unfold IniFileParser.parseLoop
    have h := iniLine_sealed p filename cs (n + 1) x
    split
    · next p1 heq => rw [heq] at h; exact h
    · next cs1 p1 heq => rw [heq] at h; rw [ih]; exact h

theorem iniParse_sealed (p : ProgramOptions) (filename : Str) (file : Option Str) :
    (IniFileParser.parse p filename file).2._sealed = p._sealed := by
  cases file with
  | none => rfl
  | some content =>
    have h := iniLoop_sealed (IniFileParser.getlines content) p filename [] 0
    simp only [IniFileParser.parse, IniFileParser.parseLines]
    generalize IniFileParser.parseLoop p filename [] 0 (IniFileParser.getlines content) = r
      at h ⊢
    obtain ⟨a, p1⟩ := r
    cases a <;> exact h

theorem setValue_seal (p : ProgramOptions) (n v : Str) :
    p.seal_.setValue n v = ((p.setValue n v).1, (p.setValue n v).2.seal_) := by
  cases h1 : mapFind p._sections (splitName n).1 with
  | none =>
    simp [ProgramOptions.setValue, ProgramOptions.seal_, h1, ProgramOptions.unknownOption,
      ProgramOptions.fail]
  | some s1 =>
    by_cases hs : s1.obsolete = true
    · simp [ProgramOptions.setValue, ProgramOptions.seal_, h1, hs]
    · cases h2 : mapFind s1.options (splitName n).2 with
      | none =>
        simp [ProgramOptions.setValue, ProgramOptions.seal_, h1, hs, h2,
          ProgramOptions.unknownOption, ProgramOptions.fail]
      | some o1 =>
        by_cases ho : o1.obsolete = true
        · simp [ProgramOptions.setValue, ProgramOptions.seal_, h1, hs, h2, ho]
        · by_cases hr : (o1.parameter.set v).1 = []
          · simp [ProgramOptions.setValue, ProgramOptions.seal_, h1, hs, h2, ho, hr]
          · simp [ProgramOptions.setValue, ProgramOptions.seal_, h1, hs, h2, ho, hr,
              ProgramOptions.fail]

/-- C19: sealing twice leaves what sealing once leaves, and sealing a sealed
registry changes nothing. On a sealed registry `p`, the registry stays sealed
after `setContext`, `fail`, `addPositional`, `require`, `setValue`,
`ArgumentParser::parse` and `IniFileParser::parse`; each of `addSection`,
`addHiddenSection`, `addObsoleteSection`, `addOption`, `addHiddenOption` and
`addObsoleteOption` raises the structural error of `checkIfSealed` and leaves
the registry, its failure flag included, as it was. `setValue` does on a
sealed registry what it does on the unsealed one. -/
theorem seal_one_way (p : ProgramOptions) (hs : p._sealed = true) (s : Section)
    (o : ProgOption) (name description value : Str) (parameter : Parameter)
    (argv : List Str) (file : Option Str) :
    (∀ q : ProgramOptions, q.seal_.seal_ = q.seal_) ∧
    p.seal_ = p ∧
    (p.setContext name)._sealed = true ∧
    (p.fail name).2._sealed = true ∧
    (p.addPositional value)._sealed = true ∧
    (p.require name).2._sealed = true ∧
    (p.setValue name value).2._sealed = true ∧
    (ArgumentParser.parse p argv).2._sealed = true ∧
    (IniFileParser.parse p name file).2._sealed = true ∧
    p.addSectionEffect s = (some sealedError, p) ∧
    p.addOptionEffect o = (some sealedError, p) ∧
    p.addSection s = .error sealedError ∧
    p.addSectionNamed name description = .error sealedError ∧
    p.addHiddenSection name description = .error sealedError ∧
    p.addObsoleteSection name = .error sealedError ∧
    p.addOption name description parameter = .error sealedError ∧
    p.addHiddenOption name description parameter = .error sealedError ∧
    p.addObsoleteOption name description = .error sealedError ∧
    ∀ (q : ProgramOptions) (n v : Str),
      q.seal_.setValue n v = ((q.setValue n v).1, (q.setValue n v).2.seal_) := by
  have hsec : ∀ s1 : Section, p.addSection s1 = .error sealedError := by
    intro s1
    simp [ProgramOptions.addSection, ProgramOptions.checkIfSealed, hs, sealedError]
  have hopt : ∀ o1 : ProgOption, p.addOptionPriv o1 = .error sealedError := by
    intro o1
    simp [ProgramOptions.addOptionPriv, ProgramOptions.checkIfSealed, hs, sealedError]
  refine ⟨fun q => rfl, ?_, ?_, ?_, ?_, ?_, ?_, ?_, ?_, ?_, ?_, hsec s, hsec _, hsec _, hsec _,
    hopt _, hopt _, hopt _, setValue_seal⟩
  · cases p; simp_all [ProgramOptions.seal_]
  · exact hs
  · exact hs
  · exact hs
  · rw [require_sealed]; exact hs
  · rw [setValue_sealed]; exact hs
  · rw [argParse_sealed]; exact hs
  · rw [iniParse_sealed]; exact hs
  · simp [ProgramOptions.addSectionEffect, hs, sealedError]
  · simp [ProgramOptions.addOptionEffect, hs, sealedError]

/-- Witness of C19: `sample` after `seal`, a new option `database.wait-for-sync`
and the command line `prog -q`. -/
theorem seal_one_way_witness :
    (ArgumentParser.parse sample.seal_ ["prog".data, "-q".data]).2._sealed = true ∧
    sample.seal_.addOptionEffect
        (ProgOption.new "--database.wait-for-sync".data [] (anyValue false) false false) =
      (some sealedError, sample.seal_) ∧
    sample.seal_.addObsoleteSection "old".data = .error sealedError ∧
    sample.seal_.setValue "quiet".data [] =
      ((sample.setValue "quiet".data []).1, (sample.setValue "quiet".data []).2.seal_) :=
  have h := seal_one_way sample.seal_ (by decide) (Section.new "old".data [] [] true true)
    (ProgOption.new "--database.wait-for-sync".data [] (anyValue false) false false)
    "old".data [] [] (anyValue false) ["prog".data, "-q".data] none
  ⟨h.2.2.2.2.2.2.2.1, h.2.2.2.2.2.2.2.2.2.2.1, h.2.2.2.2.2.2.2.2.2.2.2.2.2.2.1,
    h.2.2.2.2.2.2.2.2.2.2.2.2.2.2.2.2.2.2 sample "quiet".data []⟩

theorem mapUpdate_id {β : Type} (m : List (Str × β)) (k : Str) (f : β → β)
    (h : ∀ v, mapFind m k = some v → f v = v) : mapUpdate m k f = m := by
  induction m with
  | nil => rfl
  | cons kv m ih =>
    obtain ⟨a, b⟩ := kv
    by_cases hak : a = k
    · have hb : f b = b := h b (by simp [mapFind, hak])
      simp [mapUpdate, hak, hb]
    · have ih1 := ih (fun v hv => h v (by simpa [mapFind, hak] using hv))
      simp [mapUpdate, hak, ih1]

theorem mapFind_mapEmplace_isSome {β : Type} (m : List (Str × β)) (k : Str) (v : β) :
    (mapFind (mapEmplace m k v).1 k).isSome = true := by
  by_cases h : (mapFind m k).isSome = true
  · rw [mapEmplace_present m k v h]; exact h
  · have h2 : mapFind m k = none := by simpa using h
    rw [mapFind_mapEmplace_new m k v h2]; rfl

theorem addOption_sections (p q : ProgramOptions) (o : ProgOption)
    (h : p.addOptionPriv o = .ok q) :
    q._sections = mapUpdate p._sections o.section_ (fun s => s.addOption o) ∧
    q._processingResult = p._processingResult ∧ q._context = p._context ∧
    q._sealed = p._sealed ∧ q._similarity = p._similarity ∧
    (mapFind p._sections o.section_).isSome = true := by
  unfold ProgramOptions.addOptionPriv at h
  cases hseal : p.checkIfSealed with
  | error e => simp [hseal] at h
  | ok u =>
    cases hsec : mapFind p._sections o.section_ with
    | none => simp [hseal, hsec] at h
    | some s =>
      simp only [hseal, hsec] at h
      split at h
      · cases h
      · cases h
        exact ⟨rfl, rfl, rfl, rfl, rfl, rfl⟩

/-- C20, as stated, fails: `addOption` stores with `emplace`, and the declaration
that is already there stays. In `sample`, where `quiet` is declared with the
description "be quiet", visible, with a Parameter that requires no value, a
second `quiet`, hidden, described as "second" and with a Parameter that
requires a value, is added without an error; the registry then still holds the
first declaration, and `requiresValue("quiet")` is false. -/
theorem addOption_second_dropped :
    ((sample.addHiddenOption "quiet".data "second".data (anyValue true)).toOption.bind
        fun q => (q.resolve "quiet".data).map
          fun so => (so.2.description, so.2.hidden, so.2.parameter.requiresValue)) =
      some ("be quiet".data, false, false) ∧
    ((sample.addHiddenOption "quiet".data "second".data (anyValue true)).toOption.map
        fun q => q.requiresValue "quiet".data) = some false := by
  decide

/-- C20, amended: duplicate option names are first-write-wins. When two options
with the same section and the same name are added one after the other and
neither call raises, the second call leaves the sections with all their
options, the processing result, the context and the seal as the first call
left them; only the shorthand map can differ. So `requiresValue` and
`setValue` use after the second call the Parameter they used after the first:
for every name, `requiresValue` gives the same answer and `setValue` the same
boolean, sections and processing result. When the section held no option of
that name before, the option stored under the name is the first one. -/
theorem addOption_first_wins (p q1 q2 : ProgramOptions) (o1 o2 : ProgOption)
    (h1 : p.addOptionPriv o1 = .ok q1) (h2 : q1.addOptionPriv o2 = .ok q2)
    (hsec : o2.section_ = o1.section_) (hname : o2.name = o1.name) :
    q2 = { q1 with _shorthands := q2._shorthands } ∧
    (∀ n, q2.requiresValue n = q1.requiresValue n) ∧
    (∀ n v, (q2.setValue n v).1 = (q1.setValue n v).1 ∧
      (q2.setValue n v).2._sections = (q1.setValue n v).2._sections ∧
      (q2.setValue n v).2._processingResult = (q1.setValue n v).2._processingResult) ∧
    (p.holds (o1.section_, o1.name) = false →
      ∃ s, mapFind q2._sections o1.section_ = some s ∧
        mapFind s.options o1.name = some o1) := by
  obtain ⟨a1, _, _, _, _, a6⟩ := addOption_sections p q1 o1 h1
  obtain ⟨b1, b2, b3, b4, b5, _⟩ := addOption_sections q1 q2 o2 h2
  have hsame : q2._sections = q1._sections := by
    rw [b1]
    apply mapUpdate_id
    intro s hs
    rw [hsec, a1, mapFind_mapUpdate] at hs
    simp only [if_true] at hs
    cases hp : mapFind p._sections o1.section_ with
    | none => rw [hp] at hs; simp at hs
    | some s0 =>
      rw [hp] at hs
      simp only [Option.map_some', Option.some.injEq] at hs
      subst hs
      have hpres : (mapFind (s0.addOption o1).options o2.name).isSome = true := by
        rw [hname]
        exact mapFind_mapEmplace_isSome s0.options o1.name o1
      show { s0.addOption o1 with
          options := (mapEmplace (s0.addOption o1).options o2.name o2).1 } = s0.addOption o1
      rw [mapEmplace_present _ _ _ hpres]
  have hq : q2 = { q1 with _shorthands := q2._shorthands } := by
    clear h1 h2 a1 b1
    obtain ⟨c1, s1, sh1, sim1, pr1, se1⟩ := q1
    obtain ⟨c2, s2, sh2, sim2, pr2, se2⟩ := q2
    simp only at hsame b2 b3 b4 b5
    subst hsame b2 b3 b4 b5
    rfl
  refine ⟨hq, ?_, ?_, ?_⟩
  · intro n
    unfold ProgramOptions.requiresValue
    rw [hsame]
  · intro n v
    have hv : ∀ r : ProgramOptions, r._sections = q1._sections →
        r._processingResult = q1._processingResult →
        (r.setValue n v).1 = (q1.setValue n v).1 ∧
        (r.setValue n v).2._sections = (q1.setValue n v).2._sections ∧
        (r.setValue n v).2._processingResult = (q1.setValue n v).2._processingResult := by
      intro r hr1 hr2
      cases hf1 : mapFind q1._sections (splitName n).1 with
      | none =>
        simp [ProgramOptions.setValue, hr1, hr2, hf1, ProgramOptions.unknownOption,
          ProgramOptions.fail]
      | some s1 =>
        by_cases hso : s1.obsolete = true
        · simp [ProgramOptions.setValue, hr1, hr2, hf1, hso]
        · cases hf2 : mapFind s1.options (splitName n).2 with
          | none =>
            simp [ProgramOptions.setValue, hr1, hr2, hf1, hso, hf2,
              ProgramOptions.unknownOption, ProgramOptions.fail]
          | some o =>
            by_cases ho : o.obsolete = true
            · simp [ProgramOptions.setValue, hr1, hr2, hf1, hso, hf2, ho]
            · by_cases hr : (o.parameter.set v).1 = []
              · simp [ProgramOptions.setValue, hr1, hr2, hf1, hso, hf2, ho, hr]
              · simp [ProgramOptions.setValue, hr1, hr2, hf1, hso, hf2, ho, hr,
                  ProgramOptions.fail]
    exact hv q2 hsame b2
  · intro hnew
    rw [hsame, a1, mapFind_mapUpdate]
    simp only [if_true]
    cases hp : mapFind p._sections o1.section_ with
    | none => rw [hp] at a6; simp at a6
    | some s0 =>
      have hopt : mapFind s0.options o1.name = none := by
        simpa [ProgramOptions.holds, hp] using hnew
      exact ⟨s0.addOption o1, rfl, by
        simp [Section.addOption, mapFind_mapEmplace_new _ _ _ hopt]⟩

/-- Witness of C20: `database.wait-for-sync` added to `sample` twice, the second
time hidden and with a Parameter that requires a value. -/
theorem addOption_first_wins_witness :
    declared ((sample.addOption "--database.wait-for-sync".data [] (anyValue false)).bind
        fun q => q.addHiddenOption "--database.wait-for-sync".data [] (anyValue true)) =
      { declared (sample.addOption "--database.wait-for-sync".data [] (anyValue false)) with
        _shorthands := (declared ((sample.addOption "--database.wait-for-sync".data []
          (anyValue false)).bind
            fun q => q.addHiddenOption "--database.wait-for-sync".data []
              (anyValue true)))._shorthands } :=
  (addOption_first_wins sample _ _
    (ProgOption.new "--database.wait-for-sync".data [] (anyValue false) false false)
    (ProgOption.new "--database.wait-for-sync".data [] (anyValue true) true false)
    rfl rfl (by decide) (by decide)).1

/-! ## Declaration strings -/

theorem splitName_prefixed (S y : Str) (hdot : '.' ∉ S) :
    splitName ('-' :: '-' :: (S ++ '.' :: y)) = (S, y) := by
  simp [splitName, stripPrefix, findChar_append '.' S y hdot, take_length_append,
    drop_length_append]

theorem new_of_splitName (value s n suffix description : Str) (parameter : Parameter)
    (hidden obsolete : Bool) (hsplit : splitName value = (s, n ++ ',' :: suffix))
    (hcomma : ',' ∉ n) :
    ProgOption.new value description parameter hidden obsolete =
      { section_ := s, name := n, description := description,
        shorthand := stripShorthand suffix, parameter := parameter, hidden := hidden,
        obsolete := obsolete } := by
  simp [ProgOption.new, hsplit, findChar_append ',' n suffix hcomma, take_length_append,
    drop_length_append]

/-- C21 (counterexample): with section "server", name "endpoints" and the
shorthand "-e", the option constructed from "s.n,h", that is from
"server.endpoints,-e", has the shorthand "e" and not "-e". -/
theorem new_dashed_shorthand :
    (ProgOption.new ("server".data ++ '.' :: ("endpoints".data ++ ',' :: "-e".data)) []
        (anyValue true) false false).shorthand = "e".data ∧
      (ProgOption.new ("server".data ++ '.' :: ("endpoints".data ++ ',' :: "-e".data)) []
        (anyValue true) false false).shorthand ≠ "-e".data := by
  decide

/-- C21 (amended): for every non-empty section s without '.' that does not begin
with "--", every name n without ',' and every suffix, the option constructed from
"s.n,suffix" or "--s.n,suffix" has section s, name n, the suffix less one leading
'-' as its shorthand, full name "s.n" and display name "--s.n", and splitName gives
(s, n) back from the full name; so the shorthand is h for the suffix "-h" with any
h, and for the suffix h when h does not begin with '-'. -/
theorem new_round_trip (s n h pre description : Str) (parameter : Parameter)
    (hidden obsolete : Bool) (hs : s ≠ []) (hsdot : '.' ∉ s)
    (hspre : s.take 2 ≠ ['-', '-']) (hncomma : ',' ∉ n)
    (hpre : pre = [] ∨ pre = ['-', '-']) :
    (∀ suffix : Str,
      (ProgOption.new (pre ++ (s ++ '.' :: (n ++ ',' :: suffix))) description parameter
          hidden obsolete).section_ = s ∧
      (ProgOption.new (pre ++ (s ++ '.' :: (n ++ ',' :: suffix))) description parameter
          hidden obsolete).name = n ∧
      (ProgOption.new (pre ++ (s ++ '.' :: (n ++ ',' :: suffix))) description parameter
          hidden obsolete).shorthand = stripShorthand suffix ∧
      (ProgOption.new (pre ++ (s ++ '.' :: (n ++ ',' :: suffix))) description parameter
          hidden obsolete).fullName = s ++ '.' :: n ∧
      (ProgOption.new (pre ++ (s ++ '.' :: (n ++ ',' :: suffix))) description parameter
          hidden obsolete).displayName = '-' :: '-' :: (s ++ '.' :: n) ∧
      splitName (ProgOption.new (pre ++ (s ++ '.' :: (n ++ ',' :: suffix))) description
          parameter hidden obsolete).fullName = (s, n)) ∧
    (ProgOption.new (pre ++ (s ++ '.' :: (n ++ ',' :: '-' :: h))) description parameter
        hidden obsolete).shorthand = h ∧
    (h.head? ≠ some '-' →
      (ProgOption.new (pre ++ (s ++ '.' :: (n ++ ',' :: h))) description parameter
        hidden obsolete).shorthand = h) := by
  have hsplit : ∀ rest : Str, splitName (pre ++ (s ++ '.' :: rest)) = (s, rest) := by
    intro rest
    rcases hpre with h0 | h2
    · subst h0
      exact splitName_section s rest hsdot hspre
    · subst h2
      exact splitName_prefixed s rest hsdot
  have hnew : ∀ suffix : Str,
      ProgOption.new (pre ++ (s ++ '.' :: (n ++ ',' :: suffix))) description parameter
          hidden obsolete =
        { section_ := s, name := n, description := description,
          shorthand := stripShorthand suffix, parameter := parameter, hidden := hidden,
          obsolete := obsolete } :=
    fun suffix => new_of_splitName _ s n suffix description parameter hidden obsolete
      (hsplit _) hncomma
  refine ⟨?_, ?_, ?_⟩
  · intro suffix
    rw [hnew suffix]
    have hfull : ProgOption.fullName
        { section_ := s, name := n, description := description,
          shorthand := stripShorthand suffix, parameter := parameter, hidden := hidden,
          obsolete := obsolete } = s ++ '.' :: n := by
      simp [ProgOption.fullName, hs]
    refine ⟨rfl, rfl, rfl, hfull, ?_, ?_⟩
    · simp [ProgOption.displayName, hfull]
    · rw [hfull]
      exact splitName_section s n hsdot hspre
  · rw [hnew]
    rfl
  · intro hh
    rw [hnew]
    cases h with
    | nil => rfl
    | cons c r =>
      have hc : c ≠ '-' := fun e => hh (by simp [e])
      show stripShorthand (c :: r) = c :: r
      unfold stripShorthand
      split
      · next rest heq =>
        exact absurd (List.cons.inj heq).1 hc
      · rfl

/-- Witness of C21: the declaration "--server.endpoints,-e" of `example.cpp`. -/
theorem new_round_trip_witness :
    (ProgOption.new ("--".data ++ ("server".data ++ '.' :: ("endpoints".data ++
        ',' :: '-' :: "e".data))) [] (anyValue true) false false).shorthand = "e".data :=
  (new_round_trip "server".data "endpoints".data "e".data "--".data [] (anyValue true)
    false false (by decide) (by decide) (by decide) (by decide) (by decide)).2.1

/-! ## The help pre-scan -/

theorem begins_help (x : Str) :
    (x.length ≥ 6 ∧ x.take 6 = "--help".data) ↔ x.take 6 = "--help".data := by
  constructor
  · exact fun h => h.2
  · intro h
    refine ⟨?_, h⟩
    have hl : (x.take 6).length = 6 := by rw [h]; rfl
    rw [List.length_take] at hl
    omega

theorem helpSectionLoop_skip (pre rest : List Str)
    (hpre : ∀ x ∈ pre, x.take 6 ≠ "--help".data) :
    ArgumentParser.helpSectionLoop (pre ++ rest) = ArgumentParser.helpSectionLoop rest := by
  induction pre with
  | nil => rfl
  | cons x pre ih =>
    have hx : ¬ (x.length ≥ 6 ∧ x.take 6 = "--help".data) :=
      fun h => hpre x (by simp) h.2
    have hrest : ∀ y ∈ pre, y.take 6 ≠ "--help".data :=
      fun y hy => hpre y (by simp [hy])
    show ArgumentParser.helpSectionLoop (x :: (pre ++ rest)) = _
    rw [ArgumentParser.helpSectionLoop, if_neg hx]
    exact ih hrest

theorem helpSectionLoop_hit (t : Str) (post : List Str) (ht : t.take 6 = "--help".data) :
    ArgumentParser.helpSectionLoop (t :: post) =
      if t.length ≤ 7 then "*".data else t.drop 7 := by
  rw [ArgumentParser.helpSectionLoop, if_pos ((begins_help t).2 ht)]

theorem helpSectionLoop_empty (l : List Str) :
    ArgumentParser.helpSectionLoop l = [] ↔ ∀ x ∈ l, x.take 6 ≠ "--help".data := by
  induction l with
  | nil => simp [ArgumentParser.helpSectionLoop]
  | cons x l ih =>
    by_cases hx : x.take 6 = "--help".data
    · rw [helpSectionLoop_hit x l hx]
      constructor
      · intro h
        exfalso
        by_cases hl : x.length ≤ 7
        · rw [if_pos hl] at h
          exact absurd h (by decide)
        · rw [if_neg hl] at h
          have : (x.drop 7).length = 0 := by rw [h]; rfl
          rw [List.length_drop] at this
          omega
      · intro h
        exact absurd hx (h x (by simp))
    · have hsk : ArgumentParser.helpSectionLoop (x :: l) =
          ArgumentParser.helpSectionLoop l :=
        helpSectionLoop_skip [x] l (by simpa using hx)
      rw [hsk, ih]
      constructor
      · intro h y hy
        rcases List.mem_cons.1 hy with rfl | hy
        · exact hx
        · exact h y hy
      · intro h y hy
        exact h y (by simp [hy])

/-- C24: helpSection ignores element 0 of the argument vector. A token begins with
"--help" when its first six characters are "--help". When t is the first token of
index at least 1 that begins with "--help", the result is "*" if t is exactly
"--help" and it is s if t is "--help-" followed by a non-empty s; and the result is
the empty string if and only if no token of index at least 1 begins with "--help". -/
theorem helpSection_spec (argv : List Str) :
    (∀ (pre : List Str) (t : Str) (post : List Str),
      argv.drop 1 = pre ++ t :: post →
      (∀ x ∈ pre, x.take 6 ≠ "--help".data) →
      (t = "--help".data → ArgumentParser.helpSection argv = "*".data) ∧
      (∀ s : Str, s ≠ [] → t = "--help-".data ++ s →
        ArgumentParser.helpSection argv = s)) ∧
    (ArgumentParser.helpSection argv = [] ↔
      ∀ x ∈ argv.drop 1, x.take 6 ≠ "--help".data) := by
  refine ⟨?_, helpSectionLoop_empty _⟩
  intro pre t post hargv hpre
  have hskip : ArgumentParser.helpSection argv =
      ArgumentParser.helpSectionLoop (t :: post) := by
    rw [ArgumentParser.helpSection, hargv]
    exact helpSectionLoop_skip pre (t :: post) hpre
  constructor
  · intro ht
    rw [hskip, helpSectionLoop_hit t post (by rw [ht]; rfl), ht]
    rfl
  · intro s hs ht
    rw [hskip, helpSectionLoop_hit t post (by rw [ht]; rfl), ht]
    have hlen : ¬ ("--help-".data ++ s).length ≤ 7 := by
      have h0 : 0 < s.length := List.length_pos.2 hs
      have h7 : "--help-".data.length = 7 := rfl
      rw [List.length_append, h7]
      omega
    rw [if_neg hlen]
    rfl

/-- Witness of C24: "--help-server" comes before "--help", behind a token that
does not begin with "--help". -/
theorem helpSection_spec_witness :
    ArgumentParser.helpSection
      ["prog".data, "--quiet".data, "--help-server".data, "--help".data] = "server".data :=
  ((helpSection_spec ["prog".data, "--quiet".data, "--help-server".data, "--help".data]).1
    ["--quiet".data] "--help-server".data ["--help".data] rfl (by decide)).2
    "server".data (by decide) rfl

/-! ## Word wrap -/

theorem findLastOf_some (p : Char → Bool) (s : Str) (pos i : Nat)
    (h : findLastOf p s pos = some i) :
    i ≤ pos ∧ (∃ c, s[i]? = some c ∧ p c = true) ∧
      ∀ j d, i < j → j ≤ pos → s[j]? = some d → p d = false := by
  induction pos with
  | zero =>
    unfold findLastOf at h
    cases hc : s[0]? with
    | none => simp [hc] at h
    | some c =>
      simp only [hc] at h
      by_cases hp : p c = true
      · rw [if_pos hp] at h
        cases h
        exact ⟨le_refl _, ⟨c, hc, hp⟩, fun j d h1 h2 => by omega⟩
      · rw [if_neg hp] at h
        cases h
  | succ pos ih =>
    unfold findLastOf at h
    have hrec : findLastOf p s pos = some i →
        (∀ d, s[pos + 1]? = some d → p d = false) →
        i ≤ pos + 1 ∧ (∃ c, s[i]? = some c ∧ p c = true) ∧
          ∀ j d, i < j → j ≤ pos + 1 → s[j]? = some d → p d = false := by
      intro hf hlast
      obtain ⟨h1, h2, h3⟩ := ih hf
      refine ⟨by omega, h2, ?_⟩
      intro j d hij hj hd
      by_cases hjp : j = pos + 1
      · subst hjp
        exact hlast d hd
      · exact h3 j d hij (by omega) hd
    cases hc : s[pos + 1]? with
    | none =>
      simp only [hc] at h
      exact hrec h (by simp [hc])
    | some c =>
      simp only [hc] at h
      by_cases hp : p c = true
      · rw [if_pos hp] at h
        cases h
        exact ⟨le_refl _, ⟨c, hc, hp⟩, fun j d h1 h2 => by omega⟩
      · rw [if_neg hp] at h
        refine hrec h ?_
        intro d hd
        rw [hc] at hd
        cases hd
        simpa using hp

theorem findLastOf_none (p : Char → Bool) (s : Str) (pos : Nat)
    (h : findLastOf p s pos = none) :
    ∀ j d, j ≤ pos → s[j]? = some d → p d = false := by
  induction pos with
  | zero =>
    intro j d hj hd
    have hj0 : j = 0 := by omega
    subst hj0
    unfold findLastOf at h
    simp only [hd] at h
    by_cases hp : p d = true
    · rw [if_pos hp] at h
      cases h
    · simpa using hp
  | succ pos ih =>
    intro j d hj hd
    unfold findLastOf at h
    cases hc : s[pos + 1]? with
    | none =>
      simp only [hc] at h
      by_cases hjp : j = pos + 1
      · subst hjp
        rw [hc] at hd
        cases hd
      · exact ih h j d (by omega) hd
    | some c =>
      simp only [hc] at h
      by_cases hp : p c = true
      · rw [if_pos hp] at h
        cases h
      · rw [if_neg hp] at h
        by_cases hjp : j = pos + 1
        · subst hjp
          rw [hc] at hd
          cases hd
          simpa using hp
        · exact ih h j d (by omega) hd

theorem wordwrapCut_spec (size : Nat) (next : Str) (hsize : 0 < size) :
    size / 2 < wordwrapCut size next ∧ wordwrapCut size next ≤ size ∧
      IsCut size next (wordwrapCut size next) := by
  have hhalf : size / 2 < size := Nat.div_lt_self hsize (by decide)
  unfold wordwrapCut
  cases hf : findLastOf isBreak next (size - 1) with
  | none =>
    refine ⟨hhalf, le_refl _, Or.inr ⟨?_, rfl⟩⟩
    intro j d _ hj hd
    exact findLastOf_none isBreak next (size - 1) hf j d (by omega) hd
  | some i =>
    obtain ⟨h1, ⟨c, hc, hp⟩, h3⟩ := findLastOf_some isBreak next (size - 1) i hf
    by_cases hi : i < size / 2
    · simp only [if_pos hi]
      refine ⟨hhalf, le_refl _, Or.inr ⟨?_, rfl⟩⟩
      intro j d hj1 hj2 hd
      exact h3 j d (by omega) (by omega) hd
    · simp only [if_neg hi]
      refine ⟨by omega, by omega, Or.inl ⟨i, c, by omega, by omega, hc, hp, ?_, rfl⟩⟩
      intro j d hj1 hj2 hd
      exact h3 j d hj1 (by omega) hd

theorem wordwrapLoop_spec (size : Nat) (hsize : 0 < size) (n : Nat) :
    ∀ next : Str, next.length ≤ n →
      ∃ pieces : List Str,
        (∀ fuel result, next.length < fuel →
          wordwrapLoop size fuel next result = some (result ++ pieces)) ∧
        pieces ≠ [] ∧ pieces.flatten = next ∧ (∀ x ∈ pieces, x.length ≤ size) ∧
        (∀ x ∈ pieces.dropLast, size / 2 < x.length) ∧ CutsAt size pieces := by
  induction n with
  | zero =>
    intro next hn
    refine ⟨[next], ?_, by simp, by simp, ?_, by simp, trivial⟩
    · intro fuel result hfuel
      obtain ⟨f, rfl⟩ : ∃ f, fuel = f + 1 := ⟨fuel - 1, by omega⟩
      rw [wordwrapLoop, if_neg (by omega)]
    · intro x hx
      rw [List.mem_singleton.1 hx]
      omega
  | succ n ih =>
    intro next hn
    by_cases hlen : next.length > size
    · obtain ⟨hm1, hm2, hcut⟩ := wordwrapCut_spec size next hsize
      have htake : (next.take (wordwrapCut size next)).length = wordwrapCut size next := by
        rw [List.length_take]
        omega
      have hdrop : (next.drop (wordwrapCut size next)).length ≤ n := by
        rw [List.length_drop]
        omega
      have hdrop2 : (next.drop (wordwrapCut size next)).length < next.length := by
        rw [List.length_drop]
        omega
      obtain ⟨pieces, hloop, hne, hflat, hmax, hmin, hcuts⟩ := ih _ hdrop
      obtain ⟨q, qs, rfl⟩ := List.exists_cons_of_ne_nil hne
      refine ⟨next.take (wordwrapCut size next) :: q :: qs, ?_, by simp, ?_, ?_, ?_, ?_⟩
      · intro fuel result hfuel
        obtain ⟨f, rfl⟩ : ∃ f, fuel = f + 1 := ⟨fuel - 1, by omega⟩
        rw [wordwrapLoop, if_pos hlen, hloop f _ (by omega)]
        simp
      · rw [List.flatten_cons, hflat, List.take_append_drop]
      · intro x hx
        rcases List.mem_cons.1 hx with rfl | hx
        · omega
        · exact hmax x hx
      · intro x hx
        rw [List.dropLast_cons₂] at hx
        rcases List.mem_cons.1 hx with rfl | hx
        · omega
        · exact hmin x hx
      · refine ⟨?_, hcuts⟩
        rw [hflat, List.take_append_drop, htake]
        exact hcut
    · refine ⟨[next], ?_, by simp, by simp, ?_, by simp, trivial⟩
      · intro fuel result hfuel
        obtain ⟨f, rfl⟩ : ∃ f, fuel = f + 1 := ⟨fuel - 1, by omega⟩
        rw [wordwrapLoop, if_neg hlen]
      · intro x hx
        rw [List.mem_singleton.1 hx]
        omega

/-- C27: for every string value and every size > 0, wordwrap(value, size) ends
after at most as many iterations as value has characters and returns a non-empty
list of pieces whose concatenation is value; every piece has at most size
characters, every piece but the last has more than size / 2 characters, and each
such piece is cut off the text still to wrap just after the last '.', ',' or ' '
among its first size characters, or at size when there is none at index size / 2
or later. For size = 0 the result is the single piece value. -/
theorem wordwrap_spec (value : Str) (size : Nat) :
    (0 < size →
      ∃ pieces : List Str,
        (∀ fuel, value.length < fuel → wordwrap fuel value size = some pieces) ∧
        pieces ≠ [] ∧ pieces.flatten = value ∧ (∀ x ∈ pieces, x.length ≤ size) ∧
        (∀ x ∈ pieces.dropLast, size / 2 < x.length) ∧ CutsAt size pieces) ∧
    (∀ fuel, wordwrap fuel value 0 = some [value]) := by
  refine ⟨?_, fun fuel => rfl⟩
  intro hsize
  obtain ⟨pieces, hloop, hrest⟩ := wordwrapLoop_spec size hsize value.length value (le_refl _)
  refine ⟨pieces, ?_, hrest⟩
  intro fuel hfuel
  rw [wordwrap, if_pos hsize, hloop fuel [] hfuel]
  rfl

/-- Witness of C27: a text of 20 characters wrapped at 10, cut after a space and
after a comma followed by a space. -/
theorem wordwrap_spec_witness :
    wordwrap 21 "hello world, this is".data 10 =
        some ["hello ".data, "world, ".data, "this is".data] ∧
      ∃ pieces : List Str,
        (∀ fuel, "hello world, this is".data.length < fuel →
          wordwrap fuel "hello world, this is".data 10 = some pieces) ∧
        pieces ≠ [] ∧ pieces.flatten = "hello world, this is".data ∧
        (∀ x ∈ pieces, x.length ≤ 10) ∧
        (∀ x ∈ pieces.dropLast, 10 / 2 < x.length) ∧ CutsAt 10 pieces :=
  ⟨by decide, (wordwrap_spec "hello world, this is".data 10).1 (by decide)⟩

/-! ## Suggestions -/

theorem mem_multimapEmplace (m : List (Int × Str)) (k : Int) (v : Str) (x : Int × Str) :
    x ∈ multimapEmplace m k v ↔ x = (k, v) ∨ x ∈ m := by
  induction m with
  | nil => simp [multimapEmplace]
  | cons e rest ih =>
    unfold multimapEmplace
    by_cases hk : k < e.1
    · rw [if_pos hk]
      simp
    · rw [if_neg hk, List.mem_cons, ih, List.mem_cons]
      tauto

theorem multimapEmplace_sorted (m : List (Int × Str)) (k : Int) (v : Str)
    (h : m.Pairwise (fun a b => a.1 ≤ b.1)) :
    (multimapEmplace m k v).Pairwise (fun a b => a.1 ≤ b.1) := by
  induction m with
  | nil => simp [multimapEmplace]
  | cons e rest ih =>
    obtain ⟨he, hrest⟩ := List.pairwise_cons.1 h
    unfold multimapEmplace
    by_cases hk : k < e.1
    · rw [if_pos hk]
      refine List.pairwise_cons.2 ⟨?_, h⟩
      intro x hx
      rcases List.mem_cons.1 hx with rfl | hx
      · exact le_of_lt hk
      · exact le_trans (le_of_lt hk) (he x hx)
    · rw [if_neg hk]
      refine List.pairwise_cons.2 ⟨?_, ih hrest⟩
      intro x hx
      rcases (mem_multimapEmplace rest k v x).1 hx with rfl | hx
      · exact not_lt.1 hk
      · exact he x hx

theorem mem_walk (p : ProgramOptions) (s : Section) (o : ProgOption)
    (h : (s, o) ∈ p.walk false) :
    ∃ ks ko, (ks, s) ∈ p._sections ∧ s.obsolete = false ∧ (ko, o) ∈ s.options ∧
      o.obsolete = false := by
  unfold ProgramOptions.walk at h
  obtain ⟨⟨ks, s1⟩, hs1, hin⟩ := List.mem_flatMap.1 h
  cases hobs : s1.obsolete with
  | true => simp [hobs] at hin
  | false =>
    simp only [hobs, Bool.false_eq_true, if_false] at hin
    obtain ⟨⟨ko, o1⟩, ho1, hsome⟩ := List.mem_filterMap.1 hin
    cases hobs2 : o1.obsolete with
    | true => simp [hobs2] at hsome
    | false =>
      simp [hobs2] at hsome
      obtain ⟨rfl, rfl⟩ := hsome
      exact ⟨ks, ko, hs1, hobs, ho1, hobs2⟩

theorem distances_fold (sim : Str → Str → Int) (value : Str) (Q : Int × Str → Prop)
    (cands : List (Section × ProgOption))
    (hQ : ∀ so ∈ cands, so.2.fullName ≠ value →
      Q (sim value so.2.fullName, so.2.displayName)) :
    ∀ init : List (Int × Str), init.Pairwise (fun a b => a.1 ≤ b.1) → (∀ x ∈ init, Q x) →
      (cands.foldl
        (fun distances so =>
          if so.2.fullName ≠ value then
            multimapEmplace distances (sim value so.2.fullName) so.2.displayName
          else distances) init).Pairwise (fun a b => a.1 ≤ b.1) ∧
      ∀ x ∈ cands.foldl
        (fun distances so =>
          if so.2.fullName ≠ value then
            multimapEmplace distances (sim value so.2.fullName) so.2.displayName
          else distances) init, Q x := by
  induction cands with
  | nil => exact fun init h1 h2 => ⟨h1, h2⟩
  | cons c cands ih =>
    intro init h1 h2
    have hQ1 : ∀ so ∈ cands, so.2.fullName ≠ value →
        Q (sim value so.2.fullName, so.2.displayName) :=
      fun so hso => hQ so (by simp [hso])
    rw [List.foldl_cons]
    by_cases hc : c.2.fullName ≠ value
    · rw [if_pos hc]
      refine ih hQ1 _ (multimapEmplace_sorted _ _ _ h1) ?_
      intro x hx
      rcases (mem_multimapEmplace _ _ _ x).1 hx with rfl | hx
      · exact hQ c (by simp) hc
      · exact h2 x hx
    · rw [if_neg hc]
      exact ih hQ1 init h1 h2

theorem distances_sorted (p : ProgramOptions) (sim : Str → Str → Int) (value : Str) :
    (p.distances sim value).Pairwise (fun a b => a.1 ≤ b.1) :=
  (distances_fold sim value (fun _ => True) (p.walk false) (fun _ _ _ => trivial) []
    List.Pairwise.nil (fun _ _ => trivial)).1

theorem mem_distances (p : ProgramOptions) (sim : Str → Str → Int) (value : Str)
    (x : Int × Str) (hx : x ∈ p.distances sim value) :
    ∃ ks s ko o, (ks, s) ∈ p._sections ∧ s.obsolete = false ∧ (ko, o) ∈ s.options ∧
      o.obsolete = false ∧ o.fullName ≠ value ∧
      x = (sim value o.fullName, o.displayName) := by
  refine (distances_fold sim value
    (fun x => ∃ ks s ko o, (ks, s) ∈ p._sections ∧ s.obsolete = false ∧
      (ko, o) ∈ s.options ∧ o.obsolete = false ∧ o.fullName ≠ value ∧
      x = (sim value o.fullName, o.displayName))
    (p.walk false) ?_ [] List.Pairwise.nil (by simp)).2 x hx
  intro so hso hne
  obtain ⟨ks, ko, h1, h2, h3, h4⟩ := mem_walk p so.1 so.2 hso
  exact ⟨ks, so.1, ko, so.2, h1, h2, h3, h4, hne, rfl⟩

theorem similarLoop_picks (cutOff : Int) (max : Nat) (ds : List (Int × Str)) :
    ∀ (last : Int) (result : List Str),
      ∃ picks : List (Int × Str), picks.Sublist ds ∧ (∀ x ∈ picks, x.1 ≤ cutOff) ∧
        ProgramOptions.similarLoop cutOff max last result ds =
          result ++ picks.map Prod.snd ∧
        (result.length < max → (result ++ picks.map Prod.snd).length ≤ max) := by
  induction ds with
  | nil =>
    intro last result
    exact ⟨[], List.Sublist.refl _, by simp, by simp [ProgramOptions.similarLoop],
      fun h => by simp; omega⟩
  | cons it rest ih =>
    intro last result
    unfold ProgramOptions.similarLoop
    by_cases hbreak : last > 1 ∧ it.1 > 2 * last
    · rw [if_pos hbreak]
      exact ⟨[], List.nil_sublist _, by simp, by simp, fun h => by simp; omega⟩
    · rw [if_neg hbreak]
      by_cases hcut : it.1 > cutOff
      · rw [if_pos hcut]
        obtain ⟨picks, h1, h2, h3, h4⟩ := ih last result
        exact ⟨picks, List.Sublist.cons _ h1, h2, h3, h4⟩
      · rw [if_neg hcut]
        by_cases hmax : (result ++ [it.2]).length ≥ max
        · rw [if_pos hmax]
          refine ⟨[it], ?_, ?_, rfl, ?_⟩
          · exact List.Sublist.cons₂ _ (List.nil_sublist _)
          · intro x hx
            rw [List.mem_singleton.1 hx]
            exact not_lt.1 hcut
          · intro h
            simp
            omega
        · rw [if_neg hmax]
          obtain ⟨picks, h1, h2, h3, h4⟩ := ih it.1 (result ++ [it.2])
          refine ⟨it :: picks, List.Sublist.cons₂ _ h1, ?_, ?_, ?_⟩
          · intro x hx
            rcases List.mem_cons.1 hx with rfl | hx
            · exact not_lt.1 hcut
            · exact h2 x hx
          · rw [h3]
            simp
          · intro _
            have := h4 (by omega)
            simpa using this

/-- C22: for every registry and unknown name u, similar(u, 8, 4) has at most 4
entries; and its entries are the second components of a list of pairs (distance,
display name) in ascending order of distance, where each pair has a distance of at
most 8 and belongs to a non-obsolete option, hidden or not, of a non-obsolete
section whose full name differs from u: the distance is the one the similarity
function gives between u and that full name, the name is the option's display
name. -/
theorem similar_spec (p : ProgramOptions) (u : Str) :
    (p.similar u 8 4).length ≤ 4 ∧
    ∃ picks : List (Int × Str),
      p.similar u 8 4 = picks.map Prod.snd ∧
      picks.Pairwise (fun a b => a.1 ≤ b.1) ∧
      ∀ x ∈ picks, x.1 ≤ 8 ∧
        ∃ sim ks s ko o, p._similarity = some sim ∧ (ks, s) ∈ p._sections ∧
          s.obsolete = false ∧ (ko, o) ∈ s.options ∧ o.obsolete = false ∧
          o.fullName ≠ u ∧ x = (sim u o.fullName, o.displayName) := by
  unfold ProgramOptions.similar
  cases hsim : p._similarity with
  | none => exact ⟨by simp, [], rfl, List.Pairwise.nil, by simp⟩
  | some sim =>
    obtain ⟨picks, h1, h2, h3, h4⟩ := similarLoop_picks 8 4 (p.distances sim u) 0 []
    simp only [h3]
    refine ⟨h4 (by simp), picks, by simp, (distances_sorted p sim u).sublist h1, ?_⟩
    intro x hx
    obtain ⟨ks, s, ko, o, g1, g2, g3, g4, g5, g6⟩ :=
      mem_distances p sim u x (h1.subset hx)
    exact ⟨h2 x hx, sim, ks, s, ko, o, rfl, g1, g2, g3, g4, g5, g6⟩

set_option maxRecDepth 100000 in
/-- Witness of C22: the suggestions of `suggest` for the unknown name "por". -/
theorem similar_spec_witness :
    suggest.similar "por".data 8 4 = ["--port".data, "--protocol".data] ∧
      (suggest.similar "por".data 8 4).length ≤ 4 :=
  ⟨rfl, (similar_spec suggest "por".data).1⟩

theorem similarLoop_all (cutOff : Int) (max : Nat) (ds : List (Int × Str)) :
    ∀ (last : Int) (result : List Str),
      ds.Pairwise (fun a b => a.1 ≤ b.1) →
      (∀ f ∈ (ds.filter (fun x => decide (x.1 ≤ cutOff))).head?,
        last ≤ 1 ∨ f.1 ≤ 2 * last) →
      List.Chain' (fun a b : Int × Str => a.1 ≤ 1 ∨ b.1 ≤ 2 * a.1)
        (ds.filter (fun x => decide (x.1 ≤ cutOff))) →
      result.length < max →
      ProgramOptions.similarLoop cutOff max last result ds =
        result ++ ((ds.filter (fun x => decide (x.1 ≤ cutOff))).take
          (max - result.length)).map Prod.snd := by
  induction ds with
  | nil =>
    intro last result _ _ _ _
    simp [ProgramOptions.similarLoop]
  | cons it rest ih =>
    intro last result hsorted hhead hchain hlen
    obtain ⟨hit, hrest⟩ := List.pairwise_cons.1 hsorted
    unfold ProgramOptions.similarLoop
    by_cases hcut : it.1 > cutOff
    · have hnone : (it :: rest).filter (fun x => decide (x.1 ≤ cutOff)) = [] := by
        rw [List.filter_eq_nil_iff]
        intro x hx
        rcases List.mem_cons.1 hx with rfl | hx
        · simpa using hcut
        · have := hit x hx
          simp
          omega
      have hfilter : (it :: rest).filter (fun x => decide (x.1 ≤ cutOff)) =
          rest.filter (fun x => decide (x.1 ≤ cutOff)) := by
        rw [List.filter_cons, if_neg (by simpa using hcut)]
      by_cases hbreak : last > 1 ∧ it.1 > 2 * last
      · rw [if_pos hbreak, hnone]
        simp
      · rw [if_neg hbreak, if_pos hcut, hfilter]
        rw [hfilter] at hhead hchain
        exact ih last result hrest hhead hchain hlen
    · have hle : it.1 ≤ cutOff := not_lt.1 hcut
      have hfilter : (it :: rest).filter (fun x => decide (x.1 ≤ cutOff)) =
          it :: rest.filter (fun x => decide (x.1 ≤ cutOff)) := by
        rw [List.filter_cons, if_pos (by simpa using hle)]
      rw [hfilter] at hhead hchain
      have hno : ¬ (last > 1 ∧ it.1 > 2 * last) := by
        have := hhead it (by simp)
        omega
      rw [if_neg hno, if_neg hcut, hfilter]
      by_cases hmax : (result ++ [it.2]).length ≥ max
      · rw [if_pos hmax]
        have h1 : max - result.length = 1 := by
          simp at hmax
          omega
        rw [h1]
        simp
      · rw [if_neg hmax]
        have hlen2 : (result ++ [it.2]).length < max := by omega
        have hl : (result ++ [it.2]).length = result.length + 1 := by simp
        rw [ih it.1 (result ++ [it.2]) hrest ?_ (List.Chain'.tail hchain) hlen2]
        · have h1 : max - result.length = (max - (result ++ [it.2]).length) + 1 := by
            omega
          rw [h1, List.take_succ_cons]
          simp
        · intro f hf
          cases hr : rest.filter (fun x => decide (x.1 ≤ cutOff)) with
          | nil => simp [hr] at hf
          | cons g gs =>
            rw [hr] at hf hchain
            simp at hf
            subst hf
            exact (List.chain'_cons.1 hchain).1

set_option maxRecDepth 100000 in
/-- C23 (counterexample): for the unknown name "pt" the registry `suggest` has the
candidates "--port" at distance 2 and "--protocol" at distance 6, both within the
cut-off distance 8, and the suggestion list holds just "--port": the scan stops at
"--protocol" after one accepted candidate. -/
theorem similar_single_suggestion :
    suggest.distances (similarityFunc 0) "pt".data =
        [(2, "--port".data), (6, "--protocol".data), (10, "--server.ports".data)] ∧
      suggest.similar "pt".data 8 4 = ["--port".data] :=
  ⟨rfl, rfl⟩

/-- C23 (amended): the scan stops early only at a candidate whose distance exceeds
twice the distance of the candidate accepted before it, and only when that
distance is greater than 1: when no two successive candidates within the cut-off
distance 8 are so placed, the suggestion list holds the nearest candidates within
the cut-off, up to 4 of them. Consequently, when the two nearest candidates, at
the distances d1 and d2, lie within the cut-off, the list begins with both of
them if d1 is at most 1 or d2 is at most twice d1, and otherwise it holds the
nearest candidate alone. -/
theorem similar_early_stop (p : ProgramOptions) (sim : Str → Str → Int) (u : Str)
    (hsim : p._similarity = some sim) :
    (List.Chain' (fun a b : Int × Str => a.1 ≤ 1 ∨ b.1 ≤ 2 * a.1)
        ((p.distances sim u).filter (fun x => decide (x.1 ≤ 8))) →
      p.similar u 8 4 =
        (((p.distances sim u).filter (fun x => decide (x.1 ≤ 8))).take 4).map Prod.snd) ∧
    (∀ (d1 : Int) (n1 : Str) (d2 : Int) (n2 : Str) (rest : List (Int × Str)),
      p.distances sim u = (d1, n1) :: (d2, n2) :: rest → d2 ≤ 8 →
      d1 ≤ d2 ∧
      (d1 ≤ 1 ∨ d2 ≤ 2 * d1 → ∃ more, p.similar u 8 4 = n1 :: n2 :: more) ∧
      (1 < d1 ∧ 2 * d1 < d2 → p.similar u 8 4 = [n1])) := by
  constructor
  · intro hchain
    rw [ProgramOptions.similar, hsim]
    exact similarLoop_all 8 4 _ 0 [] (distances_sorted p sim u) (fun _ _ => Or.inl (by decide))
      hchain (by simp)
  · intro d1 n1 d2 n2 rest hds hd2
    have hsorted := distances_sorted p sim u
    rw [hds] at hsorted
    have h12 : d1 ≤ d2 := (List.pairwise_cons.1 hsorted).1 (d2, n2) (by simp)
    have hstep : p.similar u 8 4 =
        ProgramOptions.similarLoop 8 4 d1 [n1] ((d2, n2) :: rest) := by
      rw [ProgramOptions.similar, hsim]
      simp only [hds]
      rw [ProgramOptions.similarLoop, if_neg (by omega), if_neg (by simp; omega),
        if_neg (by simp)]
      rfl
    refine ⟨h12, ?_, ?_⟩
    · intro hno
      rw [hstep, ProgramOptions.similarLoop, if_neg (by simp; omega),
        if_neg (by simp; omega), if_neg (by simp)]
      obtain ⟨picks, _, _, h3, _⟩ := similarLoop_picks 8 4 rest d2 ([n1] ++ [n2])
      exact ⟨picks.map Prod.snd, by simpa using h3⟩
    · intro hyes
      rw [hstep, ProgramOptions.similarLoop, if_pos (by simp; omega)]

set_option maxRecDepth 100000 in
/-- Witness of C23: for the unknown name "por" the nearest candidate of `suggest`
is at distance 1, and the list begins with the two nearest candidates. -/
theorem similar_early_stop_witness :
    ∃ more, suggest.similar "por".data 8 4 = "--port".data :: "--protocol".data :: more :=
  ((similar_early_stop suggest (similarityFunc 0) "por".data rfl).2
    1 "--port".data 6 "--protocol".data [(9, "--server.ports".data)]
    rfl (by decide)).2.1 (Or.inl (by decide))

/-! ## Repeated assignment -/

theorem setValue_accepted (p : ProgramOptions) (F v : Str) (s : Section) (o : ProgOption)
    (hres : p.resolve F = some (s, o)) (hs : s.obsolete = false) (ho : o.obsolete = false)
    (hacc : o.parameter.check o.parameter.calls v = []) :
    (p.setValue F v).1 = true ∧
    (p.setValue F v).2.resolve F =
      some ({ s with options := (mapUpdate s.options (splitName F).2
                (fun o1 => { o1 with parameter := (o.parameter.set v).2 })) },
            { o with parameter := (o.parameter.set v).2 }) ∧
    (p.setValue F v).2._processingResult._touched =
      setEmplace p._processingResult._touched F := by
  obtain ⟨h1, h2⟩ := (resolve_eq_some p F s o).1 hres
  simp [ProgramOptions.setValue, h1, h2, hs, ho, Parameter.set, hacc, resolve_eq_some,
    mapFind_mapUpdate, ProcessingResult.touch]

theorem setEmplace_idem (t : List Str) (x : Str) :
    setEmplace (setEmplace t x) x = setEmplace t x ∧
      (t.Nodup → ∃ pre post, setEmplace t x = pre ++ x :: post ∧ x ∉ pre ∧ x ∉ post) := by
  by_cases h : x ∈ t
  · have e : setEmplace t x = t := by simp [setEmplace, h]
    rw [e, e]
    refine ⟨rfl, fun hn => ?_⟩
    obtain ⟨pre, post, rfl⟩ := List.append_of_mem h
    obtain ⟨_, h2, h3⟩ := List.nodup_append.1 hn
    exact ⟨pre, post, rfl, fun hx => h3 hx (by simp), (List.nodup_cons.1 h2).1⟩
  · have e : setEmplace t x = t ++ [x] := by simp [setEmplace, h]
    rw [e]
    exact ⟨by simp [setEmplace], fun _ => ⟨t, [], rfl, h, by simp⟩⟩

theorem parse_assign_twice (p : ProgramOptions) (prog F v1 v2 : Str) (s : Section)
    (o : ProgOption) (hres : p.resolve F = some (s, o)) (hs : s.obsolete = false)
    (ho : o.obsolete = false) (hreq : o.parameter.requiresValue = true)
    (hF : F ≠ []) (hFeq : '=' ∉ F)
    (hacc1 : o.parameter.check o.parameter.calls v1 = []) :
    ArgumentParser.parse p [prog, '-' :: '-' :: (F ++ '=' :: v1)] =
      (true, ((p.setContext ArgumentParser.context).setValue F v1).2) ∧
    ArgumentParser.parse p [prog, '-' :: '-' :: (F ++ '=' :: v1), '-' :: '-' :: F, v2] =
      ((((p.setContext ArgumentParser.context).setValue F v1).2.setValue F v2).1,
        (((p.setContext ArgumentParser.context).setValue F v1).2.setValue F v2).2) := by
  have hres0 : (p.setContext ArgumentParser.context).resolve F = some (s, o) := hres
  obtain ⟨a1, _, _⟩ := setValue_accepted _ F v1 s o hres0 hs ho hacc1
  have hl : (p.setContext ArgumentParser.context).lookupReq F = some true := by
    show p.lookupReq F = some true
    simp [ProgramOptions.lookupReq, hres, hreq]
  have hl1 : ((p.setContext ArgumentParser.context).setValue F v1).2.lookupReq F =
      some true := by
    rw [setValue_lookupReq]
    exact hl
  have e1 : ArgumentParser.parseStep (p.setContext ArgumentParser.context) []
      ('-' :: '-' :: (F ++ '=' :: v1)) =
        (some [], ((p.setContext ArgumentParser.context).setValue F v1).2) := by
    rw [parseStep_long_eq _ _ _ hFeq]
    simp [ArgumentParser.setAndClear, a1]
  constructor
  · simp [ArgumentParser.parse, ArgumentParser.parseLoop, e1]
  · simp only [ArgumentParser.parse, List.drop_one, List.tail_cons, ArgumentParser.parseLoop,
      e1, parseStep_long _ _ hFeq, onlyOption_pending _ _ _ hl1, parseStep_pending _ _ _ hF,
      ArgumentParser.setAndClear]
    generalize ((p.setContext ArgumentParser.context).setValue F v1).2.setValue F v2 = r
    obtain ⟨b, q⟩ := r
    cases b <;> simp

/-- C25 (counterexample): the three options of `valued` are not obsolete, require a
value and accept every value. For `century` of the obsolete section `y2kbug` the
parse of `[prog, "--y2kbug.century=v1", "--y2kbug.century", "v2"]` returns true,
never calls the setter and touches nothing. For `level=max` the first token is
split at its first '=', the option `level` is unknown, and the parse fails with
no call of the setter. For the option with the empty name the token "--" leaves
no pending option, so that "v2" becomes a positional argument and the setter is
called with "v1" only. -/
theorem parse_twice_failures :
    (valued.resolve "y2kbug.century".data).map
      (fun so => (so.2.obsolete, so.2.parameter.requiresValue)) = some (false, true) ∧
    (ArgumentParser.parse valued ["prog".data, "--y2kbug.century=v1".data,
      "--y2kbug.century".data, "v2".data]).1 = true ∧
    ((ArgumentParser.parse valued ["prog".data, "--y2kbug.century=v1".data,
      "--y2kbug.century".data, "v2".data]).2.resolve "y2kbug.century".data).map
        (fun so => so.2.parameter.calls) = some [] ∧
    (ArgumentParser.parse valued ["prog".data, "--y2kbug.century=v1".data,
      "--y2kbug.century".data, "v2".data]).2.processingResult._touched = [] ∧
    (valued.resolve "level=max".data).map
      (fun so => (so.1.obsolete, so.2.obsolete, so.2.parameter.requiresValue)) =
        some (false, false, true) ∧
    (ArgumentParser.parse valued ["prog".data, "--level=max=v1".data,
      "--level=max".data, "v2".data]).1 = false ∧
    ((ArgumentParser.parse valued ["prog".data, "--level=max=v1".data,
      "--level=max".data, "v2".data]).2.resolve "level=max".data).map
        (fun so => so.2.parameter.calls) = some [] ∧
    (valued.resolve []).map
      (fun so => (so.1.obsolete, so.2.obsolete, so.2.parameter.requiresValue)) =
        some (false, false, true) ∧
    (ArgumentParser.parse valued ["prog".data, "--=v1".data, "--".data, "v2".data]).1 =
      true ∧
    ((ArgumentParser.parse valued ["prog".data, "--=v1".data, "--".data,
      "v2".data]).2.resolve []).map (fun so => so.2.parameter.calls) = some ["v1".data] ∧
    (ArgumentParser.parse valued ["prog".data, "--=v1".data, "--".data,
      "v2".data]).2.processingResult._positionals = ["v2".data] := by
  decide

/-- C25 (amended): let the name F, non-empty and without '=', resolve to an option
that is not obsolete, of a section that is not obsolete, whose Parameter requires
a value, accepts v1 and, after that, accepts v2. Then parsing
`[prog, "--F=v1", "--F", v2]` returns true and calls the setter of F twice, with v1
and then with v2, where parsing `[prog, "--F=v1"]` calls it once; both leave the
same touched set, the set before the parse with F put in; and F occurs in it
exactly once. -/
theorem parse_twice (p : ProgramOptions) (prog F v1 v2 : Str) (s : Section)
    (o : ProgOption) (hres : p.resolve F = some (s, o)) (hs : s.obsolete = false)
    (ho : o.obsolete = false) (hreq : o.parameter.requiresValue = true)
    (hF : F ≠ []) (hFeq : '=' ∉ F)
    (hacc1 : o.parameter.check o.parameter.calls v1 = [])
    (hacc2 : o.parameter.check (o.parameter.calls ++ [v1]) v2 = []) :
    (ArgumentParser.parse p
      [prog, '-' :: '-' :: (F ++ '=' :: v1), '-' :: '-' :: F, v2]).1 = true ∧
    ((ArgumentParser.parse p
      [prog, '-' :: '-' :: (F ++ '=' :: v1), '-' :: '-' :: F, v2]).2.resolve F).map
        (fun so => so.2.parameter.calls) = some (o.parameter.calls ++ [v1, v2]) ∧
    ((ArgumentParser.parse p [prog, '-' :: '-' :: (F ++ '=' :: v1)]).2.resolve F).map
        (fun so => so.2.parameter.calls) = some (o.parameter.calls ++ [v1]) ∧
    (ArgumentParser.parse p
      [prog, '-' :: '-' :: (F ++ '=' :: v1), '-' :: '-' :: F, v2]).2.processingResult._touched =
      (ArgumentParser.parse p
        [prog, '-' :: '-' :: (F ++ '=' :: v1)]).2.processingResult._touched ∧
    (ArgumentParser.parse p
      [prog, '-' :: '-' :: (F ++ '=' :: v1), '-' :: '-' :: F, v2]).2.processingResult._touched =
      setEmplace p.processingResult._touched F ∧
    (p.processingResult._touched.Nodup →
      ∃ pre post,
        (ArgumentParser.parse p [prog, '-' :: '-' :: (F ++ '=' :: v1), '-' :: '-' :: F,
          v2]).2.processingResult._touched = pre ++ F :: post ∧ F ∉ pre ∧ F ∉ post) := by
  obtain ⟨e1, e3⟩ := parse_assign_twice p prog F v1 v2 s o hres hs ho hreq hF hFeq hacc1
  have hres0 : (p.setContext ArgumentParser.context).resolve F = some (s, o) := hres
  obtain ⟨_, a2, a3⟩ := setValue_accepted _ F v1 s o hres0 hs ho hacc1
  obtain ⟨b1, b2, b3⟩ := setValue_accepted _ F v2 _ _ a2 hs ho hacc2
  have ht0 : (p.setContext ArgumentParser.context)._processingResult._touched =
      p.processingResult._touched := rfl
  rw [ht0] at a3
  rw [a3] at b3
  rw [(setEmplace_idem p.processingResult._touched F).1] at b3
  rw [e3, e1]
  refine ⟨b1, ?_, ?_, ?_, b3, ?_⟩
  · rw [b2]
    simp [Parameter.set]
  · rw [a2]
    simp [Parameter.set]
  · exact b3.trans a3.symm
  · intro hn
    obtain ⟨pre, post, h1, h2, h3⟩ := (setEmplace_idem p.processingResult._touched F).2 hn
    exact ⟨pre, post, b3.trans h1, h2, h3⟩

/-- Witness of C25: the numeric option `database.journal-size` of `sample`, set
to "1" and then to "2". -/
theorem parse_twice_witness :
    (ArgumentParser.parse sample ["prog".data, "--database.journal-size=1".data,
      "--database.journal-size".data, "2".data]).1 = true ∧
    ((ArgumentParser.parse sample ["prog".data, "--database.journal-size=1".data,
      "--database.journal-size".data, "2".data]).2.resolve
        "database.journal-size".data).map (fun so => so.2.parameter.calls) =
      some ["1".data, "2".data] ∧
    (ArgumentParser.parse sample ["prog".data, "--database.journal-size=1".data,
      "--database.journal-size".data, "2".data]).2.processingResult._touched =
      (ArgumentParser.parse sample
        ["prog".data, "--database.journal-size=1".data]).2.processingResult._touched :=
  have h := parse_twice sample "prog".data "database.journal-size".data "1".data "2".data
    _ _ rfl (by decide) (by decide) (by decide) (by decide) (by decide) (by decide) (by decide)
  ⟨h.1, h.2.1, h.2.2.2.1⟩

/-! ## The similarity callback -/

end options
end arangodb
